import Mathlib

/-!
MiNiFi C++ flow-execution runtime: processor graph, scheduling, repositories
and property parsing.

A shallow embedding of `libminifi/src/core/Processor.cpp`,
`libminifi/src/CronDrivenSchedulingAgent.cpp`,
`libminifi/include/core/repository/VolatileRepository.h`,
`libminifi/include/core/Property.h`, `extensions/libarchive/BinFiles.h` and the
priority field of `extensions/standard-processors/processors/ListenSyslog.cpp`.

Objects live in a `Graph`: a `Connectable*` that is a `Connection` is an index
into `Graph.conns`, a `Connectable*` that is a `Processor` is an index into
`Graph.procs`; `dynamic_cast` is the lookup at that index and fails (returns
`none`) when the index is out of range.  `nullptr` is `none`.

* `std::set<Connectable*>` is a list kept sorted by pointer value, which is the
  iteration order of the C++ container.
* `std::map<std::string, std::set<Connectable*>>` is an association list kept
  sorted by key.
* `std::unordered_map<Connection*, std::unordered_set<Processor*>>` is an
  association list in insertion order; C++ leaves its iteration order
  unspecified, and nothing below depends on it.
* `std::chrono::system_clock::time_point` is an integer number of nanoseconds;
  `duration_cast<milliseconds>` truncates toward zero.
-/

namespace MiNiFi

/-! ## Data model -/

/-- The type `utils::Identifier`; only equality of identifiers is used. -/
abbrev Identifier := Nat

/-- The enum `core::ScheduledState`. -/
inductive ScheduledState where
  | DISABLED
  | STOPPED
  | RUNNING
deriving DecidableEq, Repr

/-- The members of `minifi::Connection` that `Processor.cpp` reads and writes.
`isFull` is the answer of `Connection::isFull()`, a function declared outside
the embedded sources. -/
structure Connection where
  srcUUID : Identifier
  destUUID : Identifier
  relationships : List String := []
  source : Option Nat := none
  destination : Option Nat := none
  isFull : Bool := false
deriving DecidableEq, Repr

/-- The members of `core::Processor` (and of its base `Connectable`) that the
embedded functions use.  `incoming_connections_Iter` is the position of the
iterator in `incoming_connections` (a position past the last one is `end()`);
`yield_expiration` is in nanoseconds. -/
structure Processor where
  uuid : Identifier
  state : ScheduledState := ScheduledState.DISABLED
  active_tasks : Nat := 0
  incoming_connections : List Nat := []
  incoming_connections_Iter : Nat := 0
  outgoing_connections : List (String × List Nat) := []
  reachable_processors : List (Nat × List Nat) := []
  yield_expiration : Int := 0
  cron_period : String := ""
  max_concurrent_tasks : Nat := 1
deriving DecidableEq, Repr

/-- The object graph: every `Processor` and every `Connection` that exists. -/
structure Graph where
  procs : List Processor
  conns : List Connection
deriving DecidableEq, Repr

/-! ## Containers -/

/-- Insertion into a `std::set<Connectable*>`. -/
def setInsert (x : Nat) (s : List Nat) : List Nat :=
  if x ∈ s then s else List.orderedInsert (fun a b => a ≤ b) x s

/-- Byte-wise order of `std::string` keys (`a ≤ b`). -/
def keyLe (a b : String) : Prop :=
  ¬ (b.toList.map Char.toNat < a.toList.map Char.toNat)

instance keyLe_decidable : DecidableRel keyLe := fun a b => by
  unfold keyLe; exact inferInstance

/-- The lookup `outgoing_connections_.find(relationship)`. -/
def mapFind (k : String) : List (String × List Nat) → Option (List Nat)
  | [] => none
  | (k', v) :: m => if k' = k then some v else mapFind k m

/-- The assignment `outgoing_connections_[relationship] = v`. -/
def mapAssign (k : String) (v : List Nat) :
    List (String × List Nat) → List (String × List Nat)
  | [] => [(k, v)]
  | (k', v') :: m =>
    if k' = k then (k, v) :: m
    else if keyLe k' k then (k', v') :: mapAssign k v m
    else (k, v) :: (k', v') :: m

/-- The lookup `reachable_processors_.find(conn)`. -/
def reachFind (c : Nat) : List (Nat × List Nat) → Option (List Nat)
  | [] => none
  | (c', s) :: m => if c' = c then some s else reachFind c m

/-- The statement `reachable_processors_[c].insert(q)`: the new map and the
`.second` of the insertion (whether `q` was new). -/
def reachInsert (c q : Nat) : List (Nat × List Nat) → List (Nat × List Nat) × Bool
  | [] => ([(c, [q])], true)
  | (c', s) :: m =>
    if c' = c then
      if q ∈ s then ((c', s) :: m, false) else ((c', s ++ [q]) :: m, true)
    else ((c', s) :: (reachInsert c q m).1, (reachInsert c q m).2)

/-! ## Processor.cpp -/

/-- The function `Processor::isRunning`. -/
def Processor.isRunning (p : Processor) : Bool :=
  decide (p.state = ScheduledState.RUNNING) && decide (p.active_tasks > 0)

/-- Apply `f` to the processor at `self`. -/
def Graph.modifyProc (g : Graph) (self : Nat) (f : Processor → Processor) : Graph :=
  match g.procs[self]? with
  | none => g
  | some p => { g with procs := g.procs.set self (f p) }

/-- Apply `f` to the connection at `conn`. -/
def Graph.modifyConn (g : Graph) (conn : Nat) (f : Connection → Connection) : Graph :=
  match g.conns[conn]? with
  | none => g
  | some c => { g with conns := g.conns.set conn (f c) }

/-- The set `reachable_processors_[c]` of processor `self` (empty when absent). -/
def Graph.reach (g : Graph) (self c : Nat) : List Nat :=
  match g.procs[self]? with
  | none => []
  | some p => (reachFind c p.reachable_processors).getD []

/-- The statement `reachable_processors_[c].insert(q).second` executed by `self`. -/
def insertReachable (g : Graph) (self c q : Nat) : Graph × Bool :=
  match g.procs[self]? with
  | none => (g, false)
  | some p =>
    let r := reachInsert c q p.reachable_processors
    ({ g with procs := g.procs.set self { p with reachable_processors := r.1 } }, r.2)

/-- Every processor stored in any set of `dest->reachable_processors_`, in
iteration order. -/
def allReached (g : Graph) (dest : Nat) : List Nat :=
  match g.procs[dest]? with
  | none => []
  | some d => d.reachable_processors.flatMap (fun e => e.2)

/-- The casts at the head of the first loop of `updateReachability`:
`dynamic_cast<Connection*>(outConn)`, then
`dynamic_cast<Processor*>(connection->getDestination())`; `none` is `continue`. -/
def destinationOf (g : Graph) (outConn : Nat) : Option Nat :=
  match g.conns[outConn]? with
  | none => none
  | some connection =>
    match connection.destination with
    | none => none
    | some dest =>
      match g.procs[dest]? with
      | none => none
      | some _ => some dest

/-- The casts at the head of the second loop of `updateReachability`:
`dynamic_cast<Connection*>(inConn)`, then
`dynamic_cast<Processor*>(connection->getSource())`; `none` is `continue`. -/
def sourceOf (g : Graph) (inConn : Nat) : Option Nat :=
  match g.conns[inConn]? with
  | none => none
  | some connection =>
    match connection.source with
    | none => none
    | some source =>
      match g.procs[source]? with
      | none => none
      | some _ => some source

/-- The loop `for reached_proc : ... if (reachable_processors_[connection]
.insert(reached_proc).second) didChange = true`, over the processors `qs`. -/
def insertAll (self outConn : Nat) (acc : Graph × Bool) (qs : List Nat) : Graph × Bool :=
  qs.foldl
    (fun (a : Graph × Bool) q =>
      ((insertReachable a.1 self outConn q).1, a.2 || (insertReachable a.1 self outConn q).2))
    acc

/-- The body of the inner loop of `updateReachability` for one `outConn`;
`acc.2` is `didChange`. -/
def reachConnection (self : Nat) (acc : Graph × Bool) (outConn : Nat) : Graph × Bool :=
  match destinationOf acc.1 outConn with
  | none => acc
  | some dest =>
    let r := insertReachable acc.1 self outConn dest
    insertAll self outConn (r.1, acc.2 || r.2) (allReached r.1 dest)

/-- The first loop of `updateReachability`: all outgoing connections of all
relationships; returns the graph and `didChange`. -/
def reachOutgoing (g : Graph) (self : Nat) (force : Bool) : Graph × Bool :=
  match g.procs[self]? with
  | none => (g, force)
  | some p =>
    (p.outgoing_connections.flatMap (fun e => e.2)).foldl (reachConnection self) (g, force)

/-- The function `Processor::updateReachability`.  The recursion is bounded by
`fuel`; `none` means the bound was hit. -/
def updateReachability : Nat → Graph → Nat → Bool → Option Graph
  | 0, _, _, _ => none
  | fuel + 1, g, self, force =>
    match g.procs[self]? with
    | none => some g
    | some p =>
      let r := reachOutgoing g self force
      if r.2 then
        p.incoming_connections.foldlM
          (fun (a : Graph) inConn =>
            match sourceOf a inConn with
            | none => some a
            | some source => updateReachability fuel a source false)
          r.1
      else some r.1

/-- The function `Processor::partOfCycle`. -/
def partOfCycle (g : Graph) (conn : Nat) : Bool :=
  match g.conns[conn]? with
  | none => false
  | some connection =>
    match connection.source with
    | none => false
    | some source =>
      match g.procs[source]? with
      | none => false
      | some s =>
        match reachFind conn s.reachable_processors with
        | none => false
        | some set => decide (source ∈ set)

/-- The function `Processor::isThrottledByBackpressure`. -/
def isThrottledByBackpressure (g : Graph) (p : Processor) : Bool :=
  let isThrottledByOutgoing :=
    p.outgoing_connections.any fun outIt =>
      outIt.2.any fun out =>
        match g.conns[out]? with
        | none => false
        | some connection => connection.isFull
  let isForcedByIncomingCycle :=
    p.incoming_connections.any fun inConn =>
      match g.conns[inConn]? with
      | none => false
      | some connection => partOfCycle g inConn && connection.isFull
  isThrottledByOutgoing && !isForcedByIncomingCycle

/-- The value of the local `SetAs result` in `addConnection`. -/
inductive SetAs where
  | NONE
  | OUTPUT
  | INPUT
deriving DecidableEq, Repr

/-- The statement `connection->setDestination(this)`. -/
def setDestination (g : Graph) (conn self : Nat) : Graph :=
  g.modifyConn conn fun c => { c with destination := some self }

/-- The statement `connection->setSource(this)`. -/
def setSource (g : Graph) (conn self : Nat) : Graph :=
  g.modifyConn conn fun c => { c with source := some self }

/-- The statements `incoming_connections_.insert(connection)` and
`incoming_connections_Iter = incoming_connections_.begin()`. -/
def insertIncoming (conn : Nat) (q : Processor) : Processor :=
  { q with incoming_connections := setInsert conn q.incoming_connections,
           incoming_connections_Iter := 0 }

/-- The statement `outgoing_connections_[relationship] = set`. -/
def assignOutgoing (relationship : String) (set : List Nat) (q : Processor) : Processor :=
  { q with outgoing_connections := mapAssign relationship set q.outgoing_connections }

/-- The `if (uuid_ == destUUID)` block of `addConnection`. -/
def addIncoming (g : Graph) (self conn : Nat) (p : Processor) (connection : Connection)
    (result : SetAs) : Graph × SetAs :=
  if p.uuid = connection.destUUID then
    if conn ∈ p.incoming_connections then (g, result)
    else (setDestination (g.modifyProc self (insertIncoming conn)) conn self, SetAs.OUTPUT)
  else (g, result)

/-- The body of the loop over `connection->getRelationships()` in `addConnection`. -/
def addOutgoingRel (self conn : Nat) (acc : Graph × SetAs) (relationship : String) :
    Graph × SetAs :=
  match acc.1.procs[self]? with
  | none => acc
  | some p =>
    match mapFind relationship p.outgoing_connections with
    | some existedConnection =>
      if conn ∈ existedConnection then acc
      else
        (setSource
            (acc.1.modifyProc self
              (assignOutgoing relationship (setInsert conn existedConnection)))
            conn self,
          SetAs.INPUT)
    | none =>
      (setSource (acc.1.modifyProc self (assignOutgoing relationship (setInsert conn [])))
          conn self,
        SetAs.INPUT)

/-- The `if (uuid_ == srcUUID)` block of `addConnection`. -/
def addOutgoing (self conn : Nat) (p : Processor) (connection : Connection)
    (acc : Graph × SetAs) : Graph × SetAs :=
  if p.uuid = connection.srcUUID then
    connection.relationships.foldl (addOutgoingRel self conn) acc
  else acc

/-- The function `Processor::addConnection` called on the processor at `self`
with argument `conn`; returns the answer and the graph after the call
(`none` only when `updateReachability` ran out of `fuel`). -/
def addConnection (fuel : Nat) (g : Graph) (self conn : Nat) : Option (Bool × Graph) :=
  match g.procs[self]? with
  | none => some (false, g)
  | some p =>
    if p.isRunning then some (false, g)
    else
      match g.conns[conn]? with
      | none => some (false, g)
      | some connection =>
        let r := addOutgoing self conn p connection
          (addIncoming g self conn p connection SetAs.NONE)
        match r.2 with
        | SetAs.INPUT => (updateReachability fuel r.1 self false).map fun g' => (true, g')
        | SetAs.OUTPUT => (updateReachability fuel r.1 self true).map fun g' => (true, g')
        | SetAs.NONE => some (false, r.1)

/-! ## Specification vocabulary -/


/-- A processor with its reachability bookkeeping erased. -/
def Processor.shape (p : Processor) : Processor := { p with reachable_processors := [] }

/-- A graph with all reachability bookkeeping erased. -/
def Graph.shape (g : Graph) : Graph := { g with procs := g.procs.map Processor.shape }

/-- The processor `x` is stored under key `k` in an entry of the
`reachable_processors_` of processor `s`. -/
def Graph.entryMem (g : Graph) (s k x : Nat) : Prop :=
  ∃ p, g.procs[s]? = some p ∧ ∃ e ∈ p.reachable_processors, e.1 = k ∧ x ∈ e.2

/-- The graph `g'` has the topology of `g` and reachability sets that contain
those of `g`. -/
def Graph.le (g g' : Graph) : Prop :=
  g.shape = g'.shape ∧ (∀ s c q, q ∈ g.reach s c → q ∈ g'.reach s c) ∧
    ∀ s k x, g.entryMem s k x → g'.entryMem s k x

/-- From `g` to `g'` only the reachability sets of `self` changed, and they grew. -/
def Graph.stepBy (self : Nat) (g g' : Graph) : Prop :=
  g.le g' ∧ ∀ s, s ≠ self → g'.procs[s]? = g.procs[s]?

/-- The body of the second loop of `updateReachability` for one `inConn`. -/
def propagate (fuel : Nat) (a : Graph) (inConn : Nat) : Option Graph :=
  match sourceOf a inConn with
  | none => some a
  | some source => updateReachability fuel a source false

/-- All processor indices and all stored processors are below `B`. -/
def Graph.bounded (B : Nat) (g : Graph) : Prop :=
  g.procs.length ≤ B ∧ ∀ s k x, g.entryMem s k x → x < B

/-- The number of triples (processor, connection, processor) below the bounds
that are not stored yet: the room left for insertions. -/
def Graph.room (B : Nat) (g : Graph) : Nat :=
  ((Finset.range g.procs.length ×ˢ Finset.range g.conns.length ×ˢ Finset.range B).filter
    (fun t => t.2.2 ∉ g.reach t.1 t.2.1)).card

/-- A bound above every processor index and every stored processor of `g`. -/
def Graph.reachBound (g : Graph) : Nat :=
  (g.procs.flatMap fun p => p.reachable_processors.flatMap fun e => e.2).foldr
    (fun x b => max (x + 1) b) g.procs.length

/-- Recursion depth that `updateReachability` never exceeds on `g`. -/
def Graph.fuel (g : Graph) : Nat :=
  g.procs.length * (g.conns.length * g.reachBound) + 2

/-- The connections stored under `rel` in an outgoing map (empty when absent). -/
def outgoingOf (rel : String) (m : List (String × List Nat)) : List Nat :=
  (mapFind rel m).getD []

/-- Every connection of an outgoing map, in iteration order. -/
def outgoingAll (m : List (String × List Nat)) : List Nat :=
  m.flatMap fun e => e.2

/-- The effect of the loop over the relationships `rels` in `addConnection`, run by
processor `s` (`p1` before the loop) for connection `conn` (`c1` before the
loop), from state `acc` to state `res`. -/
structure OutEffect (s conn : Nat) (acc res : Graph × SetAs) (p1 : Processor)
    (c1 : Connection) (rels : List String) : Prop where
  proc : ∃ p', res.1.procs[s]? = some p' ∧
    p' = { p1 with outgoing_connections := p'.outgoing_connections } ∧
    (∀ rel c, c ∈ outgoingOf rel p'.outgoing_connections ↔
      c ∈ outgoingOf rel p1.outgoing_connections ∨ (c = conn ∧ rel ∈ rels)) ∧
    (∀ x ∈ outgoingAll p'.outgoing_connections,
      x ∈ outgoingAll p1.outgoing_connections ∨ (x = conn ∧ rels ≠ [])) ∧
    (∀ x ∈ outgoingAll p1.outgoing_connections, x ∈ outgoingAll p'.outgoing_connections)
  procs_other : ∀ t, t ≠ s → res.1.procs[t]? = acc.1.procs[t]?
  conns_other : ∀ k, k ≠ conn → res.1.conns[k]? = acc.1.conns[k]?
  conn_new : (∃ rel ∈ rels, conn ∉ outgoingOf rel p1.outgoing_connections) →
    res.1.conns[conn]? = some { c1 with source := some s } ∧ res.2 = SetAs.INPUT
  noop : (¬ ∃ rel ∈ rels, conn ∉ outgoingOf rel p1.outgoing_connections) → res = acc

/-- The call `addConnection(conn)` on processor `p` inserts `conn` into the
incoming connections, and it was not there. -/
def newIncoming (conn : Nat) (p : Processor) (c : Connection) : Prop :=
  p.uuid = c.destUUID ∧ conn ∉ p.incoming_connections

/-- The call `addConnection(conn)` on processor `p` inserts `conn` into the
outgoing set of some relationship, and it was not there. -/
def newOutgoing (conn : Nat) (p : Processor) (c : Connection) : Prop :=
  p.uuid = c.srcUUID ∧ ∃ rel ∈ c.relationships, conn ∉ outgoingOf rel p.outgoing_connections

instance newIncoming_decidable (conn : Nat) (p : Processor) (c : Connection) :
    Decidable (newIncoming conn p c) := by
  unfold newIncoming; exact inferInstance

instance newOutgoing_decidable (conn : Nat) (p : Processor) (c : Connection) :
    Decidable (newOutgoing conn p c) := by
  unfold newOutgoing; exact inferInstance

/-- The effect of the two registration blocks of `addConnection`, run by
processor `s` (`p` before the call) for connection `conn` (`c` before the call),
from graph `g` to state `res`. -/
structure AddEffect (s conn : Nat) (g : Graph) (res : Graph × SetAs) (p : Processor)
    (c : Connection) : Prop where
  proc : ∃ p', res.1.procs[s]? = some p' ∧
    p' = { p with incoming_connections := p'.incoming_connections
                  incoming_connections_Iter := p'.incoming_connections_Iter
                  outgoing_connections := p'.outgoing_connections } ∧
    (∀ x, x ∈ p'.incoming_connections ↔
      x ∈ p.incoming_connections ∨ (x = conn ∧ p.uuid = c.destUUID)) ∧
    (∀ rel x, x ∈ outgoingOf rel p'.outgoing_connections ↔
      x ∈ outgoingOf rel p.outgoing_connections ∨
        (x = conn ∧ p.uuid = c.srcUUID ∧ rel ∈ c.relationships)) ∧
    (∀ x ∈ outgoingAll p'.outgoing_connections,
      x ∈ outgoingAll p.outgoing_connections ∨ (x = conn ∧ newOutgoing conn p c)) ∧
    (∀ x ∈ outgoingAll p.outgoing_connections, x ∈ outgoingAll p'.outgoing_connections)
  procs_other : ∀ t, t ≠ s → res.1.procs[t]? = g.procs[t]?
  conns_other : ∀ k, k ≠ conn → res.1.conns[k]? = g.conns[k]?
  conn_eq : ∃ c', res.1.conns[conn]? = some c' ∧
    c' = { c with source := c'.source, destination := c'.destination } ∧
    (newOutgoing conn p c → c'.source = some s) ∧
    (¬ newOutgoing conn p c → c'.source = c.source) ∧
    (newIncoming conn p c → c'.destination = some s) ∧
    (¬ newIncoming conn p c → c'.destination = c.destination)
  flag_input : newOutgoing conn p c → res.2 = SetAs.INPUT
  flag_output : ¬ newOutgoing conn p c → newIncoming conn p c → res.2 = SetAs.OUTPUT
  flag_none : ¬ newOutgoing conn p c → ¬ newIncoming conn p c → res = (g, SetAs.NONE)

/-! ## Example graphs -/

/-- Two processors `A` (index 0, UUID 10) and `B` (index 1, UUID 20), neither
running, and two full connections, `c1` (index 0) from `A` to `B` and `c2`
(index 1) from `B` to `A`, none registered yet. -/
def twoProcessors : Graph :=
  { procs := [{ uuid := 10 }, { uuid := 20 }]
    conns := [{ srcUUID := 10, destUUID := 20, relationships := ["success"], isFull := true },
              { srcUUID := 20, destUUID := 10, relationships := ["success"], isFull := true }] }

/-- The graph `twoProcessors` with processor `A` running (one active task). -/
def twoProcessorsRunning : Graph :=
  { twoProcessors with
    procs := [{ uuid := 10, state := ScheduledState.RUNNING, active_tasks := 1 }, { uuid := 20 }] }

/-- Processors `A` (index 0) and `B` (index 1) on a cycle: connection 0 from `A`
to `B` and connection 1 from `B` to `A`, both full and registered, reachability
sets propagated; connections 2 and 3 lead to `A` from elsewhere and are empty. -/
def cycleGraph : Graph :=
  { procs := [{ uuid := 10, incoming_connections := [1],
                outgoing_connections := [("success", [0])],
                reachable_processors := [(0, [1, 0])] },
              { uuid := 20, incoming_connections := [0],
                outgoing_connections := [("success", [1])],
                reachable_processors := [(1, [0, 1])] }]
    conns := [{ srcUUID := 10, destUUID := 20, relationships := ["success"],
                source := some 0, destination := some 1, isFull := true },
              { srcUUID := 20, destUUID := 10, relationships := ["success"],
                source := some 1, destination := some 0, isFull := true },
              { srcUUID := 30, destUUID := 10 },
              { srcUUID := 30, destUUID := 10 }] }

/-! ## Directed paths and the invariants of the graph -/

/-- A directed path that starts with connection `c` and ends at processor `q`:
either `q` is the destination of `c`, or the path goes on with a connection
whose source is the destination of `c`. -/
inductive Graph.Path (g : Graph) : Nat → Nat → Prop
  | last {c q : Nat} {connection : Connection} :
      g.conns[c]? = some connection → connection.destination = some q → Graph.Path g c q
  | step {c c' q d : Nat} {connection connection' : Connection} :
      g.conns[c]? = some connection → connection.destination = some d →
      g.conns[c']? = some connection' → connection'.source = some d →
      Graph.Path g c' q → Graph.Path g c q

/-- The pointers of the connections and the sets of the processors agree, and
processors have distinct UUIDs. -/
structure Graph.Linked (g : Graph) : Prop where
  uuid_inj : ∀ (s t : Nat) (p q : Processor), g.procs[s]? = some p → g.procs[t]? = some q →
    p.uuid = q.uuid → s = t
  source_ok : ∀ (e : Nat) (c : Connection) (A : Nat), g.conns[e]? = some c →
    c.source = some A →
    ∃ p, g.procs[A]? = some p ∧ p.uuid = c.srcUUID ∧ e ∈ outgoingAll p.outgoing_connections
  dest_ok : ∀ (e : Nat) (c : Connection) (B : Nat), g.conns[e]? = some c →
    c.destination = some B →
    ∃ p, g.procs[B]? = some p ∧ p.uuid = c.destUUID ∧ e ∈ p.incoming_connections
  outgoing_ok : ∀ (s : Nat) (p : Processor) (e : Nat), g.procs[s]? = some p →
    e ∈ outgoingAll p.outgoing_connections → ∃ c, g.conns[e]? = some c ∧ c.source = some s
  incoming_ok : ∀ (s : Nat) (p : Processor) (e : Nat), g.procs[s]? = some p →
    e ∈ p.incoming_connections → ∃ c, g.conns[e]? = some c ∧ c.destination = some s

/-- Every stored processor is justified: it is stored by the source of the
connection that is its key, and a directed path starting with that connection
ends at it. -/
def Graph.Sound (g : Graph) : Prop :=
  ∀ s k x, g.entryMem s k x → (∃ c, g.conns[k]? = some c ∧ c.source = some s) ∧ g.Path k x

/-- The reachability set of connection `e` is up to date: it holds the
destination of `e` and everything the destination has stored. -/
def Graph.CleanAt (g : Graph) (e : Nat) : Prop :=
  ∀ (c : Connection) (A B : Nat), g.conns[e]? = some c → c.source = some A →
    c.destination = some B → B ∈ g.reach A e ∧ ∀ q ∈ allReached g B, q ∈ g.reach A e

/-- A graph in which nothing is registered yet: no processor has connections or
reachability sets, no connection has a source or a destination, and processors
have distinct UUIDs. -/
structure Graph.Fresh (g : Graph) : Prop where
  uuid_nodup : (g.procs.map Processor.uuid).Nodup
  procs_empty : ∀ p ∈ g.procs, p.incoming_connections = [] ∧ p.outgoing_connections = [] ∧
    p.reachable_processors = []
  conns_unset : ∀ c ∈ g.conns, c.source = none ∧ c.destination = none

/-- A sequence of calls `addConnection(conn)` on processor `self`, given as pairs
`(self, conn)`, the answers dropped. -/
def addConnections (fuel : Nat) (g : Graph) (calls : List (Nat × Nat)) : Option Graph :=
  calls.foldlM (fun a call => (addConnection fuel a call.1 call.2).map Prod.snd) g

/-- The invariant of the graph that `addConnection` maintains. -/
structure Graph.Inv (g : Graph) : Prop where
  linked : g.Linked
  sound : g.Sound
  clean : ∀ e, g.CleanAt e

/-- The graph `g'` is `g` after calls of `addConnection`: connections keep their
UUIDs, relationships and fullness and every pointer that was set; processors
keep their UUID and whether they are running. -/
structure Graph.Extends (g g' : Graph) : Prop where
  conn : ∀ (e : Nat) (k : Connection), g.conns[e]? = some k →
    ∃ k', g'.conns[e]? = some k' ∧ k'.srcUUID = k.srcUUID ∧ k'.destUUID = k.destUUID ∧
      k'.relationships = k.relationships ∧ k'.isFull = k.isFull ∧
      (∀ a, k.source = some a → k'.source = some a) ∧
      (∀ b, k.destination = some b → k'.destination = some b)
  proc : ∀ (s : Nat) (p : Processor), g.procs[s]? = some p →
    ∃ p', g'.procs[s]? = some p' ∧ p'.uuid = p.uuid ∧ p'.isRunning = p.isRunning

/-! ## `Processor::onTrigger(context, sessionFactory)` -/

/-- A call made on the session factory or on the session. -/
inductive SessionCall where
  | createSession
  | commit
  | rollback
deriving DecidableEq, Repr

/-- The function `Processor::onTrigger(context, sessionFactory)`, both
overloads.  The arguments are the outcomes of the calls it makes, each of which
returns or throws: `create` for `sessionFactory->createSession()`, `work` for the
virtual `onTrigger(context, session)`, `commit` for `session->commit()` and
`rollback` for `session->rollback()`.  The result is the calls made on the
session, in order, and the outcome of `onTrigger` itself.  Both `catch` blocks
do the same, so one kind of exception is enough. -/
def Processor.onTrigger {ε : Type} (create work commit rollback : Except ε Unit) :
    List SessionCall × Except ε Unit :=
  match create with
  | Except.error e => ([SessionCall.createSession], Except.error e)
  | Except.ok _ =>
    match work with
    | Except.ok _ =>
      match commit with
      | Except.ok _ => ([SessionCall.createSession, SessionCall.commit], Except.ok ())
      | Except.error e =>
        match rollback with
        | Except.ok _ =>
          ([SessionCall.createSession, SessionCall.commit, SessionCall.rollback], Except.error e)
        | Except.error e' =>
          ([SessionCall.createSession, SessionCall.commit, SessionCall.rollback],
            Except.error e')
    | Except.error e =>
      match rollback with
      | Except.ok _ => ([SessionCall.createSession, SessionCall.rollback], Except.error e)
      | Except.error e' => ([SessionCall.createSession, SessionCall.rollback], Except.error e')

/-! ## Yield -/

/-- The conversion `duration_cast<milliseconds>` of a number of nanoseconds. -/
def toMilliseconds (ns : Int) : Int := Int.tdiv ns 1000000

/-- The function `Processor::yield(delta_time)`, called at time `now`
(`delta_time` in milliseconds). -/
def Processor.yield (p : Processor) (now delta_time : Int) : Processor :=
  { p with yield_expiration := now + delta_time * 1000000 }

/-- The function `Processor::isYield`, called at time `now`. -/
def Processor.isYield (p : Processor) (now : Int) : Bool :=
  decide (p.yield_expiration ≥ now)

/-- The function `Processor::clearYield`. -/
def Processor.clearYield (p : Processor) : Processor :=
  { p with yield_expiration := 0 }

/-- The function `Processor::getYieldTime`, called at time `now`; milliseconds. -/
def Processor.getYieldTime (p : Processor) (now : Int) : Int :=
  if p.yield_expiration > now then toMilliseconds (p.yield_expiration - now) else 0

/-! ## CronDrivenSchedulingAgent.cpp -/

/-- The type `utils::TaskRescheduleInfo`; `RetryIn` carries milliseconds. -/
inductive TaskRescheduleInfo where
  | Done
  | RetryIn (interval : Int)
  | RetryImmediately
deriving DecidableEq, Repr

/-- The lookup `m.find(uuid)` in a `std::map` keyed by `utils::Identifier`. -/
def idFind {α : Type} (uuid : Identifier) : List (Identifier × α) → Option α
  | [] => none
  | (k, v) :: m => if k = uuid then some v else idFind uuid m

/-- The assignment `m[uuid] = v` in a `std::map` keyed by `utils::Identifier`. -/
def idAssign {α : Type} (uuid : Identifier) (v : α) :
    List (Identifier × α) → List (Identifier × α)
  | [] => [(uuid, v)]
  | (k, w) :: m =>
    if k = uuid then (uuid, v) :: m
    else if k < uuid then (k, w) :: idAssign uuid v m
    else (uuid, v) :: (k, w) :: m

/-- The members of `CronDrivenSchedulingAgent` that `run` uses.  A `Bosma::Cron`
is kept as the expression it was built from; times are in nanoseconds,
`bored_yield_duration` in milliseconds. -/
structure CronDrivenSchedulingAgent where
  running : Bool
  schedules : List (Identifier × String) := []
  last_exec : List (Identifier × Int) := []
  bored_yield_duration : Int := 0
deriving DecidableEq, Repr

/-- What a call of `run` did: the directive it returned, the agent and the
processor afterwards, and how often it called the trigger step. -/
structure RunResult where
  info : TaskRescheduleInfo
  agent : CronDrivenSchedulingAgent
  processor : Processor
  triggered : Nat
deriving DecidableEq, Repr

/-- The tail of `run` from `if (result > from)` on. -/
def runTrigger (onTrigger : Processor → Bool × Processor) (agent : CronDrivenSchedulingAgent)
    (processor : Processor) (from_ result t1 t2 : Int) : RunResult :=
  if result > from_ then
    let r := onTrigger processor
    if r.2.isYield t1 then
      { info := TaskRescheduleInfo.RetryIn (r.2.getYieldTime t2)
        agent := agent, processor := r.2, triggered := 1 }
    else if r.1 && decide (agent.bored_yield_duration > 0) then
      { info := TaskRescheduleInfo.RetryIn agent.bored_yield_duration
        agent := agent, processor := r.2, triggered := 1 }
    else
      { info := TaskRescheduleInfo.RetryIn (toMilliseconds (result - from_))
        agent := agent, processor := r.2, triggered := 1 }
  else
    { info := TaskRescheduleInfo.RetryIn (toMilliseconds (result - from_))
      agent := agent, processor := processor, triggered := 0 }

/-- The function `CronDrivenSchedulingAgent::run`.  `cron_to_next` is
`Bosma::Cron::cron_to_next` and `onTrigger` is `SchedulingAgent::onTrigger`
(it answers `shouldYield` and leaves the processor in a new state); both are
declared outside the embedded sources.  The clock is read three times: `from_`
at the head of `run`, `t1` in `isYield` and `t2` in `getYieldTime`. -/
def CronDrivenSchedulingAgent.run (cron_to_next : String → Int → Int)
    (onTrigger : Processor → Bool × Processor) (agent : CronDrivenSchedulingAgent)
    (processor : Processor) (from_ t1 t2 : Int) : RunResult :=
  if agent.running && processor.isRunning then
    let uuid := processor.uuid
    match idFind uuid agent.schedules with
    | some sched =>
      -- `result = last_exec_[uuid]` default-constructs a missing entry
      let last_exec :=
        match idFind uuid agent.last_exec with
        | some _ => agent.last_exec
        | none => idAssign uuid 0 agent.last_exec
      let result := (idFind uuid agent.last_exec).getD 0
      if from_ ≥ result then
        let next := cron_to_next sched from_
        runTrigger onTrigger { agent with last_exec := idAssign uuid next last_exec } processor
          from_ next t1 t2
      else
        { info := TaskRescheduleInfo.RetryIn (toMilliseconds (result - from_))
          agent := { agent with last_exec := last_exec }
          processor := processor, triggered := 0 }
    | none =>
      let schedule := processor.cron_period
      let result := cron_to_next schedule from_
      runTrigger onTrigger
        { agent with last_exec := idAssign uuid result agent.last_exec
                     schedules := idAssign uuid schedule agent.schedules }
        processor from_ result t1 t2
  else
    { info := TaskRescheduleInfo.Done, agent := agent, processor := processor, triggered := 0 }

/-! ## Example schedules -/

/-- A running cron agent that holds, for the processor with UUID 10, a schedule
and the next-fire time 200 ms (in nanoseconds). -/
def cronAgent : CronDrivenSchedulingAgent :=
  { running := true
    schedules := [(10, "*/1 * * * * ?")]
    last_exec := [(10, 200000000)]
    bored_yield_duration := 1000 }

/-- A running processor with UUID 10 and one active task. -/
def cronProcessor : Processor :=
  { uuid := 10, state := ScheduledState.RUNNING, active_tasks := 1,
    cron_period := "*/1 * * * * ?" }

/-- A cron expression that fires at every full second: the next fire time after
`t` (nanoseconds). -/
def everySecond (_ : String) (t : Int) : Int := (t / 1000000000 + 1) * 1000000000

/-- A trigger step that does no work and asks for no yield. -/
def idleTrigger (p : Processor) : Bool × Processor := (false, p)

/-- A trigger step in which the processor calls `yield(5000ms)` at time 300 ms. -/
def yieldingTrigger (p : Processor) : Bool × Processor := (false, p.yield 300000000 5000)

/-! ## Input requirement and concurrency settings -/

/-- The enum `core::annotation::Input`. -/
inductive Input where
  | INPUT_REQUIRED
  | INPUT_ALLOWED
  | INPUT_FORBIDDEN
deriving DecidableEq, Repr

/-- The exception types that the embedded functions throw. -/
inductive ExceptionType where
  | PROCESS_SCHEDULE_EXCEPTION
  | GENERAL_EXCEPTION
deriving DecidableEq, Repr

/-- A thrown `minifi::Exception`: its type and its message. -/
structure Exception where
  type : ExceptionType
  what : String
deriving DecidableEq, Repr

/-- Modelled from the spec: the inline accessor `Connectable::hasIncomingConnections`,
whose header is not among the embedded sources; "there are incoming Connections". -/
def Processor.hasIncomingConnections (p : Processor) : Bool :=
  !p.incoming_connections.isEmpty

/-- The function `Processor::validateAnnotations`; `getInputRequirement` is the
answer of the virtual `getInputRequirement()`. -/
def Processor.validateAnnotations (p : Processor) (getInputRequirement : Input) :
    Except Exception Unit :=
  match getInputRequirement with
  | Input.INPUT_REQUIRED =>
    if !p.hasIncomingConnections then
      Except.error
        { type := ExceptionType.PROCESS_SCHEDULE_EXCEPTION
          what := "INPUT_REQUIRED was specified for the processor, but no incoming connections were found" }
    else Except.ok ()
  | Input.INPUT_ALLOWED => Except.ok ()
  | Input.INPUT_FORBIDDEN =>
    if p.hasIncomingConnections then
      Except.error
        { type := ExceptionType.PROCESS_SCHEDULE_EXCEPTION
          what := "INPUT_FORBIDDEN was specified for the processor, but there are incoming connections" }
    else Except.ok ()

/-- The function `Processor::setMaxConcurrentTasks`; `isSingleThreaded` is the
answer of the virtual `isSingleThreaded()`, `tasks` the `uint8_t` argument. -/
def Processor.setMaxConcurrentTasks (p : Processor) (isSingleThreaded : Bool) (tasks : Nat) :
    Processor :=
  if isSingleThreaded && decide (tasks > 1) then { p with max_concurrent_tasks := 1 }
  else { p with max_concurrent_tasks := tasks }

/-! ## `Processor::pickIncomingConnection` -/

/-- Modelled from the spec: `Connectable::getNextIncomingConnectionImpl`, the
round-robin step over the incoming connections; `Connectable.cpp` is not among
the embedded sources.  With no incoming connection the answer is null and the
cursor stays; otherwise a cursor at `end()` goes to the first connection, the
answer is the connection at the cursor, and the cursor advances by one,
wrapping around from the last connection to the first. -/
def getNextIncomingConnectionImpl (p : Processor) : Option Nat × Processor :=
  if p.incoming_connections.isEmpty then (none, p)
  else
    let iter :=
      if p.incoming_connections_Iter ≥ p.incoming_connections.length then 0
      else p.incoming_connections_Iter
    (p.incoming_connections[iter]?,
      { p with incoming_connections_Iter :=
          if iter + 1 ≥ p.incoming_connections.length then 0 else iter + 1 })

/-- The test of the loop body of `pickIncomingConnection`: `inConn` is a
`Connection`, part of a cycle and full. -/
def preferredConnection (g : Graph) (inConn : Option Nat) : Bool :=
  match inConn with
  | none => false
  | some conn =>
    match g.conns[conn]? with
    | none => false
    | some connection => partOfCycle g conn && connection.isFull

/-- The `do ... while (incoming_connections_Iter != beginIt)` loop of
`pickIncomingConnection` with the `return` that follows it; `none` means that
`fuel` iterations were not enough. -/
def pickLoop (g : Graph) (beginIt : Nat) : Nat → Processor → Option (Option Nat × Processor)
  | 0, _ => none
  | fuel + 1, p =>
    if preferredConnection g (getNextIncomingConnectionImpl p).1 then
      some (getNextIncomingConnectionImpl p)
    else if (getNextIncomingConnectionImpl p).2.incoming_connections_Iter ≠ beginIt then
      pickLoop g beginIt fuel (getNextIncomingConnectionImpl p).2
    else
      -- we did not find a preferred connection
      some (getNextIncomingConnectionImpl (getNextIncomingConnectionImpl p).2)

/-- The function `Processor::pickIncomingConnection`: the connection it returns
(`none` is `nullptr`) and the processor with the cursor where the call left it. -/
def pickIncomingConnection (fuel : Nat) (g : Graph) (p : Processor) :
    Option (Option Nat × Processor) :=
  pickLoop g p.incoming_connections_Iter fuel p

/-- Consecutive calls of `pickIncomingConnection`, `count` of them: the
connections returned, in order, and the processor afterwards. -/
def pickMany (fuel : Nat) (g : Graph) : Nat → Processor → Option (List (Option Nat) × Processor)
  | 0, p => some ([], p)
  | count + 1, p =>
    match pickIncomingConnection fuel g p with
    | none => none
    | some r =>
      match pickMany fuel g count r.2 with
      | none => none
      | some rest => some (r.1 :: rest.1, rest.2)

/-! ## `VolatileRepository<T>::Put` (VolatileRepository.h)

Single-threaded runs: `std::atomic` fields are plain fields, `fetch_add` on the
`uint16_t` index wraps at `2^16`, and `compare_exchange_weak(0, 0)` succeeds
exactly when the index is `0` (no spurious failure), leaving it `0`. -/

/-- The `RepoValue<T>` that `Put` builds from its key and buffer
(`RepoValue<T> new_value(key, buf, bufLen)`), with `T = std::string`; the
default value has an empty key and an empty buffer. -/
structure RepoValue where
  key : String := ""
  buffer : List Nat := []
deriving DecidableEq, Repr

/-- Modelled from the spec: `RepoValue<T>::size()` is declared in
AtomicRepoEntries.h, which is not among the sources; it is taken to be the
number of bytes of the buffer. -/
def RepoValue.size (v : RepoValue) : Nat := v.buffer.length

/-- What a call `setRepoValue(new_value, old_value, reclaimed_size)` on a slot
leaves behind: the returned flag, the slot, and the two reference arguments. -/
structure SetResult (E : Type) where
  updated : Bool
  entry : E
  old_value : RepoValue
  prev_size : Nat

/-- The fields of `VolatileRepository<T>` that `Put` reads and writes; `E`
is the state of an `AtomicEntry<T>` slot.  `current_size_` is a `size_t`,
`current_index_` a `uint16_t`, `max_count_` a `uint32_t`. -/
structure VolatileRepository (E : Type) where
  current_size_ : Nat := 0
  current_index_ : Nat := 0
  value_vector_ : List E := []
  max_count_ : Nat := 10000
  purge_list_ : List String := []

/-- `VolatileRepository<T>::initialize`: `max_cnt` is the configured
`max.count` when the configuration has one (already narrowed to `uint32_t`);
`max_count_` fresh slots are appended to `value_vector_`. -/
def VolatileRepository.initialize {E : Type} (repo : VolatileRepository E)
    (max_cnt : Option Nat) (newEntry : E) : VolatileRepository E :=
  let max_count_ := match max_cnt with
    | some n => n
    | none => repo.max_count_
  { repo with
    max_count_ := max_count_
    value_vector_ := repo.value_vector_ ++ List.replicate max_count_ newEntry }

/-- `VolatileRepository<T>::emplace`. -/
def VolatileRepository.emplace {E : Type} (repo : VolatileRepository E)
    (old_value : RepoValue) : VolatileRepository E :=
  { repo with purge_list_ := repo.purge_list_ ++ [old_value.key] }

/-- The local variables of `Put` that live across iterations of its loop,
together with the repository and the slot indices written to the debug log
("Set repo value at %u"). -/
structure PutState (E : Type) where
  repo : VolatileRepository E
  old_value : RepoValue := {}
  reclaimed_size : Nat := 0
  updated : Bool := false
  log : List Nat := []

/-- The part of the loop body of `Put` from `value_vector_.at(private_index)`
on; `at` throws `std::out_of_range` past the end of the vector. -/
def VolatileRepository.writeSlot {E : Type}
    (setRepoValue : E → RepoValue → RepoValue → Nat → SetResult E) (new_value : RepoValue)
    (private_index : Nat) (s : PutState E) : Except String (PutState E) :=
  match s.repo.value_vector_[private_index]? with
  | none => Except.error "std::out_of_range"
  | some e =>
    let r := setRepoValue e new_value s.old_value s.reclaimed_size
    let repo := { s.repo with value_vector_ := s.repo.value_vector_.set private_index r.entry }
    let repo := if r.updated && decide (r.prev_size > 0) then repo.emplace r.old_value else repo
    let repo :=
      if r.prev_size > 0 then
        { repo with
          current_size_ :=
            if repo.current_size_ < r.prev_size then 0 else repo.current_size_ - r.prev_size }
      else repo
    Except.ok
      { repo := repo, old_value := r.old_value, reclaimed_size := r.prev_size,
        updated := r.updated, log := s.log ++ [private_index] }

/-- One iteration of the body of the `do ... while (!updated)` loop of `Put`;
`continue` ends the iteration. -/
def VolatileRepository.putStep {E : Type}
    (setRepoValue : E → RepoValue → RepoValue → Nat → SetResult E) (new_value : RepoValue)
    (s : PutState E) : Except String (PutState E) :=
  let private_index := s.repo.current_index_
  let s1 : PutState E :=
    { s with repo := { s.repo with current_index_ := (s.repo.current_index_ + 1) % 65536 } }
  if private_index ≥ s1.repo.max_count_ then
    if s1.repo.current_index_ = 0 then
      VolatileRepository.writeSlot setRepoValue new_value 0 s1
    else Except.ok s1
  else VolatileRepository.writeSlot setRepoValue new_value private_index s1

/-- The `do ... while (!updated)` loop of `Put`; `none` when the fuel runs out. -/
def VolatileRepository.putLoop {E : Type}
    (setRepoValue : E → RepoValue → RepoValue → Nat → SetResult E) (new_value : RepoValue) :
    Nat → PutState E → Option (Except String (PutState E))
  | 0, _ => none
  | fuel + 1, s =>
    match VolatileRepository.putStep setRepoValue new_value s with
    | Except.error e => some (Except.error e)
    | Except.ok s2 =>
      if !s2.updated then VolatileRepository.putLoop setRepoValue new_value fuel s2
      else some (Except.ok s2)

/-- What `Put` leaves behind when it returns: the value returned, the
repository, and the slot indices written to the debug log. -/
structure PutResult (E : Type) where
  returned : Bool
  repo : VolatileRepository E
  log : List Nat

/-- `VolatileRepository<T>::Put`. -/
def VolatileRepository.Put {E : Type}
    (setRepoValue : E → RepoValue → RepoValue → Nat → SetResult E) (fuel : Nat)
    (repo : VolatileRepository E) (key : String) (buf : List Nat) :
    Option (Except String (PutResult E)) :=
  let new_value : RepoValue := { key := key, buffer := buf }
  match VolatileRepository.putLoop setRepoValue new_value fuel { repo := repo } with
  | none => none
  | some (Except.error e) => some (Except.error e)
  | some (Except.ok s) =>
    some (Except.ok
      { returned := true
        repo := { s.repo with
                  current_size_ := (s.repo.current_size_ + new_value.size) % 2 ^ 64 }
        log := s.log })

/-- Consecutive calls of `Put`, one for each key and buffer of the list: the
slot indices each call wrote to the debug log, and the repository afterwards. -/
def VolatileRepository.putMany {E : Type}
    (setRepoValue : E → RepoValue → RepoValue → Nat → SetResult E) (fuel : Nat) :
    List (String × List Nat) → VolatileRepository E →
      Option (Except String (List (List Nat) × VolatileRepository E))
  | [], repo => some (Except.ok ([], repo))
  | kv :: rest, repo =>
    match VolatileRepository.Put setRepoValue fuel repo kv.1 kv.2 with
    | none => none
    | some (Except.error e) => some (Except.error e)
    | some (Except.ok r) =>
      match VolatileRepository.putMany setRepoValue fuel rest r.repo with
      | none => none
      | some (Except.error e) => some (Except.error e)
      | some (Except.ok more) => some (Except.ok (r.log :: more.1, more.2))

/-- A slot that holds at most one value, and a write to it that always
succeeds: it stores the new value and hands back the previous one with its
size. -/
def storeValue (e : Option RepoValue) (new_value old_value : RepoValue) (prev_size : Nat) :
    SetResult (Option RepoValue) :=
  { updated := true
    entry := some new_value
    old_value := e.getD old_value
    prev_size := match e with
      | some v => v.size
      | none => prev_size }

/-- A repository with room for two entries, freshly constructed and initialized. -/
def smallRepository : VolatileRepository (Option RepoValue) :=
  VolatileRepository.initialize {} (some 2) none

/-! ## `VolatileRepository<T>::DeSerialize` (VolatileRepository.h) -/

/-- What a call `getValue(repo_value)` on a slot leaves behind: the returned
flag, the reference argument and the slot. -/
structure GetResult (E : Type) where
  found : Bool
  value : RepoValue
  entry : E

/-- The repository, the vector `store` and the reference argument `max_size`
during a call of `DeSerialize`; `C` is the state of a
`core::SerializableComponent`. -/
structure DeSerializeState (E C : Type) where
  repo : VolatileRepository E
  store : List C
  max_size : Nat

/-- The statement `current_size_ -= repo_value.getBuffer().size()` on the
`size_t` counter. -/
def VolatileRepository.release {E : Type} (repo : VolatileRepository E) (value : RepoValue) :
    VolatileRepository E :=
  { repo with
    current_size_ := (repo.current_size_ + 2 ^ 64 - value.buffer.length % 2 ^ 64) % 2 ^ 64 }

/-- The loop `for (auto ent : value_vector_)` of `DeSerialize(store, max_size,
lambda)` over the slots from position `i` on; `deSerialize` is the virtual
`SerializableComponent::DeSerialize(buffer)` of the new component. -/
def VolatileRepository.deSerializeNew {E C : Type} (getValue : E → GetResult E)
    (lambda : Unit → C) (deSerialize : C → List Nat → C) (requested_batch : Nat) :
    List E → Nat → DeSerializeState E C → DeSerializeState E C
  | [], _, s => s
  | ent :: rest, i, s =>
    let r := getValue ent
    let repo := { s.repo with value_vector_ := s.repo.value_vector_.set i r.entry }
    if r.found then
      let newComponent := deSerialize (lambda ()) r.value.buffer
      let s2 : DeSerializeState E C :=
        { repo := repo.release r.value
          store := s.store ++ [newComponent]
          max_size := s.max_size + 1 }
      if s.max_size ≥ requested_batch then s2
      else VolatileRepository.deSerializeNew getValue lambda deSerialize requested_batch rest
        (i + 1) s2
    else
      VolatileRepository.deSerializeNew getValue lambda deSerialize requested_batch rest (i + 1)
        { s with repo := repo }

/-- `VolatileRepository<T>::DeSerialize(store, max_size, lambda)`: the value
returned and the state afterwards. -/
def VolatileRepository.DeSerialize {E C : Type} (getValue : E → GetResult E)
    (lambda : Unit → C) (deSerialize : C → List Nat → C) (repo : VolatileRepository E)
    (store : List C) (max_size : Nat) : Bool × DeSerializeState E C :=
  let requested_batch := max_size
  let s := VolatileRepository.deSerializeNew getValue lambda deSerialize requested_batch
    repo.value_vector_ 0 { repo := repo, store := store, max_size := 0 }
  (decide (s.max_size > 0), s)

/-- The loop `for (auto ent : value_vector_)` of `DeSerialize(store, max_size)`
over the slots from position `i` on; `store.at(max_size)` throws
`std::out_of_range` at or past `store.size()`. -/
def VolatileRepository.deSerializeInto {E C : Type} (getValue : E → GetResult E)
    (deSerialize : C → List Nat → C) :
    List E → Nat → DeSerializeState E C → Except String (DeSerializeState E C)
  | [], _, s => Except.ok s
  | ent :: rest, i, s =>
    let r := getValue ent
    let repo := { s.repo with value_vector_ := s.repo.value_vector_.set i r.entry }
    if r.found then
      match s.store[s.max_size]? with
      | none => Except.error "std::out_of_range"
      | some c =>
        let s2 : DeSerializeState E C :=
          { repo := repo.release r.value
            store := s.store.set s.max_size (deSerialize c r.value.buffer)
            max_size := s.max_size + 1 }
        if s.max_size ≥ s.store.length then Except.ok s2
        else VolatileRepository.deSerializeInto getValue deSerialize rest (i + 1) s2
    else
      VolatileRepository.deSerializeInto getValue deSerialize rest (i + 1)
        { s with repo := repo }

/-- `VolatileRepository<T>::DeSerialize(store, max_size)` into a store of
components created beforehand: the value returned and the state afterwards, or
the exception thrown. -/
def VolatileRepository.DeSerializeStore {E C : Type} (getValue : E → GetResult E)
    (deSerialize : C → List Nat → C) (repo : VolatileRepository E)
    (store : List C) : Except String (Bool × DeSerializeState E C) :=
  match VolatileRepository.deSerializeInto getValue deSerialize repo.value_vector_ 0
      { repo := repo, store := store, max_size := 0 } with
  | Except.error e => Except.error e
  | Except.ok s => Except.ok (decide (s.max_size > 0), s)

/-- Taking the value out of a slot that holds at most one value: `getValue`
finds the value when there is one and leaves the slot empty. -/
def takeValue (e : Option RepoValue) : GetResult (Option RepoValue) :=
  match e with
  | some v => { found := true, value := v, entry := none }
  | none => { found := false, value := {}, entry := none }

/-- A repository with two slots that hold the entries `a` and `b`. -/
def twoEntries : VolatileRepository (Option RepoValue) :=
  { current_size_ := 2, current_index_ := 2, max_count_ := 2
    value_vector_ := [some { key := "a", buffer := [1] }, some { key := "b", buffer := [2] }] }

/-! ## `Property` (Property.h) -/

/-- The exception `utils::internal::InvalidValueException`. -/
structure InvalidValueException where
  what : String
deriving DecidableEq, Repr

/-- The members of `core::Property` that `setValue` reads and writes; `PV` is
the state of a `PropertyValue` and `V` a validator, both declared outside the
embedded sources. -/
structure Property (PV V : Type) where
  name_ : String := ""
  is_collection_ : Bool := false
  default_value_ : PV
  values_ : List PV := []
  validator_ : V

/-- The function `Property::setValue(const T &value)`: the property as the call
leaves it and the exception thrown, if any.  `setValidator`, `assign`
(`PropertyValue::operator=`) and `validate` (whether `vn.validate(name_)` is
valid) are the members of `PropertyValue` that the function calls. -/
def Property.setValue {PV V T : Type} (setValidator : PV → V → PV) (assign : PV → T → PV)
    (validate : PV → String → Bool) (p : Property PV V) (value : T) :
    Property PV V × Except InvalidValueException Unit :=
  let values_ :=
    if !p.is_collection_ then [p.default_value_]
    else p.values_ ++ [p.default_value_]
  -- `vn` is `values_.back()`
  let vn := assign (setValidator p.default_value_ p.validator_) value
  let p1 := { p with values_ := values_.dropLast ++ [vn] }
  if !validate vn p.name_ then
    (p1, Except.error { what := p.name_ ++ " value validation failed" })
  else (p1, Except.ok ())

/-- The function `Property::setValue(PropertyValue &newValue)`. -/
def Property.setValuePV {PV V : Type} (setValidator : PV → V → PV)
    (validate : PV → String → Bool) (p : Property PV V) (newValue : PV) :
    Property PV V × Except InvalidValueException Unit :=
  let values_ :=
    if !p.is_collection_ then [newValue]
    else p.values_ ++ [newValue]
  let vn := setValidator newValue p.validator_
  let p1 := { p with values_ := values_.dropLast ++ [vn] }
  if !validate vn p.name_ then
    (p1, Except.error { what := p.name_ ++ " value validation failed" })
  else (p1, Except.ok ())

/-! ## `std::stoul` and `Property::StringToPermissions` (Property.h)

A `std::string` is the list of its `char`s. -/

/-- The exceptions of `std::stoul`. -/
inductive StoulError where
  | invalid_argument
  | out_of_range
deriving DecidableEq, Repr

/-- The function `isspace` in the "C" locale. -/
def isSpace (c : Char) : Bool :=
  c = ' ' || c = '\t' || c = '\n' || c = '\x0b' || c = '\x0c' || c = '\r'

/-- Whether `c` is a digit of the base `base ≤ 10`. -/
def isDigitOf (base : Nat) (c : Char) : Bool :=
  decide ('0'.toNat ≤ c.toNat) && decide (c.toNat < '0'.toNat + base)

/-- The function `std::stoul(str, &pos, base)` of the standard library for a
base of at most 10 and a 64-bit `unsigned long`, as `strtoul` defines it:
white space is skipped, a sign may follow, then the longest run of digits is
read; no digit is `std::invalid_argument`, a value of `2^64` or more is
`std::out_of_range`, a minus sign negates the value modulo `2^64`.  The result
is the value and `pos`, the number of characters read. -/
def stoul (str : List Char) (base : Nat) : Except StoulError (Nat × Nat) :=
  let spaces := str.takeWhile isSpace
  let afterSpaces := str.dropWhile isSpace
  let negative := decide (afterSpaces.head? = some '-')
  let signed := decide (afterSpaces.head? = some '-') || decide (afterSpaces.head? = some '+')
  let afterSign := if signed then afterSpaces.tail else afterSpaces
  let digits := afterSign.takeWhile (isDigitOf base)
  if digits.isEmpty then Except.error StoulError.invalid_argument
  else
    let value := digits.foldl (fun acc c => acc * base + (c.toNat - '0'.toNat)) 0
    if value ≥ 2 ^ 64 then Except.error StoulError.out_of_range
    else
      Except.ok
        (if negative then (2 ^ 64 - value) % 2 ^ 64 else value,
          spaces.length + (if signed then 1 else 0) + digits.length)

/-- The statement `if (input[k] == letter) { temp |= bit; } else if (input[k] !=
'-') { return false; }` of `StringToPermissions`, with `c` for `input[k]`;
`none` is the `return false`. -/
def permissionsStep (c : Option Char) (letter : Char) (temp bit : Nat) : Option Nat :=
  if c = some letter then some (temp ||| bit)
  else if c ≠ some '-' then none
  else some temp

/-- The loop `for (size_t i = 0; i < 3; i++)` of `StringToPermissions` with
`n` iterations left; `none` is the `return false` inside the loop. -/
def permissionsLoop (input : List Char) : Nat → Nat → Nat → Option Nat
  | 0, _, temp => some temp
  | n + 1, i, temp =>
    (permissionsStep input[i * 3]? 'r' temp (4 <<< ((2 - i) * 3))).bind fun temp =>
    (permissionsStep input[i * 3 + 1]? 'w' temp (2 <<< ((2 - i) * 3))).bind fun temp =>
    (permissionsStep input[i * 3 + 2]? 'x' temp (1 <<< ((2 - i) * 3))).bind fun temp =>
    permissionsLoop input n (i + 1) temp

/-- The function `Property::StringToPermissions(input, output)`: the value
returned and `output` afterwards.  `temp` is a `uint32_t`, so the
`unsigned long` that `std::stoul` returns is reduced modulo `2^32`; the mask
`~static_cast<uint32_t>(0777)` is `2^32 - 1 - 0777`. -/
def StringToPermissions (input : List Char) (output : Nat) : Bool × Nat :=
  if input.length = 9 then
    match permissionsLoop input 3 0 0 with
    | none => (false, output)
    | some temp => (true, temp)
  else
    match stoul input 8 with
    | Except.error _ => (false, output)
    | Except.ok (value, pos) =>
      let temp := value % 2 ^ 32
      if pos ≠ input.length then (false, output)
      else if temp &&& (2 ^ 32 - 1 - 511) ≠ 0 then (false, output)
      else (true, temp)

/-- The character that stands for a set bit at position `k` of a permission
string such as `rwxr-xr-x`. -/
def permissionLetter (k : Nat) : Char :=
  if k % 3 = 0 then 'r' else if k % 3 = 1 then 'w' else 'x'

/-! ## `Bin::offer` (BinFiles.h) -/

/-- What `Bin` reads of a `core::FlowFile`: its attributes (`getAttribute`) and
its size (`getSize`, a `uint64_t`). -/
structure FlowFile where
  attributes : List (String × String) := []
  size : Nat := 0
deriving DecidableEq, Repr

/-- The call `flow->getAttribute(key, value)`: the value when the attribute is
there. -/
def FlowFile.getAttribute (flow : FlowFile) (key : String) : Option String :=
  (flow.attributes.find? (fun kv => kv.1 = key)).map (fun kv => kv.2)

/-- The members of `Bin` that `offer`, `isFull` and `isReadyForMerge` use;
sizes are `uint64_t`, entry limits `size_t`. -/
structure Bin where
  minSize_ : Nat
  maxSize_ : Nat
  maxEntries_ : Nat
  minEntries_ : Nat
  queued_data_size_ : Nat := 0
  queue_ : List FlowFile := []
  fileCount_ : String := ""
  groupId_ : String := ""
deriving DecidableEq, Repr

/-- The function `Bin::isFull`. -/
def Bin.isFull (b : Bin) : Bool :=
  decide (b.queued_data_size_ ≥ b.maxSize_) || decide (b.queue_.length ≥ b.maxEntries_)

/-- The function `Bin::isReadyForMerge`. -/
def Bin.isReadyForMerge (b : Bin) : Bool :=
  b.isFull ||
    (decide (b.queued_data_size_ ≥ b.minSize_) && decide (b.queue_.length ≥ b.minEntries_))

/-- The `count` that the first block of `Bin::offer` reads from the flow file:
the file-count attribute, when one is configured, the flow file carries it and
`std::stoul(value)` (base 10) does not throw. -/
def Bin.fileCountOf (b : Bin) (flow : FlowFile) : Option Nat :=
  if !b.fileCount_.isEmpty then
    match flow.getAttribute b.fileCount_ with
    | some value =>
      match stoul value.toList 10 with
      | Except.ok r => some r.1
      | Except.error _ => none
    | none => none
  else none

/-- The function `Bin::offer`: the value returned and the bin afterwards. -/
def Bin.offer (b : Bin) (flow : FlowFile) : Bool × Bin :=
  let b1 :=
    match b.fileCountOf flow with
    | some count => { b with maxEntries_ := count, minEntries_ := count }
    | none => b
  if (b1.queued_data_size_ + flow.size) % 2 ^ 64 > b1.maxSize_ ∨
      (b1.queue_.length + 1) % 2 ^ 64 > b1.maxEntries_ then
    (false, b1)
  else
    (true,
      { b1 with
        queue_ := b1.queue_ ++ [flow]
        queued_data_size_ := (b1.queued_data_size_ + flow.size) % 2 ^ 64 })

/-- A bin for defragmentation: at most 100 bytes and between 1 and 10 entries,
with `fragment.count` as file-count attribute. -/
def defragBin : Bin :=
  { minSize_ := 0, maxSize_ := 100, maxEntries_ := 10, minEntries_ := 1,
    fileCount_ := "fragment.count" }

/-- A flow file of 200 bytes that carries `fragment.count = 5`. -/
def bigFragment : FlowFile :=
  { attributes := [("fragment.count", "5")], size := 200 }

/-! ## HTTP header field names (`utils::HTTPClient`) -/

/-- Modelled from the spec: `utils::HTTPClient::isValidHttpHeaderField` and
`replaceInvalidCharactersInHttpHeaderFieldName` (HTTPClient.cpp) are not among
the sources, only their tests are.  The invalid characters of a header field
name are the space, the control characters, the bytes from 128 on and the
colon. -/
def invalidHeaderChar (c : Char) : Bool :=
  decide (c.toNat < 33) || decide (c.toNat > 126) || c = ':'

/-- Modelled from the spec: `utils::HTTPClient::isValidHttpHeaderField`
(HTTPClient.cpp, not among the sources): a header field name is valid when it
is not empty and has no invalid character. -/
def isValidHttpHeaderField (field_name : List Char) : Bool :=
  !field_name.isEmpty && field_name.all (fun c => !invalidHeaderChar c)

/-- Modelled from the spec:
`utils::HTTPClient::replaceInvalidCharactersInHttpHeaderFieldName`
(HTTPClient.cpp, not among the sources): the empty name becomes
`X-MiNiFi-Empty-Attribute-Name`, in any other name every invalid character is
replaced by `-`. -/
def replaceInvalidCharactersInHttpHeaderFieldName (field_name : List Char) : List Char :=
  if field_name.isEmpty then "X-MiNiFi-Empty-Attribute-Name".toList
  else field_name.map (fun c => if invalidHeaderChar c then '-' else c)

/-! ## `ListenSyslog::SyslogMessage` (ListenSyslog.cpp) -/

/-- The class `\d` of the regular expressions. -/
def isDecimalDigit (c : Char) : Bool := decide ('0' ≤ c) && decide (c ≤ '9')

/-- The group `(\d|\d{2}|1[1-8]\d|19[01])` of the priority field of
`rfc5424_pattern_`: whether one of its alternatives matches exactly the
characters `s`. -/
def priorityGroup (s : List Char) : Bool :=
  match s with
  | [a] => isDecimalDigit a
  | [a, b] => isDecimalDigit a && isDecimalDigit b
  | [a, b, c] =>
    (decide (a = '1') && decide ('1' ≤ b) && decide (b ≤ '8') && isDecimalDigit c) ||
      (decide (a = '1') && decide (b = '9') && (decide (c = '0') || decide (c = '1')))
  | _ => false

/-- The match of `rfc5424_pattern_` on a message, as far as the priority field
goes: the pattern is anchored at the start of the message, so the message has
to begin with `<`, the priority group and `>`; `rest` stands for the match of
the remaining fields of the pattern on what follows.  The result is the
sub-match `syslog_match[1]`. -/
def rfc5424Priority (rest : List Char → Bool) (message : List Char) : Option (List Char) :=
  match message with
  | '<' :: tail =>
    let group := tail.takeWhile (fun c => c ≠ '>')
    match tail.drop group.length with
    | '>' :: fields => if priorityGroup group && rest fields then some group else none
    | _ => none
  | _ => none

/-- The attributes that `transferAsFlowFile` derives from the priority when
`rfc5424_pattern_` matches: `syslog.priority`, `syslog.severity` and
`syslog.facility` (the attributes of the other sub-matches are left out);
`none` when the pattern does not match.  `std::stoull` reads the sub-match
as `std::stoul` does. -/
def priorityAttributes (rest : List Char → Bool) (message : List Char) :
    Option (List (String × String)) :=
  match rfc5424Priority rest message with
  | some group =>
    match stoul group 10 with
    | Except.ok r =>
      some [("syslog.priority", toString r.1), ("syslog.severity", toString (r.1 % 8)),
        ("syslog.facility", toString (r.1 / 8))]
    | Except.error _ => none
  | none => none

/-! ## Theorems -/

/-! ### Containers -/

theorem reachFind_reachInsert (c q c' q' : Nat) (m : List (Nat × List Nat)) :
    q' ∈ (reachFind c' (reachInsert c q m).1).getD [] ↔
      q' ∈ (reachFind c' m).getD [] ∨ (c' = c ∧ q' = q) := by
  induction m with
  | nil =>
    simp only [reachInsert, reachFind]
    by_cases h : c = c'
    · subst h; simp
    · have h' : ¬ c' = c := fun e => h e.symm
      simp [h, h']
  | cons e m ih =>
    obtain ⟨k, s⟩ := e
    simp only [reachInsert]
    by_cases hk : k = c
    · subst hk
      by_cases hq : q ∈ s
      · simp only [hq, if_true, reachFind]
        by_cases hc : k = c'
        · subst hc; simp only [if_true, Option.getD_some]
          constructor
          · intro h; exact Or.inl h
          · rintro (h | ⟨-, rfl⟩)
            · exact h
            · exact hq
        · have hc' : ¬ c' = k := fun e => hc e.symm
          simp [hc, hc']
      · simp only [hq, if_true, if_false, reachFind]
        by_cases hc : k = c'
        · subst hc; simp
        · have hc' : ¬ c' = k := fun e => hc e.symm
          simp [hc, hc']
    · simp only [hk, if_false, reachFind]
      by_cases hc : k = c'
      · subst hc
        have : ¬ k = c := hk
        simp [this]
      · simp only [hc, if_false]
        exact ih

theorem reachInsert_snd (c q : Nat) (m : List (Nat × List Nat)) :
    (reachInsert c q m).2 = true ↔ q ∉ (reachFind c m).getD [] := by
  induction m with
  | nil => simp [reachInsert, reachFind]
  | cons e m ih =>
    obtain ⟨k, s⟩ := e
    simp only [reachInsert, reachFind]
    by_cases hk : k = c
    · subst hk
      by_cases hq : q ∈ s <;> simp [hq]
    · simp only [hk, if_false]
      exact ih

theorem shape_set_reach (g : Graph) (s : Nat) (p : Processor) (r : List (Nat × List Nat))
    (h : g.procs[s]? = some p) :
    Graph.shape { g with procs := g.procs.set s { p with reachable_processors := r } } =
      g.shape := by
  simp only [Graph.shape]
  congr 1
  apply List.ext_getElem?
  intro i
  simp only [List.getElem?_map, List.getElem?_set]
  by_cases hi : s = i
  · subst hi
    have hlt : s < g.procs.length := by
      rcases Nat.lt_or_ge s g.procs.length with h1 | h1
      · exact h1
      · rw [List.getElem?_eq_none h1] at h; cases h
    simp [hlt, h, Processor.shape]
  · simp [hi]

theorem insertReachable_shape (g : Graph) (s c q : Nat) :
    (insertReachable g s c q).1.shape = g.shape := by
  unfold insertReachable
  cases h : g.procs[s]? with
  | none => rfl
  | some p => exact shape_set_reach g s p _ h

theorem lt_of_getElem?_some {α : Type} {l : List α} {i : Nat} {a : α}
    (h : l[i]? = some a) : i < l.length := by
  rcases Nat.lt_or_ge i l.length with h1 | h1
  · exact h1
  · rw [List.getElem?_eq_none h1] at h; cases h

theorem insertReachable_reach (g : Graph) (s c q s' c' q' : Nat) :
    q' ∈ (insertReachable g s c q).1.reach s' c' ↔
      q' ∈ g.reach s' c' ∨ (s' = s ∧ c' = c ∧ q' = q ∧ s < g.procs.length) := by
  unfold insertReachable
  cases h : g.procs[s]? with
  | none =>
    have : ¬ s < g.procs.length := by
      intro hlt
      rw [List.getElem?_eq_getElem hlt] at h; cases h
    simp [this]
  | some p =>
    have hlt := lt_of_getElem?_some h
    simp only [Graph.reach, List.getElem?_set]
    by_cases hs : s = s'
    · subst hs
      simp only [if_true, hlt, h, reachFind_reachInsert]
      constructor
      · rintro (h1 | ⟨h1, h2⟩)
        · exact Or.inl h1
        · exact Or.inr ⟨trivial, h1, h2, trivial⟩
      · rintro (h1 | ⟨-, h1, h2, -⟩)
        · exact Or.inl h1
        · exact Or.inr ⟨h1, h2⟩
    · have hs' : ¬ s' = s := fun e => hs e.symm
      simp [hs, hs']

theorem insertReachable_snd (g : Graph) (s c q : Nat) :
    (insertReachable g s c q).2 = true ↔ s < g.procs.length ∧ q ∉ g.reach s c := by
  unfold insertReachable
  cases h : g.procs[s]? with
  | none =>
    have : ¬ s < g.procs.length := by
      intro hlt
      rw [List.getElem?_eq_getElem hlt] at h; cases h
    simp [this]
  | some p =>
    have hlt := lt_of_getElem?_some h
    simp only [Graph.reach, h, reachInsert_snd, hlt, true_and]

/-! ### Graphs that differ in reachability sets only -/

theorem Graph.le_refl (g : Graph) : g.le g := ⟨rfl, fun _ _ _ h => h, fun _ _ _ h => h⟩

theorem Graph.le_trans {a b c : Graph} (h1 : a.le b) (h2 : b.le c) : a.le c :=
  ⟨Eq.trans h1.1 h2.1, fun s k q h => h2.2.1 s k q (h1.2.1 s k q h),
    fun s k q h => h2.2.2 s k q (h1.2.2 s k q h)⟩

theorem Graph.stepBy_refl (self : Nat) (g : Graph) : g.stepBy self g :=
  ⟨g.le_refl, fun _ _ => rfl⟩

theorem Graph.stepBy_trans {self : Nat} {a b c : Graph} (h1 : a.stepBy self b)
    (h2 : b.stepBy self c) : a.stepBy self c :=
  ⟨Graph.le_trans h1.1 h2.1, fun s hs => (h2.2 s hs).trans (h1.2 s hs)⟩

theorem shape_conns {g g' : Graph} (h : g.shape = g'.shape) : g.conns = g'.conns := by
  have := congrArg Graph.conns h
  simpa [Graph.shape] using this

theorem shape_length {g g' : Graph} (h : g.shape = g'.shape) :
    g.procs.length = g'.procs.length := by
  have := congrArg (fun x => x.procs.length) h
  simpa [Graph.shape] using this

theorem shape_proc {g g' : Graph} (h : g.shape = g'.shape) (s : Nat) :
    (g.procs[s]?).map Processor.shape = (g'.procs[s]?).map Processor.shape := by
  have := congrArg (fun x => x.procs[s]?) h
  simpa [Graph.shape, List.getElem?_map] using this

theorem shape_isSome {g g' : Graph} (h : g.shape = g'.shape) (s : Nat) :
    (g.procs[s]?).isSome = (g'.procs[s]?).isSome := by
  have := congrArg Option.isSome (shape_proc h s)
  simpa using this

theorem shape_destinationOf {g g' : Graph} (h : g.shape = g'.shape) (c : Nat) :
    destinationOf g c = destinationOf g' c := by
  unfold destinationOf
  rw [shape_conns h]
  cases g'.conns[c]? with
  | none => rfl
  | some connection =>
    cases hd : connection.destination with
    | none => simp only [hd]
    | some dest =>
      have hs := shape_isSome h dest
      simp only [hd]
      cases h1 : g.procs[dest]? <;> cases h2 : g'.procs[dest]? <;> simp [h1, h2] at hs ⊢

theorem shape_sourceOf {g g' : Graph} (h : g.shape = g'.shape) (c : Nat) :
    sourceOf g c = sourceOf g' c := by
  unfold sourceOf
  rw [shape_conns h]
  cases g'.conns[c]? with
  | none => rfl
  | some connection =>
    cases hd : connection.source with
    | none => simp only [hd]
    | some src =>
      have hs := shape_isSome h src
      simp only [hd]
      cases h1 : g.procs[src]? <;> cases h2 : g'.procs[src]? <;> simp [h1, h2] at hs ⊢

theorem shape_incoming {g g' : Graph} (h : g.shape = g'.shape) {s : Nat} {p p' : Processor}
    (h1 : g.procs[s]? = some p) (h2 : g'.procs[s]? = some p') :
    p.incoming_connections = p'.incoming_connections ∧
      p.outgoing_connections = p'.outgoing_connections ∧ p.uuid = p'.uuid ∧
      p.isRunning = p'.isRunning := by
  have := shape_proc h s
  rw [h1, h2] at this
  simp only [Option.map_some', Option.some.injEq] at this
  have e1 := congrArg Processor.incoming_connections this
  have e2 := congrArg Processor.outgoing_connections this
  have e3 := congrArg Processor.uuid this
  have e4 := congrArg Processor.isRunning this
  simp only [Processor.shape, Processor.isRunning] at e1 e2 e3 e4
  exact ⟨e1, e2, e3, e4⟩

/-! ### One insertion into a reachability set -/

theorem reach_entryMem {g : Graph} {s c q : Nat} (h : q ∈ g.reach s c) : g.entryMem s c q := by
  unfold Graph.reach at h
  cases hp : g.procs[s]? with
  | none => simp [hp] at h
  | some p =>
    simp only [hp] at h
    refine ⟨p, hp, ?_⟩
    generalize p.reachable_processors = m at h
    induction m with
    | nil => simp [reachFind] at h
    | cons e m ih =>
      obtain ⟨k, set⟩ := e
      simp only [reachFind] at h
      by_cases hk : k = c
      · subst hk
        simp only [if_true, Option.getD_some] at h
        exact ⟨(k, set), List.mem_cons_self _ _, rfl, h⟩
      · simp only [hk, if_false] at h
        obtain ⟨e, he, h1, h2⟩ := ih h
        exact ⟨e, List.mem_cons_of_mem _ he, h1, h2⟩

theorem allReached_iff {g : Graph} {s x : Nat} :
    x ∈ allReached g s ↔ ∃ k, g.entryMem s k x := by
  unfold allReached Graph.entryMem
  cases hp : g.procs[s]? with
  | none => simp
  | some p =>
    simp only [List.mem_flatMap, Option.some.injEq, exists_eq_left']
    constructor
    · rintro ⟨e, he, hx⟩
      exact ⟨e.1, e, he, rfl, hx⟩
    · rintro ⟨k, e, he, -, hx⟩
      exact ⟨e, he, hx⟩

theorem reachInsert_entries (c q : Nat) (m : List (Nat × List Nat)) (e' : Nat × List Nat)
    (he : e' ∈ (reachInsert c q m).1) (x : Nat) (hx : x ∈ e'.2) :
    (∃ e ∈ m, e.1 = e'.1 ∧ x ∈ e.2) ∨ (e'.1 = c ∧ x = q) := by
  induction m with
  | nil =>
    simp only [reachInsert, List.mem_singleton] at he
    subst he
    simp only [List.mem_singleton] at hx
    exact Or.inr ⟨rfl, hx⟩
  | cons e m ih =>
    obtain ⟨k, s⟩ := e
    simp only [reachInsert] at he
    by_cases hk : k = c
    · subst hk
      by_cases hq : q ∈ s
      · simp only [hq, if_true] at he
        exact Or.inl ⟨e', he, rfl, hx⟩
      · simp only [hq, if_true, if_false, List.mem_cons] at he
        rcases he with he | he
        · subst he
          simp only [List.mem_append, List.mem_singleton] at hx
          rcases hx with hx | hx
          · exact Or.inl ⟨(k, s), List.mem_cons_self _ _, rfl, hx⟩
          · exact Or.inr ⟨rfl, hx⟩
        · exact Or.inl ⟨e', List.mem_cons_of_mem _ he, rfl, hx⟩
    · simp only [hk, if_false, List.mem_cons] at he
      rcases he with he | he
      · subst he
        exact Or.inl ⟨(k, s), List.mem_cons_self _ _, rfl, hx⟩
      · rcases ih he with ⟨e, h1, h2, h3⟩ | h
        · exact Or.inl ⟨e, List.mem_cons_of_mem _ h1, h2, h3⟩
        · exact Or.inr h

theorem insertReachable_other (g : Graph) (self c q s : Nat) (hs : s ≠ self) :
    (insertReachable g self c q).1.procs[s]? = g.procs[s]? := by
  unfold insertReachable
  cases h : g.procs[self]? with
  | none => rfl
  | some p =>
    simp only [List.getElem?_set]
    have : ¬ self = s := fun e => hs e.symm
    simp [this]

theorem insertReachable_entryMem (g : Graph) (self c q s k x : Nat)
    (h : (insertReachable g self c q).1.entryMem s k x) :
    g.entryMem s k x ∨ (s = self ∧ k = c ∧ x = q) := by
  by_cases hs : s = self
  · subst hs
    unfold insertReachable at h
    cases hp : g.procs[s]? with
    | none =>
      simp only [hp] at h
      exact Or.inl h
    | some p =>
      simp only [hp] at h
      obtain ⟨p', hp', e', he', hk, hx⟩ := h
      have hlt := lt_of_getElem?_some hp
      simp only [List.getElem?_set, if_true, hlt, Option.some.injEq] at hp'
      subst hp'
      rcases reachInsert_entries c q _ e' he' x hx with ⟨e, h1, h2, h3⟩ | ⟨h1, h2⟩
      · exact Or.inl ⟨p, hp, e, h1, h2.trans hk, h3⟩
      · exact Or.inr ⟨rfl, hk.symm.trans h1, h2⟩
  · left
    obtain ⟨p', hp', rest⟩ := h
    rw [insertReachable_other g self c q s hs] at hp'
    exact ⟨p', hp', rest⟩

theorem reachInsert_mono (c q : Nat) (m : List (Nat × List Nat)) (e : Nat × List Nat)
    (he : e ∈ m) (x : Nat) (hx : x ∈ e.2) :
    ∃ e' ∈ (reachInsert c q m).1, e'.1 = e.1 ∧ x ∈ e'.2 := by
  induction m with
  | nil => cases he
  | cons e0 m ih =>
    obtain ⟨k, s⟩ := e0
    simp only [reachInsert]
    by_cases hk : k = c
    · subst hk
      by_cases hq : q ∈ s
      · simp only [hq, if_true]
        exact ⟨e, he, rfl, hx⟩
      · simp only [hq, if_true, if_false]
        rcases List.mem_cons.1 he with h | h
        · subst h
          exact ⟨(k, s ++ [q]), List.mem_cons_self _ _, rfl, List.mem_append_left _ hx⟩
        · exact ⟨e, List.mem_cons_of_mem _ h, rfl, hx⟩
    · simp only [hk, if_false]
      rcases List.mem_cons.1 he with h | h
      · subst h
        exact ⟨(k, s), List.mem_cons_self _ _, rfl, hx⟩
      · obtain ⟨e', h1, h2, h3⟩ := ih h
        exact ⟨e', List.mem_cons_of_mem _ h1, h2, h3⟩

theorem insertReachable_entryMem_mono (g : Graph) (self c q s k x : Nat)
    (h : g.entryMem s k x) : (insertReachable g self c q).1.entryMem s k x := by
  by_cases hs : s = self
  · subst hs
    obtain ⟨p, hp, e, he, hk, hx⟩ := h
    have hlt := lt_of_getElem?_some hp
    obtain ⟨e', h1, h2, h3⟩ := reachInsert_mono c q _ e he x hx
    refine ⟨{ p with reachable_processors := (reachInsert c q p.reachable_processors).1 }, ?_,
      e', h1, h2.trans hk, h3⟩
    simp [insertReachable, hp, hlt]
  · obtain ⟨p, hp, rest⟩ := h
    exact ⟨p, by rw [insertReachable_other g self c q s hs]; exact hp, rest⟩

theorem insertReachable_stepBy (g : Graph) (self c q : Nat) :
    g.stepBy self (insertReachable g self c q).1 :=
  ⟨⟨(insertReachable_shape g self c q).symm,
      fun s k x h => (insertReachable_reach g self c q s k x).2 (Or.inl h),
      fun s k x h => insertReachable_entryMem_mono g self c q s k x h⟩,
    fun s hs => insertReachable_other g self c q s hs⟩

theorem reachInsert_noop (c q : Nat) (m : List (Nat × List Nat))
    (h : (reachInsert c q m).2 = false) : (reachInsert c q m).1 = m := by
  induction m with
  | nil => simp [reachInsert] at h
  | cons e m ih =>
    obtain ⟨k, s⟩ := e
    simp only [reachInsert] at h ⊢
    by_cases hk : k = c
    · subst hk
      by_cases hq : q ∈ s
      · simp [hq]
      · simp [hq] at h
    · simp only [hk, if_false] at h ⊢
      rw [ih h]

theorem insertReachable_noop (g : Graph) (self c q : Nat)
    (h : (insertReachable g self c q).2 = false) : (insertReachable g self c q).1 = g := by
  unfold insertReachable at h ⊢
  cases hp : g.procs[self]? with
  | none => rfl
  | some p =>
    simp only [hp] at h ⊢
    rw [reachInsert_noop c q _ h]
    have hlt := lt_of_getElem?_some hp
    have : g.procs.set self p = g.procs := by
      apply List.ext_getElem?
      intro i
      simp only [List.getElem?_set]
      by_cases hi : self = i
      · subst hi; simp [hlt, hp]
      · simp [hi]
    cases g
    simp only at this ⊢
    rw [this]

/-! ### The first loop of `updateReachability` -/

theorem insertAll_nil (self c : Nat) (acc : Graph × Bool) : insertAll self c acc [] = acc := rfl

theorem insertAll_cons (self c : Nat) (acc : Graph × Bool) (q : Nat) (qs : List Nat) :
    insertAll self c acc (q :: qs) =
      insertAll self c
        ((insertReachable acc.1 self c q).1, acc.2 || (insertReachable acc.1 self c q).2) qs :=
  rfl

theorem insertAll_stepBy (self c : Nat) (qs : List Nat) (acc : Graph × Bool) :
    acc.1.stepBy self (insertAll self c acc qs).1 := by
  induction qs generalizing acc with
  | nil => exact Graph.stepBy_refl _ _
  | cons q qs ih =>
    rw [insertAll_cons]
    refine Graph.stepBy_trans (insertReachable_stepBy acc.1 self c q) ?_
    exact ih ((insertReachable acc.1 self c q).1, acc.2 || (insertReachable acc.1 self c q).2)

theorem insertAll_reach (self c : Nat) (qs : List Nat) (acc : Graph × Bool)
    (hself : self < acc.1.procs.length) (q : Nat) (hq : q ∈ qs) :
    q ∈ (insertAll self c acc qs).1.reach self c := by
  induction qs generalizing acc with
  | nil => cases hq
  | cons q0 qs ih =>
    rw [insertAll_cons]
    rcases List.mem_cons.1 hq with h | h
    · subst h
      have h1 : q ∈ (insertReachable acc.1 self c q).1.reach self c :=
        (insertReachable_reach acc.1 self c q self c q).2 (Or.inr ⟨rfl, rfl, rfl, hself⟩)
      exact (insertAll_stepBy self c qs _).1.2.1 self c q h1
    · apply ih _ _ h
      have := shape_length (insertReachable_shape acc.1 self c q0)
      simp only at this ⊢
      omega

theorem insertAll_noop (self c : Nat) (qs : List Nat) (acc : Graph × Bool)
    (h : (insertAll self c acc qs).2 = false) :
    (insertAll self c acc qs).1 = acc.1 ∧ acc.2 = false := by
  induction qs generalizing acc with
  | nil => exact ⟨rfl, h⟩
  | cons q qs ih =>
    rw [insertAll_cons] at h ⊢
    obtain ⟨h1, h2⟩ := ih _ h
    simp only [Bool.or_eq_false_iff] at h2
    rw [h1]
    exact ⟨insertReachable_noop acc.1 self c q h2.2, h2.1⟩

theorem insertAll_grow (self c : Nat) (qs : List Nat) (acc : Graph × Bool)
    (h : (insertAll self c acc qs).2 = true) :
    acc.2 = true ∨ ∃ x, x ∈ (insertAll self c acc qs).1.reach self c ∧ x ∉ acc.1.reach self c := by
  induction qs generalizing acc with
  | nil => exact Or.inl h
  | cons q qs ih =>
    rw [insertAll_cons] at h ⊢
    rcases ih _ h with h1 | ⟨x, hx1, hx2⟩
    · simp only [Bool.or_eq_true] at h1
      rcases h1 with h1 | h1
      · exact Or.inl h1
      · right
        have h2 := (insertReachable_snd acc.1 self c q).1 h1
        refine ⟨q, ?_, h2.2⟩
        have h3 : q ∈ (insertReachable acc.1 self c q).1.reach self c :=
          (insertReachable_reach acc.1 self c q self c q).2 (Or.inr ⟨rfl, rfl, rfl, h2.1⟩)
        exact (insertAll_stepBy self c qs _).1.2.1 self c q h3
    · right
      refine ⟨x, hx1, fun hx => hx2 ?_⟩
      exact (insertReachable_stepBy acc.1 self c q).1.2.1 self c x hx

theorem insertAll_inv (Q : Graph → Prop) (self c : Nat) (qs : List Nat) (acc : Graph × Bool)
    (hQ : ∀ a q, acc.1.stepBy self a → Q a → q ∈ qs → Q (insertReachable a self c q).1)
    (h0 : Q acc.1) : Q (insertAll self c acc qs).1 := by
  induction qs generalizing acc with
  | nil => exact h0
  | cons q qs ih =>
    rw [insertAll_cons]
    apply ih
    · intro a x ha hqa hx
      exact hQ a x (Graph.stepBy_trans (insertReachable_stepBy acc.1 self c q) ha) hqa
        (List.mem_cons_of_mem _ hx)
    · exact hQ acc.1 q (Graph.stepBy_refl _ _) h0 (List.mem_cons_self _ _)

theorem destinationOf_lt {g : Graph} {c d : Nat} (h : destinationOf g c = some d) :
    c < g.conns.length ∧ d < g.procs.length := by
  unfold destinationOf at h
  cases hc : g.conns[c]? with
  | none => simp [hc] at h
  | some connection =>
    simp only [hc] at h
    cases hd : connection.destination with
    | none => simp [hd] at h
    | some dest =>
      simp only [hd] at h
      cases hp : g.procs[dest]? with
      | none => simp [hp] at h
      | some p =>
        simp only [hp, Option.some.injEq] at h
        subst h
        exact ⟨lt_of_getElem?_some hc, lt_of_getElem?_some hp⟩

theorem reachConnection_stepBy (self : Nat) (acc : Graph × Bool) (c : Nat) :
    acc.1.stepBy self (reachConnection self acc c).1 := by
  unfold reachConnection
  cases hd : destinationOf acc.1 c with
  | none => exact Graph.stepBy_refl _ _
  | some d =>
    refine Graph.stepBy_trans (insertReachable_stepBy acc.1 self c d) ?_
    exact insertAll_stepBy self c (allReached (insertReachable acc.1 self c d).1 d)
      ((insertReachable acc.1 self c d).1, acc.2 || (insertReachable acc.1 self c d).2)

theorem reachConnection_noop (self : Nat) (acc : Graph × Bool) (c : Nat)
    (h : (reachConnection self acc c).2 = false) :
    (reachConnection self acc c).1 = acc.1 ∧ acc.2 = false := by
  unfold reachConnection at h ⊢
  cases hd : destinationOf acc.1 c with
  | none =>
    simp only [hd] at h
    exact ⟨rfl, h⟩
  | some d =>
    simp only [hd] at h ⊢
    obtain ⟨h1, h2⟩ := insertAll_noop _ _ _ _ h
    simp only [Bool.or_eq_false_iff] at h2
    rw [h1]
    exact ⟨insertReachable_noop acc.1 self c d h2.2, h2.1⟩

theorem reachConnection_grow (self : Nat) (acc : Graph × Bool) (c : Nat)
    (h : (reachConnection self acc c).2 = true) :
    acc.2 = true ∨ (c < acc.1.conns.length ∧
      ∃ x, x ∈ (reachConnection self acc c).1.reach self c ∧ x ∉ acc.1.reach self c) := by
  unfold reachConnection at h ⊢
  cases hd : destinationOf acc.1 c with
  | none =>
    simp only [hd] at h
    exact Or.inl h
  | some d =>
    simp only [hd] at h ⊢
    rcases insertAll_grow _ _ _ _ h with h1 | ⟨x, hx1, hx2⟩
    · simp only [Bool.or_eq_true] at h1
      rcases h1 with h1 | h1
      · exact Or.inl h1
      · right
        have h2 := (insertReachable_snd acc.1 self c d).1 h1
        refine ⟨(destinationOf_lt hd).1, d, ?_, h2.2⟩
        have h3 : d ∈ (insertReachable acc.1 self c d).1.reach self c :=
          (insertReachable_reach acc.1 self c d self c d).2 (Or.inr ⟨rfl, rfl, rfl, h2.1⟩)
        exact (insertAll_stepBy self c _ _).1.2.1 self c d h3
    · right
      refine ⟨(destinationOf_lt hd).1, x, hx1, fun hx => hx2 ?_⟩
      exact (insertReachable_stepBy acc.1 self c d).1.2.1 self c x hx

/-- After the loop body for `c` with destination `d`, the set of `c` holds `d`
and everything that `d` had stored when the body ran. -/
theorem reachConnection_done (self : Nat) (acc : Graph × Bool) (c d : Nat)
    (hself : self < acc.1.procs.length) (hd : destinationOf acc.1 c = some d) :
    d ∈ (reachConnection self acc c).1.reach self c ∧
      ∀ q ∈ allReached (insertReachable acc.1 self c d).1 d,
        q ∈ (reachConnection self acc c).1.reach self c := by
  unfold reachConnection
  simp only [hd]
  constructor
  · have h3 : d ∈ (insertReachable acc.1 self c d).1.reach self c :=
      (insertReachable_reach acc.1 self c d self c d).2 (Or.inr ⟨rfl, rfl, rfl, hself⟩)
    exact (insertAll_stepBy self c _ _).1.2.1 self c d h3
  · intro q hq
    apply insertAll_reach _ _ _ _ _ _ hq
    have := shape_length (insertReachable_shape acc.1 self c d)
    simp only at this ⊢
    omega

theorem reachConnection_inv (Q : Graph → Prop) (self : Nat) (acc : Graph × Bool) (c : Nat)
    (hQ : ∀ a d q, acc.1.stepBy self a → Q a → destinationOf acc.1 c = some d →
      (q = d ∨ q ∈ allReached a d) → Q (insertReachable a self c q).1)
    (h0 : Q acc.1) : Q (reachConnection self acc c).1 := by
  unfold reachConnection
  cases hd : destinationOf acc.1 c with
  | none => exact h0
  | some d =>
    simp only
    apply insertAll_inv Q
    · intro a q ha hqa hq
      refine hQ a d q (Graph.stepBy_trans (insertReachable_stepBy acc.1 self c d) ha) hqa hd
        (Or.inr ?_)
      obtain ⟨k, hk⟩ := allReached_iff.1 hq
      exact allReached_iff.2 ⟨k, ha.1.2.2 d k q hk⟩
    · exact hQ acc.1 d d (Graph.stepBy_refl _ _) h0 hd (Or.inl rfl)

theorem reachConnection_done_noop (self : Nat) (acc : Graph × Bool) (c d : Nat)
    (hself : self < acc.1.procs.length) (hd : destinationOf acc.1 c = some d)
    (h : (reachConnection self acc c).2 = false) :
    d ∈ acc.1.reach self c ∧ ∀ q ∈ allReached acc.1 d, q ∈ acc.1.reach self c := by
  have hdone := reachConnection_done self acc c d hself hd
  have hno := reachConnection_noop self acc c h
  rw [hno.1] at hdone
  have h2 : (insertReachable acc.1 self c d).2 = false := by
    unfold reachConnection at h
    simp only [hd] at h
    have := (insertAll_noop _ _ _ _ h).2
    simp only [Bool.or_eq_false_iff] at this
    exact this.2
  rw [insertReachable_noop acc.1 self c d h2] at hdone
  exact hdone

theorem allReached_congr {g g' : Graph} {d : Nat} (h : g'.procs[d]? = g.procs[d]?) :
    allReached g' d = allReached g d := by
  unfold allReached
  rw [h]

theorem reachFold_stepBy (self : Nat) (cs : List Nat) (acc : Graph × Bool) :
    acc.1.stepBy self (cs.foldl (reachConnection self) acc).1 := by
  induction cs generalizing acc with
  | nil => exact Graph.stepBy_refl _ _
  | cons c cs ih =>
    rw [List.foldl_cons]
    exact Graph.stepBy_trans (reachConnection_stepBy self acc c) (ih (reachConnection self acc c))

theorem reachFold_noop (self : Nat) (cs : List Nat) (acc : Graph × Bool)
    (h : (cs.foldl (reachConnection self) acc).2 = false) :
    (cs.foldl (reachConnection self) acc).1 = acc.1 ∧ acc.2 = false := by
  induction cs generalizing acc with
  | nil => exact ⟨rfl, h⟩
  | cons c cs ih =>
    rw [List.foldl_cons] at h ⊢
    obtain ⟨h1, h2⟩ := ih (reachConnection self acc c) h
    obtain ⟨h3, h4⟩ := reachConnection_noop self acc c h2
    exact ⟨h1.trans h3, h4⟩

theorem reachFold_grow (self : Nat) (cs : List Nat) (acc : Graph × Bool)
    (h : (cs.foldl (reachConnection self) acc).2 = true) :
    acc.2 = true ∨ ∃ c x, c < acc.1.conns.length ∧
      x ∈ (cs.foldl (reachConnection self) acc).1.reach self c ∧ x ∉ acc.1.reach self c := by
  induction cs generalizing acc with
  | nil => exact Or.inl h
  | cons c cs ih =>
    rw [List.foldl_cons] at h ⊢
    have hstep := reachConnection_stepBy self acc c
    rcases ih (reachConnection self acc c) h with h1 | ⟨k, x, hk, hx1, hx2⟩
    · rcases reachConnection_grow self acc c h1 with h2 | ⟨hc, x, hx1, hx2⟩
      · exact Or.inl h2
      · right
        exact ⟨c, x, hc, (reachFold_stepBy self cs _).1.2.1 self c x hx1, hx2⟩
    · right
      refine ⟨k, x, ?_, hx1, fun hx => hx2 (hstep.1.2.1 self k x hx)⟩
      rw [shape_conns hstep.1.1]
      exact hk

theorem reachFold_done (self : Nat) (cs : List Nat) (acc : Graph × Bool)
    (hself : self < acc.1.procs.length) (c d : Nat) (hc : c ∈ cs)
    (hd : destinationOf acc.1 c = some d) :
    d ∈ (cs.foldl (reachConnection self) acc).1.reach self c ∧
      (d ≠ self → ∀ q ∈ allReached (cs.foldl (reachConnection self) acc).1 d,
        q ∈ (cs.foldl (reachConnection self) acc).1.reach self c) := by
  induction cs generalizing acc with
  | nil => cases hc
  | cons c0 cs ih =>
    rw [List.foldl_cons]
    have hstep := reachConnection_stepBy self acc c0
    rcases List.mem_cons.1 hc with h | h
    · subst h
      have hdone := reachConnection_done self acc c d hself hd
      have hrest := reachFold_stepBy self cs (reachConnection self acc c)
      refine ⟨hrest.1.2.1 self c d hdone.1, fun hne q hq => ?_⟩
      apply hrest.1.2.1 self c q
      apply hdone.2
      have e1 : allReached (cs.foldl (reachConnection self) (reachConnection self acc c)).1 d =
          allReached (insertReachable acc.1 self c d).1 d := by
        apply allReached_congr
        rw [hrest.2 d hne, hstep.2 d hne, insertReachable_other _ _ _ _ _ hne]
      rw [e1] at hq
      exact hq
    · apply ih (reachConnection self acc c0) _ h
      · rw [← shape_destinationOf hstep.1.1]
        exact hd
      · rw [← shape_length hstep.1.1]
        exact hself

theorem reachFold_done_noop (self : Nat) (cs : List Nat) (acc : Graph × Bool)
    (hself : self < acc.1.procs.length) (c d : Nat) (hc : c ∈ cs)
    (hd : destinationOf acc.1 c = some d)
    (hno : (cs.foldl (reachConnection self) acc).2 = false) :
    d ∈ acc.1.reach self c ∧ ∀ q ∈ allReached acc.1 d, q ∈ acc.1.reach self c := by
  induction cs generalizing acc with
  | nil => cases hc
  | cons c0 cs ih =>
    rw [List.foldl_cons] at hno
    have h2 := (reachFold_noop self cs _ hno).2
    have h3 := (reachConnection_noop self acc c0 h2).1
    rcases List.mem_cons.1 hc with h | h
    · subst h
      exact reachConnection_done_noop self acc c d hself hd h2
    · have := ih (reachConnection self acc c0) (by rw [h3]; exact hself) h
        (by rw [h3]; exact hd) hno
      rw [h3] at this
      exact this

theorem reachFold_inv (Q : Graph → Prop) (self : Nat) (cs : List Nat) (acc : Graph × Bool)
    (hQ : ∀ a c d q, acc.1.stepBy self a → Q a → c ∈ cs → destinationOf acc.1 c = some d →
      (q = d ∨ q ∈ allReached a d) → Q (insertReachable a self c q).1)
    (h0 : Q acc.1) : Q (cs.foldl (reachConnection self) acc).1 := by
  induction cs generalizing acc with
  | nil => exact h0
  | cons c0 cs ih =>
    rw [List.foldl_cons]
    have hstep := reachConnection_stepBy self acc c0
    apply ih (reachConnection self acc c0)
    · intro a c d q ha hqa hc hd hq
      refine hQ a c d q (Graph.stepBy_trans hstep ha) hqa (List.mem_cons_of_mem _ hc) ?_ hq
      rw [shape_destinationOf hstep.1.1]
      exact hd
    · apply reachConnection_inv Q self acc c0 _ h0
      intro a d q ha hqa hd hq
      exact hQ a c0 d q ha hqa (List.mem_cons_self _ _) hd hq

/-! ### Termination of `updateReachability` -/

theorem updateReachability_succ (fuel : Nat) (g : Graph) (self : Nat) (force : Bool) :
    updateReachability (fuel + 1) g self force =
      match g.procs[self]? with
      | none => some g
      | some p =>
        if (reachOutgoing g self force).2 then
          p.incoming_connections.foldlM (propagate fuel) (reachOutgoing g self force).1
        else some (reachOutgoing g self force).1 := rfl

theorem room_mono {B : Nat} {g g' : Graph} (h : g.le g') : g'.room B ≤ g.room B := by
  unfold Graph.room
  rw [← shape_length h.1, ← shape_conns h.1]
  apply Finset.card_le_card
  intro t ht
  simp only [Finset.mem_filter] at ht ⊢
  exact ⟨ht.1, fun hx => ht.2 (h.2.1 _ _ _ hx)⟩

theorem room_lt {B : Nat} {g g' : Graph} (h : g.le g') {s c x : Nat}
    (hs : s < g.procs.length) (hc : c < g.conns.length) (hx : x < B)
    (h1 : x ∈ g'.reach s c) (h2 : x ∉ g.reach s c) : g'.room B < g.room B := by
  unfold Graph.room
  rw [← shape_length h.1, ← shape_conns h.1]
  apply Finset.card_lt_card
  rw [Finset.ssubset_iff_of_subset]
  · refine ⟨(s, c, x), ?_, ?_⟩
    · simp only [Finset.mem_filter, Finset.mem_product, Finset.mem_range]
      exact ⟨⟨hs, hc, hx⟩, h2⟩
    · simp only [Finset.mem_filter, not_and, not_not]
      intro _
      exact h1
  · intro t ht
    simp only [Finset.mem_filter] at ht ⊢
    exact ⟨ht.1, fun hx => ht.2 (h.2.1 _ _ _ hx)⟩

theorem room_le (B : Nat) (g : Graph) :
    g.room B ≤ g.procs.length * (g.conns.length * B) := by
  unfold Graph.room
  refine (Finset.card_filter_le _ _).trans ?_
  simp [Finset.card_product]

theorem foldr_max_ge (l : List Nat) (n : Nat) :
    n ≤ l.foldr (fun x b => max (x + 1) b) n ∧
      ∀ x ∈ l, x < l.foldr (fun x b => max (x + 1) b) n := by
  induction l with
  | nil => simp
  | cons y l ih =>
    simp only [List.foldr_cons, List.mem_cons, forall_eq_or_imp]
    refine ⟨le_trans ih.1 (le_max_right _ _), ?_, fun x hx => ?_⟩
    · exact lt_of_lt_of_le (Nat.lt_succ_self y) (le_max_left _ _)
    · exact lt_of_lt_of_le (ih.2 x hx) (le_max_right _ _)

theorem bounded_reachBound (g : Graph) : g.bounded g.reachBound := by
  refine ⟨(foldr_max_ge _ _).1, fun s k x h => ?_⟩
  apply (foldr_max_ge _ _).2
  obtain ⟨p, hp, e, he, -, hx⟩ := h
  simp only [List.mem_flatMap]
  exact ⟨p, List.getElem?_mem hp, e, he, hx⟩

theorem insertReachable_bounded {B : Nat} {a : Graph} (self c q : Nat) (ha : a.bounded B)
    (hq : q < B) : (insertReachable a self c q).1.bounded B := by
  refine ⟨?_, fun s k x h => ?_⟩
  · rw [shape_length (insertReachable_shape a self c q)]
    exact ha.1
  · rcases insertReachable_entryMem a self c q s k x h with h1 | ⟨-, -, h1⟩
    · exact ha.2 s k x h1
    · rw [h1]; exact hq

theorem reachOutgoing_stepBy (g : Graph) (self : Nat) (force : Bool) :
    g.stepBy self (reachOutgoing g self force).1 := by
  unfold reachOutgoing
  cases hp : g.procs[self]? with
  | none => exact Graph.stepBy_refl _ _
  | some p => exact reachFold_stepBy self _ (g, force)

theorem reachOutgoing_bounded {B : Nat} {g : Graph} (self : Nat) (force : Bool)
    (hb : g.bounded B) : (reachOutgoing g self force).1.bounded B := by
  unfold reachOutgoing
  cases hp : g.procs[self]? with
  | none => exact hb
  | some p =>
    apply reachFold_inv (Graph.bounded B) self _ (g, force) _ hb
    intro a c d q _ hqa _ hd hq
    apply insertReachable_bounded self c q hqa
    rcases hq with hq | hq
    · rw [hq]
      exact lt_of_lt_of_le (destinationOf_lt hd).2 hb.1
    · obtain ⟨k, hk⟩ := allReached_iff.1 hq
      exact hqa.2 d k q hk

theorem reachOutgoing_grow {g : Graph} {self : Nat} (h : (reachOutgoing g self false).2 = true) :
    self < g.procs.length ∧ ∃ c x, c < g.conns.length ∧
      x ∈ (reachOutgoing g self false).1.reach self c ∧ x ∉ g.reach self c := by
  unfold reachOutgoing at h ⊢
  cases hp : g.procs[self]? with
  | none => simp [hp] at h
  | some p =>
    simp only [hp] at h ⊢
    refine ⟨lt_of_getElem?_some hp, ?_⟩
    rcases reachFold_grow self _ (g, false) h with h1 | h1
    · cases h1
    · exact h1

theorem reachOutgoing_room {B : Nat} {g : Graph} {self : Nat} (hb : g.bounded B)
    (h : (reachOutgoing g self false).2 = true) :
    (reachOutgoing g self false).1.room B < g.room B := by
  obtain ⟨hs, c, x, hc, hx1, hx2⟩ := reachOutgoing_grow h
  refine room_lt (reachOutgoing_stepBy g self false).1 hs hc ?_ hx1 hx2
  exact (reachOutgoing_bounded self false hb).2 self c x (reach_entryMem hx1)

theorem propagate_fold_total (fuel : Nat) (B m : Nat)
    (H : ∀ g : Graph, g.bounded B → g.room B ≤ m → ∀ s,
      ∃ g', updateReachability fuel g s false = some g' ∧ g.le g' ∧ g'.bounded B)
    (l : List Nat) (a : Graph) (hb : a.bounded B) (hr : a.room B ≤ m) :
    ∃ g', l.foldlM (propagate fuel) a = some g' ∧ a.le g' ∧ g'.bounded B := by
  induction l generalizing a with
  | nil => exact ⟨a, rfl, a.le_refl, hb⟩
  | cons c l ih =>
    have hstep : ∃ a', propagate fuel a c = some a' ∧ a.le a' ∧ a'.bounded B := by
      unfold propagate
      cases sourceOf a c with
      | none => exact ⟨a, rfl, a.le_refl, hb⟩
      | some s => exact H a hb hr s
    obtain ⟨a', h1, h2, h3⟩ := hstep
    obtain ⟨g', h4, h5, h6⟩ := ih a' h3 (le_trans (room_mono h2) hr)
    refine ⟨g', ?_, Graph.le_trans h2 h5, h6⟩
    simp only [List.foldlM_cons, h1, Option.bind_eq_bind, Option.some_bind]
    exact h4

theorem updateReachability_total_aux (B : Nat) (n : Nat) :
    ∀ g : Graph, g.bounded B → g.room B ≤ n → ∀ fuel self, n + 1 ≤ fuel →
      ∃ g', updateReachability fuel g self false = some g' ∧ g.le g' ∧ g'.bounded B := by
  induction n with
  | zero =>
    intro g hb hr fuel self hf
    obtain ⟨f, rfl⟩ : ∃ f, fuel = f + 1 := ⟨fuel - 1, by omega⟩
    rw [updateReachability_succ]
    cases hp : g.procs[self]? with
    | none => exact ⟨g, rfl, g.le_refl, hb⟩
    | some p =>
      simp only
      cases hch : (reachOutgoing g self false).2 with
      | true =>
        have := reachOutgoing_room hb hch
        omega
      | false =>
        exact ⟨_, by simp, (reachOutgoing_stepBy g self false).1,
          reachOutgoing_bounded self false hb⟩
  | succ n ih =>
    intro g hb hr fuel self hf
    obtain ⟨f, rfl⟩ : ∃ f, fuel = f + 1 := ⟨fuel - 1, by omega⟩
    rw [updateReachability_succ]
    cases hp : g.procs[self]? with
    | none => exact ⟨g, rfl, g.le_refl, hb⟩
    | some p =>
      simp only
      have hle := (reachOutgoing_stepBy g self false).1
      have hb1 := reachOutgoing_bounded (g := g) self false hb
      cases hch : (reachOutgoing g self false).2 with
      | true =>
        have hlt := reachOutgoing_room hb hch
        obtain ⟨g', h1, h2, h3⟩ := propagate_fold_total f B n
          (fun a ha hra s => ih a ha hra f s (by omega)) p.incoming_connections _ hb1 (by omega)
        exact ⟨g', by simpa using h1, Graph.le_trans hle h2, h3⟩
      | false => exact ⟨_, by simp, hle, hb1⟩

theorem updateReachability_total_bounded (B : Nat) (g : Graph) (hb : g.bounded B)
    (fuel self : Nat) (force : Bool) (hf : g.room B + 2 ≤ fuel) :
    ∃ g', updateReachability fuel g self force = some g' ∧ g.le g' ∧ g'.bounded B := by
  cases force with
  | false => exact updateReachability_total_aux B _ g hb le_rfl fuel self (by omega)
  | true =>
    obtain ⟨f, rfl⟩ : ∃ f, fuel = f + 1 := ⟨fuel - 1, by omega⟩
    rw [updateReachability_succ]
    cases hp : g.procs[self]? with
    | none => exact ⟨g, rfl, g.le_refl, hb⟩
    | some p =>
      simp only
      have hle := (reachOutgoing_stepBy g self true).1
      have hb1 := reachOutgoing_bounded (g := g) self true hb
      cases hch : (reachOutgoing g self true).2 with
      | true =>
        obtain ⟨g', h1, h2, h3⟩ := propagate_fold_total f B (g.room B)
          (fun a ha hra s => updateReachability_total_aux B _ a ha hra f s (by omega))
          p.incoming_connections _ hb1 (room_mono hle)
        exact ⟨g', by simpa using h1, Graph.le_trans hle h2, h3⟩
      | false => exact ⟨_, by simp, hle, hb1⟩

/-- With fuel `g.fuel` or more, `updateReachability` returns. -/
theorem updateReachability_total (g : Graph) (fuel self : Nat) (force : Bool)
    (hf : g.fuel ≤ fuel) : ∃ g', updateReachability fuel g self force = some g' ∧ g.le g' := by
  have hr := room_le g.reachBound g
  obtain ⟨g', h1, h2, -⟩ := updateReachability_total_bounded g.reachBound g
    (bounded_reachBound g) fuel self force (by unfold Graph.fuel at hf; omega)
  exact ⟨g', h1, h2⟩

/-! ### `addConnection`: the containers -/

theorem mem_setInsert {c x : Nat} {s : List Nat} : c ∈ setInsert x s ↔ c = x ∨ c ∈ s := by
  unfold setInsert
  by_cases h : x ∈ s
  · simp only [h, if_true]
    constructor
    · exact Or.inr
    · rintro (rfl | h1)
      · exact h
      · exact h1
  · simp only [h, if_false, List.mem_orderedInsert]

theorem mapFind_mapAssign (k k2 : String) (v : List Nat) (m : List (String × List Nat)) :
    mapFind k2 (mapAssign k v m) = if k2 = k then some v else mapFind k2 m := by
  induction m with
  | nil =>
    simp only [mapAssign, mapFind]
    by_cases h : k = k2
    · subst h; simp
    · have h' : ¬ k2 = k := fun e => h e.symm
      simp [h, h']
  | cons e m ih =>
    obtain ⟨k', v'⟩ := e
    simp only [mapAssign]
    by_cases h1 : k' = k
    · subst h1
      simp only [if_true, mapFind]
      by_cases h : k' = k2
      · subst h; simp
      · have h' : ¬ k2 = k' := fun e => h e.symm
        simp [h, h']
    · simp only [h1, if_false]
      by_cases h2 : keyLe k' k
      · simp only [h2, if_true, mapFind, ih]
        by_cases h : k' = k2
        · subst h
          have : ¬ k' = k := h1
          simp [this]
        · simp [h]
      · simp only [h2, if_false, mapFind]
        by_cases h : k = k2
        · subst h; simp
        · have h' : ¬ k2 = k := fun e => h e.symm
          simp [h, h']

theorem mapFind_flat {k : String} {m : List (String × List Nat)} {s : List Nat} {x : Nat}
    (h : mapFind k m = some s) (hx : x ∈ s) : x ∈ m.flatMap (fun e => e.2) := by
  induction m with
  | nil => simp [mapFind] at h
  | cons e m ih =>
    obtain ⟨k', v'⟩ := e
    simp only [mapFind] at h
    simp only [List.flatMap_cons, List.mem_append]
    by_cases h1 : k' = k
    · simp only [h1, if_true, Option.some.injEq] at h
      subst h
      exact Or.inl hx
    · simp only [h1, if_false] at h
      exact Or.inr (ih h)

theorem mapAssign_flat {k : String} {v : List Nat} {m : List (String × List Nat)} {x : Nat}
    (hx : x ∈ (mapAssign k v m).flatMap (fun e => e.2)) :
    x ∈ v ∨ x ∈ m.flatMap (fun e => e.2) := by
  induction m with
  | nil =>
    simp only [mapAssign, List.flatMap_cons, List.flatMap_nil, List.append_nil] at hx
    exact Or.inl hx
  | cons e m ih =>
    obtain ⟨k', v'⟩ := e
    simp only [mapAssign] at hx
    simp only [List.flatMap_cons, List.mem_append]
    by_cases h1 : k' = k
    · simp only [h1, if_true, List.flatMap_cons, List.mem_append] at hx
      rcases hx with hx | hx
      · exact Or.inl hx
      · exact Or.inr (Or.inr hx)
    · simp only [h1, if_false] at hx
      by_cases h2 : keyLe k' k
      · simp only [h2, if_true, List.flatMap_cons, List.mem_append] at hx
        rcases hx with hx | hx
        · exact Or.inr (Or.inl hx)
        · rcases ih hx with h | h
          · exact Or.inl h
          · exact Or.inr (Or.inr h)
      · simp only [h2, if_false, List.flatMap_cons, List.mem_append] at hx
        rcases hx with hx | hx | hx
        · exact Or.inl hx
        · exact Or.inr (Or.inl hx)
        · exact Or.inr (Or.inr hx)

theorem mapAssign_flat_mono {k : String} {v : List Nat} {m : List (String × List Nat)}
    {x : Nat} (hv : ∀ y ∈ (mapFind k m).getD [], y ∈ v)
    (hx : x ∈ m.flatMap (fun e => e.2)) :
    x ∈ (mapAssign k v m).flatMap (fun e => e.2) := by
  induction m with
  | nil => simp at hx
  | cons e m ih =>
    obtain ⟨k', v'⟩ := e
    simp only [List.flatMap_cons, List.mem_append] at hx
    simp only [mapAssign]
    by_cases h1 : k' = k
    · subst h1
      simp only [if_true, List.flatMap_cons, List.mem_append]
      rcases hx with hx | hx
      · left
        apply hv
        simp only [mapFind, if_true, Option.getD_some]
        exact hx
      · exact Or.inr hx
    · simp only [h1, if_false]
      by_cases h2 : keyLe k' k
      · simp only [h2, if_true, List.flatMap_cons, List.mem_append]
        rcases hx with hx | hx
        · exact Or.inl hx
        · have hv' : ∀ y ∈ (mapFind k m).getD [], y ∈ v := by
            intro y hy
            apply hv
            simp only [mapFind, h1, if_false]
            exact hy
          exact Or.inr (ih hv' hx)
      · simp only [h2, if_false, List.flatMap_cons, List.mem_append]
        rcases hx with hx | hx
        · exact Or.inr (Or.inl hx)
        · exact Or.inr (Or.inr hx)

theorem modifyProc_conns (g : Graph) (self : Nat) (f : Processor → Processor) :
    (g.modifyProc self f).conns = g.conns := by
  unfold Graph.modifyProc
  cases g.procs[self]? <;> rfl

theorem modifyProc_procs (g : Graph) (self s : Nat) (f : Processor → Processor) :
    (g.modifyProc self f).procs[s]? =
      if s = self then (g.procs[self]?).map f else g.procs[s]? := by
  unfold Graph.modifyProc
  cases hp : g.procs[self]? with
  | none =>
    by_cases h : s = self
    · subst h; simp [hp]
    · simp [h]
  | some p =>
    have hlt := lt_of_getElem?_some hp
    simp only [List.getElem?_set]
    by_cases h : s = self
    · subst h; simp [hlt]
    · have h' : ¬ self = s := fun e => h e.symm
      simp [h, h']

theorem modifyProc_length (g : Graph) (self : Nat) (f : Processor → Processor) :
    (g.modifyProc self f).procs.length = g.procs.length := by
  unfold Graph.modifyProc
  cases g.procs[self]? <;> simp

theorem modifyConn_procs (g : Graph) (conn : Nat) (f : Connection → Connection) :
    (g.modifyConn conn f).procs = g.procs := by
  unfold Graph.modifyConn
  cases g.conns[conn]? <;> rfl

theorem modifyConn_conns (g : Graph) (conn k : Nat) (f : Connection → Connection) :
    (g.modifyConn conn f).conns[k]? =
      if k = conn then (g.conns[conn]?).map f else g.conns[k]? := by
  unfold Graph.modifyConn
  cases hp : g.conns[conn]? with
  | none =>
    by_cases h : k = conn
    · subst h; simp [hp]
    · simp [h]
  | some p =>
    have hlt := lt_of_getElem?_some hp
    simp only [List.getElem?_set]
    by_cases h : k = conn
    · subst h; simp [hlt]
    · have h' : ¬ conn = k := fun e => h e.symm
      simp [h, h']

theorem modifyConn_length (g : Graph) (conn : Nat) (f : Connection → Connection) :
    (g.modifyConn conn f).conns.length = g.conns.length := by
  unfold Graph.modifyConn
  cases g.conns[conn]? <;> simp

/-! ### `addConnection`: the two registration blocks -/

theorem outgoingOf_subset {rel : String} {m : List (String × List Nat)} {x : Nat}
    (h : x ∈ outgoingOf rel m) : x ∈ outgoingAll m := by
  unfold outgoingOf at h
  cases hf : mapFind rel m with
  | none => simp [hf] at h
  | some s =>
    simp only [hf, Option.getD_some] at h
    exact mapFind_flat hf h

theorem addOutgoingRel_eq (self conn : Nat) (acc : Graph × SetAs) (rel : String)
    (p1 : Processor) (hp : acc.1.procs[self]? = some p1) :
    addOutgoingRel self conn acc rel =
      if conn ∈ outgoingOf rel p1.outgoing_connections then acc
      else
        (setSource
            (acc.1.modifyProc self
              (assignOutgoing rel (setInsert conn (outgoingOf rel p1.outgoing_connections))))
            conn self,
          SetAs.INPUT) := by
  unfold addOutgoingRel outgoingOf
  simp only [hp]
  cases hf : mapFind rel p1.outgoing_connections with
  | none => simp
  | some s => simp

theorem OutEffect_nil (self conn : Nat) (acc : Graph × SetAs) (p1 : Processor)
    (c1 : Connection) (hp : acc.1.procs[self]? = some p1) :
    OutEffect self conn acc acc p1 c1 [] where
  proc := ⟨p1, hp, rfl, fun rel c => by simp, fun x hx => Or.inl hx, fun x hx => hx⟩
  procs_other := fun _ _ => rfl
  conns_other := fun _ _ => rfl
  conn_new := fun h => by simp at h
  noop := fun _ => rfl

theorem addOutgoing_fold (self conn : Nat) (rels : List String) :
    ∀ (acc : Graph × SetAs) (p1 : Processor) (c1 : Connection),
      acc.1.procs[self]? = some p1 → acc.1.conns[conn]? = some c1 →
      OutEffect self conn acc (rels.foldl (addOutgoingRel self conn) acc) p1 c1 rels := by
  induction rels with
  | nil => intro acc p1 c1 hp _; exact OutEffect_nil self conn acc p1 c1 hp
  | cons r0 tl ih =>
    intro acc p1 c1 hp hc
    rw [List.foldl_cons, addOutgoingRel_eq self conn acc r0 p1 hp]
    by_cases hin : conn ∈ outgoingOf r0 p1.outgoing_connections
    · simp only [hin, if_true]
      have E := ih acc p1 c1 hp hc
      have hins : (∃ rel ∈ r0 :: tl, conn ∉ outgoingOf rel p1.outgoing_connections) ↔
          ∃ rel ∈ tl, conn ∉ outgoingOf rel p1.outgoing_connections := by
        constructor
        · rintro ⟨rel, hrel, h⟩
          rcases List.mem_cons.1 hrel with h1 | h1
          · subst h1; exact absurd hin h
          · exact ⟨rel, h1, h⟩
        · rintro ⟨rel, hrel, h⟩
          exact ⟨rel, List.mem_cons_of_mem _ hrel, h⟩
      obtain ⟨p', h1, h2, h3, h4, h5⟩ := E.proc
      refine ⟨⟨p', h1, h2, fun rel c => ?_, fun x hx => ?_, h5⟩, E.procs_other, E.conns_other,
        fun h => E.conn_new (hins.1 h), fun h => E.noop (fun h' => h (hins.2 h'))⟩
      · rw [h3 rel c]
        constructor
        · rintro (h | ⟨h6, h7⟩)
          · exact Or.inl h
          · exact Or.inr ⟨h6, List.mem_cons_of_mem _ h7⟩
        · rintro (h | ⟨h6, h7⟩)
          · exact Or.inl h
          · rcases List.mem_cons.1 h7 with h8 | h8
            · left; rw [h6, h8]; exact hin
            · exact Or.inr ⟨h6, h8⟩
      · rcases h4 x hx with h | ⟨h6, -⟩
        · exact Or.inl h
        · exact Or.inr ⟨h6, List.cons_ne_nil _ _⟩
    · simp only [hin, if_false]
      have hp' : (setSource (acc.1.modifyProc self (assignOutgoing r0
          (setInsert conn (outgoingOf r0 p1.outgoing_connections)))) conn self).procs[self]? =
          some (assignOutgoing r0 (setInsert conn (outgoingOf r0 p1.outgoing_connections)) p1) := by
        unfold setSource
        rw [modifyConn_procs, modifyProc_procs]
        simp [hp]
      have hc' : (setSource (acc.1.modifyProc self (assignOutgoing r0
          (setInsert conn (outgoingOf r0 p1.outgoing_connections)))) conn self).conns[conn]? =
          some { c1 with source := some self } := by
        unfold setSource
        rw [modifyConn_conns, modifyProc_conns]
        simp [hc]
      have hpo : ∀ t, t ≠ self → (setSource (acc.1.modifyProc self (assignOutgoing r0
          (setInsert conn (outgoingOf r0 p1.outgoing_connections)))) conn self).procs[t]? =
          acc.1.procs[t]? := by
        intro t ht
        unfold setSource
        rw [modifyConn_procs, modifyProc_procs]
        simp [ht]
      have hco : ∀ k, k ≠ conn → (setSource (acc.1.modifyProc self (assignOutgoing r0
          (setInsert conn (outgoingOf r0 p1.outgoing_connections)))) conn self).conns[k]? =
          acc.1.conns[k]? := by
        intro k hk
        unfold setSource
        rw [modifyConn_conns, modifyProc_conns]
        simp [hk]
      generalize setSource (acc.1.modifyProc self (assignOutgoing r0
          (setInsert conn (outgoingOf r0 p1.outgoing_connections)))) conn self = g1
        at hp' hc' hpo hco ⊢
      have E := ih (g1, SetAs.INPUT) _ _ hp' hc'
      have hfind : ∀ rel c, c ∈ outgoingOf rel (assignOutgoing r0
          (setInsert conn (outgoingOf r0 p1.outgoing_connections)) p1).outgoing_connections ↔
          c ∈ outgoingOf rel p1.outgoing_connections ∨ (c = conn ∧ rel = r0) := by
        intro rel c
        simp only [assignOutgoing, outgoingOf, mapFind_mapAssign]
        by_cases hr : rel = r0
        · subst hr
          simp only [if_true, Option.getD_some, mem_setInsert, outgoingOf]
          tauto
        · simp [hr]
      obtain ⟨p', h1, h2, h3, h4, h5⟩ := E.proc
      refine ⟨⟨p', h1, ?_, fun rel c => ?_, fun x hx => ?_, fun x hx => ?_⟩, fun s hs => ?_,
        fun k hk => ?_, fun _ => ?_, fun h => ?_⟩
      · exact h2.trans rfl
      · rw [h3 rel c, hfind rel c]
        constructor
        · rintro ((h | ⟨h6, h7⟩) | ⟨h6, h7⟩)
          · exact Or.inl h
          · exact Or.inr ⟨h6, by rw [h7]; exact List.mem_cons_self _ _⟩
          · exact Or.inr ⟨h6, List.mem_cons_of_mem _ h7⟩
        · rintro (h | ⟨h6, h7⟩)
          · exact Or.inl (Or.inl h)
          · rcases List.mem_cons.1 h7 with h8 | h8
            · exact Or.inl (Or.inr ⟨h6, h8⟩)
            · exact Or.inr ⟨h6, h8⟩
      · rcases h4 x hx with h | ⟨h6, -⟩
        · rcases mapAssign_flat h with h7 | h7
          · rcases mem_setInsert.1 h7 with h8 | h8
            · exact Or.inr ⟨h8, List.cons_ne_nil _ _⟩
            · exact Or.inl (outgoingOf_subset h8)
          · exact Or.inl h7
        · exact Or.inr ⟨h6, List.cons_ne_nil _ _⟩
      · apply h5
        apply mapAssign_flat_mono _ hx
        intro y hy
        exact mem_setInsert.2 (Or.inr hy)
      · rw [E.procs_other s hs]
        exact hpo s hs
      · rw [E.conns_other k hk]
        exact hco k hk
      · by_cases hins : ∃ rel ∈ tl, conn ∉ outgoingOf rel (assignOutgoing r0
            (setInsert conn (outgoingOf r0 p1.outgoing_connections)) p1).outgoing_connections
        · exact E.conn_new hins
        · rw [E.noop hins]
          exact ⟨hc', rfl⟩
      · exact absurd ⟨r0, List.mem_cons_self _ _, hin⟩ h

theorem addIncoming_eq (g : Graph) (self conn : Nat) (p : Processor) (c : Connection)
    (result : SetAs) :
    addIncoming g self conn p c result =
      if newIncoming conn p c then
        (setDestination (g.modifyProc self (insertIncoming conn)) conn self, SetAs.OUTPUT)
      else (g, result) := by
  unfold addIncoming newIncoming
  by_cases h1 : p.uuid = c.destUUID
  · by_cases h2 : conn ∈ p.incoming_connections
    · simp [h1, h2]
    · simp [h1, h2]
  · simp [h1]

theorem addConnection_effect (g : Graph) (self conn : Nat) (p : Processor) (c : Connection)
    (hp : g.procs[self]? = some p) (hc : g.conns[conn]? = some c) :
    AddEffect self conn g (addOutgoing self conn p c (addIncoming g self conn p c SetAs.NONE))
      p c := by
  rw [addIncoming_eq]
  by_cases hin : newIncoming conn p c
  · simp only [hin, if_true]
    have hp1 : (setDestination (g.modifyProc self (insertIncoming conn)) conn self).procs[self]? =
        some (insertIncoming conn p) := by
      unfold setDestination
      rw [modifyConn_procs, modifyProc_procs]
      simp [hp]
    have hc1 : (setDestination (g.modifyProc self (insertIncoming conn)) conn self).conns[conn]? =
        some { c with destination := some self } := by
      unfold setDestination
      rw [modifyConn_conns, modifyProc_conns]
      simp [hc]
    have hpo : ∀ t, t ≠ self →
        (setDestination (g.modifyProc self (insertIncoming conn)) conn self).procs[t]? =
          g.procs[t]? := by
      intro t ht
      unfold setDestination
      rw [modifyConn_procs, modifyProc_procs]
      simp [ht]
    have hco : ∀ k, k ≠ conn →
        (setDestination (g.modifyProc self (insertIncoming conn)) conn self).conns[k]? =
          g.conns[k]? := by
      intro k hk
      unfold setDestination
      rw [modifyConn_conns, modifyProc_conns]
      simp [hk]
    generalize setDestination (g.modifyProc self (insertIncoming conn)) conn self = g1
      at hp1 hc1 hpo hco ⊢
    have hinc : ∀ x, x ∈ (insertIncoming conn p).incoming_connections ↔
        x ∈ p.incoming_connections ∨ (x = conn ∧ p.uuid = c.destUUID) := by
      intro x
      simp only [insertIncoming, mem_setInsert]
      have := hin.1
      tauto
    unfold addOutgoing
    by_cases hsrc : p.uuid = c.srcUUID
    · simp only [hsrc, if_true]
      have E := addOutgoing_fold self conn c.relationships (g1, SetAs.OUTPUT) _ _ hp1 hc1
      have hnew : newOutgoing conn p c ↔ ∃ rel ∈ c.relationships,
          conn ∉ outgoingOf rel (insertIncoming conn p).outgoing_connections := by
        unfold newOutgoing
        simp only [insertIncoming]
        tauto
      obtain ⟨p', h1, h2, h3, h4, h5⟩ := E.proc
      refine ⟨⟨p', h1, ?_, fun x => ?_, fun rel x => ?_, fun x hx => ?_, h5⟩,
        fun t ht => (E.procs_other t ht).trans (hpo t ht),
        fun k hk => (E.conns_other k hk).trans (hco k hk), ?_, fun h => ?_, fun h _ => ?_,
        fun _ h => absurd hin h⟩
      · rw [h2]; rfl
      · rw [h2]; exact hinc x
      · rw [h3 rel x]
        simp only [insertIncoming]
        tauto
      · rcases h4 x hx with h | ⟨h6, h7⟩
        · exact Or.inl h
        · by_cases hn : newOutgoing conn p c
          · exact Or.inr ⟨h6, hn⟩
          · left
            obtain ⟨r, tl, hr⟩ := List.exists_cons_of_ne_nil h7
            have : conn ∈ outgoingOf r p.outgoing_connections := by
              by_contra hcon
              exact hn ⟨hsrc, r, by rw [hr]; exact List.mem_cons_self _ _, hcon⟩
            rw [h6]
            exact outgoingOf_subset this
      · by_cases hn : newOutgoing conn p c
        · have := (E.conn_new (hnew.1 hn)).1
          exact ⟨_, this, rfl, fun _ => rfl, fun h => absurd hn h, fun _ => rfl,
            fun h => absurd hin h⟩
        · have := E.noop (fun h => hn (hnew.2 h))
          rw [this]
          exact ⟨_, hc1, rfl, fun h => absurd h hn, fun _ => rfl, fun _ => rfl,
            fun h => absurd hin h⟩
      · exact (E.conn_new (hnew.1 h)).2
      · rw [E.noop (fun h' => h (hnew.2 h'))]
    · simp only [hsrc, if_false]
      have hn : ¬ newOutgoing conn p c := fun h => hsrc h.1
      refine ⟨⟨_, hp1, rfl, hinc, fun rel x => ?_, fun x hx => Or.inl hx, fun x hx => hx⟩, hpo,
        hco, ⟨_, hc1, rfl, fun h => absurd h hn, fun _ => rfl, fun _ => rfl,
          fun h => absurd hin h⟩, fun h => absurd h hn, fun _ _ => rfl,
        fun _ h => absurd hin h⟩
      simp only [insertIncoming]
      tauto
  · simp only [hin, if_false]
    have hinc : ∀ x, x ∈ p.incoming_connections ↔
        x ∈ p.incoming_connections ∨ (x = conn ∧ p.uuid = c.destUUID) := by
      intro x
      constructor
      · exact Or.inl
      · rintro (h | ⟨h1, h2⟩)
        · exact h
        · by_contra hcon
          exact hin ⟨h2, by rw [← h1]; exact hcon⟩
    unfold addOutgoing
    by_cases hsrc : p.uuid = c.srcUUID
    · simp only [hsrc, if_true]
      have E := addOutgoing_fold self conn c.relationships (g, SetAs.NONE) _ _ hp hc
      have hnew : newOutgoing conn p c ↔ ∃ rel ∈ c.relationships,
          conn ∉ outgoingOf rel p.outgoing_connections := by
        unfold newOutgoing
        tauto
      obtain ⟨p', h1, h2, h3, h4, h5⟩ := E.proc
      refine ⟨⟨p', h1, ?_, fun x => ?_, fun rel x => ?_, fun x hx => ?_, h5⟩,
        E.procs_other, E.conns_other, ?_, fun h => ?_, fun _ h => absurd h hin, fun h _ => ?_⟩
      · rw [h2]
      · rw [h2]; exact hinc x
      · rw [h3 rel x]
        tauto
      · rcases h4 x hx with h | ⟨h6, h7⟩
        · exact Or.inl h
        · by_cases hn : newOutgoing conn p c
          · exact Or.inr ⟨h6, hn⟩
          · left
            obtain ⟨r, tl, hr⟩ := List.exists_cons_of_ne_nil h7
            have : conn ∈ outgoingOf r p.outgoing_connections := by
              by_contra hcon
              exact hn ⟨hsrc, r, by rw [hr]; exact List.mem_cons_self _ _, hcon⟩
            rw [h6]
            exact outgoingOf_subset this
      · by_cases hn : newOutgoing conn p c
        · have := (E.conn_new (hnew.1 hn)).1
          exact ⟨_, this, rfl, fun _ => rfl, fun h => absurd hn h, fun h => absurd h hin,
            fun _ => rfl⟩
        · have := E.noop (fun h => hn (hnew.2 h))
          rw [this]
          exact ⟨_, hc, rfl, fun h => absurd h hn, fun _ => rfl, fun h => absurd h hin,
            fun _ => rfl⟩
      · exact (E.conn_new (hnew.1 h)).2
      · exact E.noop (fun h' => h (hnew.2 h'))
    · simp only [hsrc, if_false]
      have hn : ¬ newOutgoing conn p c := fun h => hsrc h.1
      refine ⟨⟨_, hp, rfl, hinc, fun rel x => ?_, fun x hx => Or.inl hx, fun x hx => hx⟩,
        fun _ _ => rfl, fun _ _ => rfl,
        ⟨_, hc, rfl, fun h => absurd h hn, fun _ => rfl, fun h => absurd h hin, fun _ => rfl⟩,
        fun h => absurd h hn, fun _ h => absurd h hin, fun _ _ => rfl⟩
      tauto

/-! ### Fuel along `addConnection` -/

theorem length_eq_of_getElem? {α β : Type} {l1 : List α} {l2 : List β}
    (h : ∀ k : Nat, (l1[k]?).isSome = (l2[k]?).isSome) : l1.length = l2.length := by
  rcases Nat.lt_trichotomy l1.length l2.length with h1 | h1 | h1
  · have := h l1.length
    rw [List.getElem?_eq_none (le_refl _), List.getElem?_eq_getElem h1] at this
    simp at this
  · exact h1
  · have := h l2.length
    rw [List.getElem?_eq_none (le_refl _), List.getElem?_eq_getElem h1] at this
    simp at this

theorem reachBound_congr {g g' : Graph}
    (h : ∀ t : Nat, (g'.procs[t]?).map Processor.reachable_processors =
      (g.procs[t]?).map Processor.reachable_processors) : g'.reachBound = g.reachBound := by
  have hlen : g'.procs.length = g.procs.length := by
    apply length_eq_of_getElem?
    intro k
    have := congrArg Option.isSome (h k)
    simpa using this
  have hmap : g'.procs.map Processor.reachable_processors =
      g.procs.map Processor.reachable_processors := by
    apply List.ext_getElem?
    intro t
    simp only [List.getElem?_map]
    exact h t
  unfold Graph.reachBound
  have e : ∀ l : List Processor,
      (l.flatMap fun p => p.reachable_processors.flatMap fun e => e.2) =
        (l.map Processor.reachable_processors).flatMap (fun m => m.flatMap fun e => e.2) := by
    intro l
    induction l with
    | nil => rfl
    | cons a l ih => simp [List.flatMap_cons, ih]
  rw [e, e, hmap, hlen]

theorem AddEffect.fuel_eq {s conn : Nat} {g : Graph} {res : Graph × SetAs} {p : Processor}
    {c : Connection} (E : AddEffect s conn g res p c) (hp : g.procs[s]? = some p)
    (hc : g.conns[conn]? = some c) : res.1.fuel = g.fuel := by
  obtain ⟨p', h1, h2, -⟩ := E.proc
  obtain ⟨c', h3, -⟩ := E.conn_eq
  have hprocs : ∀ t : Nat, (res.1.procs[t]?).map Processor.reachable_processors =
      (g.procs[t]?).map Processor.reachable_processors := by
    intro t
    by_cases ht : t = s
    · subst ht
      rw [h1, hp, h2]
      rfl
    · rw [E.procs_other t ht]
  have hlen : res.1.procs.length = g.procs.length := by
    apply length_eq_of_getElem?
    intro k
    have := congrArg Option.isSome (hprocs k)
    simpa using this
  have hclen : res.1.conns.length = g.conns.length := by
    apply length_eq_of_getElem?
    intro k
    by_cases hk : k = conn
    · subst hk
      rw [h3, hc]
      rfl
    · rw [E.conns_other k hk]
  unfold Graph.fuel
  rw [reachBound_congr hprocs, hlen, hclen]

theorem reachBound_le {B : Nat} {g : Graph} (hb : g.bounded B) : g.reachBound ≤ B := by
  unfold Graph.reachBound
  have : ∀ x ∈ (g.procs.flatMap fun p => p.reachable_processors.flatMap fun e => e.2),
      x < B := by
    intro x hx
    simp only [List.mem_flatMap] at hx
    obtain ⟨p, hp, e, he, hx⟩ := hx
    obtain ⟨t, ht⟩ := List.mem_iff_getElem?.1 hp
    exact hb.2 t e.1 x ⟨p, ht, e, he, rfl, hx⟩
  generalize (g.procs.flatMap fun p => p.reachable_processors.flatMap fun e => e.2) = l at this
  induction l with
  | nil => exact hb.1
  | cons y l ih =>
    simp only [List.foldr_cons]
    apply max_le
    · exact this y (List.mem_cons_self _ _)
    · exact ih (fun x hx => this x (List.mem_cons_of_mem _ hx))

/-- With fuel `g.fuel` or more, `updateReachability` returns, and the graph it
returns needs no more fuel than `g`. -/
theorem updateReachability_total_fuel (g : Graph) (fuel self : Nat) (force : Bool)
    (hf : g.fuel ≤ fuel) :
    ∃ g', updateReachability fuel g self force = some g' ∧ g.le g' ∧ g'.fuel ≤ g.fuel := by
  have hr := room_le g.reachBound g
  obtain ⟨g', h1, h2, h3⟩ := updateReachability_total_bounded g.reachBound g
    (bounded_reachBound g) fuel self force (by unfold Graph.fuel at hf; omega)
  refine ⟨g', h1, h2, ?_⟩
  unfold Graph.fuel
  rw [← shape_length h2.1, ← shape_conns h2.1]
  have := reachBound_le h3
  gcongr

/-! ### `addConnection`: the call -/

/-- What a call of `addConnection` on a processor that is not running does. -/
theorem addConnection_call (fuel : Nat) (g : Graph) (self conn : Nat) (p : Processor)
    (c : Connection) (hp : g.procs[self]? = some p) (hc : g.conns[conn]? = some c)
    (hrun : p.isRunning = false) (hf : g.fuel ≤ fuel) :
    ∃ res g', AddEffect self conn g res p c ∧
      addConnection fuel g self conn = some (decide (res.2 ≠ SetAs.NONE), g') ∧
      (res.2 = SetAs.NONE → g' = g) ∧
      (res.2 = SetAs.INPUT → updateReachability fuel res.1 self false = some g') ∧
      (res.2 = SetAs.OUTPUT → updateReachability fuel res.1 self true = some g') ∧
      res.1.le g' ∧ g'.fuel ≤ g.fuel := by
  have E := addConnection_effect g self conn p c hp hc
  have hfe := E.fuel_eq hp hc
  refine ⟨_, ?_, E, ?_⟩
  · exact match (addOutgoing self conn p c (addIncoming g self conn p c SetAs.NONE)).2 with
      | SetAs.NONE => g
      | SetAs.INPUT => (updateReachability fuel
          (addOutgoing self conn p c (addIncoming g self conn p c SetAs.NONE)).1 self false).getD g
      | SetAs.OUTPUT => (updateReachability fuel
          (addOutgoing self conn p c (addIncoming g self conn p c SetAs.NONE)).1 self true).getD g
  · unfold addConnection
    simp only [hp, hc, hrun]
    generalize addOutgoing self conn p c (addIncoming g self conn p c SetAs.NONE) = res
      at E hfe ⊢
    cases hres : res.2 with
    | NONE =>
      have : res = (g, SetAs.NONE) := by
        by_cases h1 : newOutgoing conn p c
        · have := E.flag_input h1; rw [hres] at this; cases this
        · by_cases h2 : newIncoming conn p c
          · have := E.flag_output h1 h2; rw [hres] at this; cases this
          · exact E.flag_none h1 h2
      subst this
      simp [Graph.le_refl]
    | INPUT =>
      obtain ⟨g', h1, h2, h3⟩ := updateReachability_total_fuel res.1 fuel self false
        (by rw [hfe]; exact hf)
      simp [h1, h2, hfe ▸ h3]
    | OUTPUT =>
      obtain ⟨g', h1, h2, h3⟩ := updateReachability_total_fuel res.1 fuel self true
        (by rw [hfe]; exact hf)
      simp [h1, h2, hfe ▸ h3]

/-! ### Backpressure and `addConnection` -/

/-- C1: `isThrottledByBackpressure` answers true exactly when (a) some outgoing
connection, under any relationship, is full and (b) no incoming connection is
both part of a cycle (`partOfCycle`) and full. -/
theorem isThrottledByBackpressure_iff (g : Graph) (p : Processor) :
    isThrottledByBackpressure g p = true ↔
      (∃ rel set out connection, (rel, set) ∈ p.outgoing_connections ∧ out ∈ set ∧
        g.conns[out]? = some connection ∧ connection.isFull = true) ∧
      ¬ ∃ inConn connection, inConn ∈ p.incoming_connections ∧
        g.conns[inConn]? = some connection ∧ partOfCycle g inConn = true ∧
        connection.isFull = true := by
  unfold isThrottledByBackpressure
  simp only [Bool.and_eq_true, Bool.not_eq_true', List.any_eq_true, Prod.exists]
  constructor
  · rintro ⟨⟨rel, set, hmem, out, hout, hfull⟩, hno⟩
    refine ⟨?_, ?_⟩
    · cases hc : g.conns[out]? with
      | none => simp [hc] at hfull
      | some connection =>
        simp only [hc] at hfull
        exact ⟨rel, set, out, connection, hmem, hout, hc, hfull⟩
    · rintro ⟨inConn, connection, hin, hc, hcyc, hfull⟩
      have : (p.incoming_connections.any fun inConn =>
          match g.conns[inConn]? with
          | none => false
          | some connection => partOfCycle g inConn && connection.isFull) = true := by
        rw [List.any_eq_true]
        exact ⟨inConn, hin, by simp [hc, hcyc, hfull]⟩
      rw [this] at hno
      cases hno
  · rintro ⟨⟨rel, set, out, connection, hmem, hout, hc, hfull⟩, hno⟩
    refine ⟨⟨rel, set, hmem, out, hout, by simp [hc, hfull]⟩, ?_⟩
    rw [Bool.eq_false_iff]
    intro hany
    rw [List.any_eq_true] at hany
    obtain ⟨inConn, hin, h⟩ := hany
    cases hc : g.conns[inConn]? with
    | none => simp [hc] at h
    | some connection =>
      simp only [hc, Bool.and_eq_true] at h
      exact hno ⟨inConn, connection, hin, hc, h.1, h.2⟩

/-- C4: on a running processor (scheduled state `RUNNING` and `active_tasks > 0`)
`addConnection` returns false and leaves the whole graph as it was: incoming and
outgoing connections, the round-robin cursor, the source and destination of the
connection and every reachability set. -/
theorem addConnection_running (fuel : Nat) (g : Graph) (self conn : Nat) (p : Processor)
    (hp : g.procs[self]? = some p) (hstate : p.state = ScheduledState.RUNNING)
    (hactive : p.active_tasks > 0) :
    p.isRunning = true ∧ addConnection fuel g self conn = some (false, g) := by
  have hrun : p.isRunning = true := by
    unfold Processor.isRunning
    simp [hstate, hactive]
  refine ⟨hrun, ?_⟩
  unfold addConnection
  simp [hp, hrun]

theorem addConnection_running_witness :
    Processor.isRunning { uuid := 10, state := ScheduledState.RUNNING, active_tasks := 1 } = true ∧
      addConnection 10 twoProcessorsRunning 0 0 = some (false, twoProcessorsRunning) :=
  addConnection_running 10 twoProcessorsRunning 0 0
    { uuid := 10, state := ScheduledState.RUNNING, active_tasks := 1 } rfl rfl (by decide)

/-- C5: on a processor `p` that is not running, `addConnection(conn)` returns;
afterwards `conn` is among the incoming connections iff it was there or the
destination UUID of `conn` is the UUID of `p`, and among the outgoing connections
of a relationship iff it was there or the source UUID of `conn` is the UUID of `p`
and `conn` services the relationship; the answer is true iff one of these
insertions was new; an answer of false comes with no mutation, which is the case
when both UUIDs differ from that of `p` and when `conn` is fully registered. -/
theorem addConnection_registers (fuel : Nat) (g : Graph) (self conn : Nat) (p : Processor)
    (c : Connection) (hp : g.procs[self]? = some p) (hc : g.conns[conn]? = some c)
    (hrun : p.isRunning = false) (hf : g.fuel ≤ fuel) :
    ∃ b g' p', addConnection fuel g self conn = some (b, g') ∧ g'.procs[self]? = some p' ∧
      (∀ x, x ∈ p'.incoming_connections ↔
        x ∈ p.incoming_connections ∨ (x = conn ∧ p.uuid = c.destUUID)) ∧
      (∀ rel x, x ∈ outgoingOf rel p'.outgoing_connections ↔
        x ∈ outgoingOf rel p.outgoing_connections ∨
          (x = conn ∧ p.uuid = c.srcUUID ∧ rel ∈ c.relationships)) ∧
      (b = true ↔
        (p.uuid = c.destUUID ∧ conn ∉ p.incoming_connections) ∨
        (p.uuid = c.srcUUID ∧
          ∃ rel ∈ c.relationships, conn ∉ outgoingOf rel p.outgoing_connections)) ∧
      (b = false → g' = g) ∧
      (p.uuid ≠ c.srcUUID → p.uuid ≠ c.destUUID → b = false) ∧
      ((p.uuid = c.destUUID → conn ∈ p.incoming_connections) →
        (p.uuid = c.srcUUID →
          ∀ rel ∈ c.relationships, conn ∈ outgoingOf rel p.outgoing_connections) →
        b = false) := by
  obtain ⟨res, g', E, hcall, hnone, -, -, hle, -⟩ :=
    addConnection_call fuel g self conn p c hp hc hrun hf
  obtain ⟨p1, h1, -, h3, h4, -⟩ := E.proc
  have hsome : (g'.procs[self]?).isSome = true := by
    rw [← shape_isSome hle.1 self, h1]; rfl
  obtain ⟨p', hp'⟩ := Option.isSome_iff_exists.1 hsome
  have hsh := shape_incoming hle.1 h1 hp'
  have hb : decide (res.2 ≠ SetAs.NONE) = true ↔
      (p.uuid = c.destUUID ∧ conn ∉ p.incoming_connections) ∨
      (p.uuid = c.srcUUID ∧
        ∃ rel ∈ c.relationships, conn ∉ outgoingOf rel p.outgoing_connections) := by
    rw [decide_eq_true_iff]
    by_cases hout : newOutgoing conn p c
    · rw [E.flag_input hout]
      exact ⟨fun _ => Or.inr hout, fun _ => by decide⟩
    · by_cases hin : newIncoming conn p c
      · rw [E.flag_output hout hin]
        exact ⟨fun _ => Or.inl hin, fun _ => by decide⟩
      · rw [E.flag_none hout hin]
        constructor
        · intro h; exact absurd rfl h
        · rintro (h | h)
          · exact absurd h hin
          · exact absurd h hout
  refine ⟨_, g', p', hcall, hp', ?_, ?_, hb, ?_, ?_, ?_⟩
  · intro x; rw [← hsh.1]; exact h3 x
  · intro rel x; rw [← hsh.2.1]; exact h4 rel x
  · intro hfalse
    apply hnone
    simpa using hfalse
  · intro h1 h2
    rw [Bool.eq_false_iff]
    intro hcon
    rcases hb.1 hcon with h | h
    · exact h2 h.1
    · exact h1 h.1
  · intro h1 h2
    rw [Bool.eq_false_iff]
    intro hcon
    rcases hb.1 hcon with h | h
    · exact h.2 (h1 h.1)
    · obtain ⟨rel, hrel, hn⟩ := h.2
      exact hn (h2 h.1 rel hrel)

theorem addConnection_registers_witness :
    ∃ b g' p', addConnection 10 twoProcessors 0 0 = some (b, g') ∧
      g'.procs[0]? = some p' ∧
      (∀ x, x ∈ p'.incoming_connections ↔ x ∈ ([] : List Nat) ∨ (x = 0 ∧ 10 = 20)) ∧
      (∀ rel x, x ∈ outgoingOf rel p'.outgoing_connections ↔
        x ∈ outgoingOf rel [] ∨ (x = 0 ∧ 10 = 10 ∧ rel ∈ ["success"])) ∧
      (b = true ↔
        (10 = 20 ∧ 0 ∉ ([] : List Nat)) ∨
        (10 = 10 ∧ ∃ rel ∈ ["success"], 0 ∉ outgoingOf rel [])) ∧
      (b = false → g' = twoProcessors) ∧
      (10 ≠ 10 → 10 ≠ 20 → b = false) ∧
      ((10 = 20 → 0 ∈ ([] : List Nat)) →
        (10 = 10 → ∀ rel ∈ ["success"], 0 ∈ outgoingOf rel []) → b = false) :=
  addConnection_registers 10 twoProcessors 0 0 { uuid := 10 }
    { srcUUID := 10, destUUID := 20, relationships := ["success"], isFull := true }
    rfl rfl rfl (by decide)

/-! ### Invariants that depend on the topology only -/

theorem Path_congr {g g' : Graph} (h : g.conns = g'.conns) {c q : Nat} (hp : g.Path c q) :
    g'.Path c q := by
  induction hp with
  | last h1 h2 => exact Graph.Path.last (h ▸ h1) h2
  | step h1 h2 h3 h4 _ ih => exact Graph.Path.step (h ▸ h1) h2 (h ▸ h3) h4 ih

theorem shape_get {g g' : Graph} (h : g.shape = g'.shape) {s : Nat} {p : Processor}
    (hp : g.procs[s]? = some p) :
    ∃ p', g'.procs[s]? = some p' ∧ p.incoming_connections = p'.incoming_connections ∧
      p.outgoing_connections = p'.outgoing_connections ∧ p.uuid = p'.uuid ∧
      p.isRunning = p'.isRunning := by
  have hs : (g'.procs[s]?).isSome = true := by
    rw [← shape_isSome h s, hp]; rfl
  obtain ⟨p', hp'⟩ := Option.isSome_iff_exists.1 hs
  exact ⟨p', hp', shape_incoming h hp hp'⟩

theorem Linked_congr {g g' : Graph} (h : g.shape = g'.shape) (L : g.Linked) : g'.Linked := by
  have hc := shape_conns h
  refine ⟨fun s t p q hp hq hu => ?_, fun e c A he hA => ?_, fun e c B he hB => ?_,
    fun s p e hp he => ?_, fun s p e hp he => ?_⟩
  · obtain ⟨p0, hp0, -, -, h1, -⟩ := shape_get h.symm hp
    obtain ⟨q0, hq0, -, -, h2, -⟩ := shape_get h.symm hq
    exact L.uuid_inj s t p0 q0 hp0 hq0 (by rw [← h1, ← h2]; exact hu)
  · obtain ⟨p, hp, hu, hm⟩ := L.source_ok e c A (hc ▸ he) hA
    obtain ⟨p', hp', -, h2, h3, -⟩ := shape_get h hp
    exact ⟨p', hp', by rw [← h3]; exact hu, by rw [← h2]; exact hm⟩
  · obtain ⟨p, hp, hu, hm⟩ := L.dest_ok e c B (hc ▸ he) hB
    obtain ⟨p', hp', h1, -, h3, -⟩ := shape_get h hp
    exact ⟨p', hp', by rw [← h3]; exact hu, by rw [← h1]; exact hm⟩
  · obtain ⟨p0, hp0, -, h2, -, -⟩ := shape_get h.symm hp
    obtain ⟨c, h1, h3⟩ := L.outgoing_ok s p0 e hp0 (by rw [← h2]; exact he)
    exact ⟨c, hc ▸ h1, h3⟩
  · obtain ⟨p0, hp0, h2, -, -, -⟩ := shape_get h.symm hp
    obtain ⟨c, h1, h3⟩ := L.incoming_ok s p0 e hp0 (by rw [← h2]; exact he)
    exact ⟨c, hc ▸ h1, h3⟩

/-! ### Soundness of the stored sets -/

theorem insertReachable_sound {a : Graph} (self c q : Nat) (hs : a.Sound)
    (hsrc : ∃ connection, a.conns[c]? = some connection ∧ connection.source = some self)
    (hpath : a.Path c q) : (insertReachable a self c q).1.Sound := by
  have hc := shape_conns (insertReachable_shape a self c q)
  intro s k x h
  rcases insertReachable_entryMem a self c q s k x h with h1 | ⟨h1, h2, h3⟩
  · obtain ⟨⟨cc, h4, h5⟩, h6⟩ := hs s k x h1
    exact ⟨⟨cc, hc ▸ h4, h5⟩, Path_congr hc.symm h6⟩
  · subst h1 h2 h3
    obtain ⟨cc, h4, h5⟩ := hsrc
    exact ⟨⟨cc, hc ▸ h4, h5⟩, Path_congr hc.symm hpath⟩

theorem reachOutgoing_sound {g : Graph} (self : Nat) (force : Bool) (L : g.Linked)
    (hs : g.Sound) : (reachOutgoing g self force).1.Sound := by
  unfold reachOutgoing
  cases hp : g.procs[self]? with
  | none => exact hs
  | some p =>
    apply reachFold_inv Graph.Sound self _ (g, force) _ hs
    intro a c d q ha hqa hc hd hq
    have hconns : g.conns = a.conns := shape_conns ha.1.1
    obtain ⟨cc, h1, h2⟩ := L.outgoing_ok self p c hp hc
    apply insertReachable_sound self c q hqa ⟨cc, hconns ▸ h1, h2⟩
    have hdest : cc.destination = some d := by
      unfold destinationOf at hd
      simp only at hd
      rw [h1] at hd
      simp only at hd
      cases hcd : cc.destination with
      | none => simp [hcd] at hd
      | some d' =>
        simp only [hcd] at hd
        cases hpd : g.procs[d']? with
        | none => simp [hpd] at hd
        | some _ => simp only [hpd, Option.some.injEq] at hd; rw [hd]
    rcases hq with hq | hq
    · rw [hq]
      exact Graph.Path.last (hconns ▸ h1) hdest
    · obtain ⟨k, hk⟩ := allReached_iff.1 hq
      obtain ⟨⟨ck, h3, h4⟩, h5⟩ := hqa d k q hk
      exact Graph.Path.step (hconns ▸ h1) hdest h3 h4 h5

theorem foldlM_inv {α β : Type} (Q : α → Prop) (f : α → β → Option α)
    (hf : ∀ a b a', f a b = some a' → Q a → Q a') (l : List β) (a a' : α)
    (h : l.foldlM f a = some a') (h0 : Q a) : Q a' := by
  induction l generalizing a with
  | nil =>
    simp only [List.foldlM_nil, Option.pure_def, Option.some.injEq] at h
    exact h ▸ h0
  | cons b l ih =>
    simp only [List.foldlM_cons, Option.bind_eq_bind] at h
    cases hb : f a b with
    | none => simp [hb] at h
    | some a1 =>
      simp only [hb, Option.some_bind] at h
      exact ih a1 h (hf a b a1 hb h0)

theorem updateReachability_le (fuel : Nat) :
    ∀ (g : Graph) (self : Nat) (force : Bool) (g' : Graph),
      updateReachability fuel g self force = some g' → g.le g' := by
  induction fuel with
  | zero => intro g self force g' h; simp [updateReachability] at h
  | succ f ih =>
    intro g self force g' h
    rw [updateReachability_succ] at h
    cases hp : g.procs[self]? with
    | none => simp only [hp, Option.some.injEq] at h; exact h ▸ g.le_refl
    | some p =>
      simp only [hp] at h
      have hle := (reachOutgoing_stepBy g self force).1
      cases hch : (reachOutgoing g self force).2 with
      | false =>
        simp only [hch, Bool.false_eq_true, if_false, Option.some.injEq] at h
        exact h ▸ hle
      | true =>
        simp only [hch, if_true] at h
        apply foldlM_inv (fun a => g.le a) (propagate f) _ _ _ _ h hle
        intro a b a' hab ha
        unfold propagate at hab
        cases hsrc : sourceOf a b with
        | none => simp only [hsrc, Option.some.injEq] at hab; exact hab ▸ ha
        | some s =>
          simp only [hsrc] at hab
          exact Graph.le_trans ha (ih a s false a' hab)

theorem updateReachability_sound (fuel : Nat) :
    ∀ (g : Graph) (self : Nat) (force : Bool) (g' : Graph),
      updateReachability fuel g self force = some g' → g.Linked → g.Sound → g'.Sound := by
  induction fuel with
  | zero => intro g self force g' h; simp [updateReachability] at h
  | succ f ih =>
    intro g self force g' h L hs
    rw [updateReachability_succ] at h
    cases hp : g.procs[self]? with
    | none => simp only [hp, Option.some.injEq] at h; exact h ▸ hs
    | some p =>
      simp only [hp] at h
      have hle := (reachOutgoing_stepBy g self force).1
      have hs1 := reachOutgoing_sound self force L hs
      cases hch : (reachOutgoing g self force).2 with
      | false =>
        simp only [hch, Bool.false_eq_true, if_false, Option.some.injEq] at h
        exact h ▸ hs1
      | true =>
        simp only [hch, if_true] at h
        have := foldlM_inv (fun a => g.le a ∧ a.Sound) (propagate f) ?_ _ _ _ h ⟨hle, hs1⟩
        · exact this.2
        · intro a b a' hab ha
          unfold propagate at hab
          cases hsrc : sourceOf a b with
          | none => simp only [hsrc, Option.some.injEq] at hab; exact hab ▸ ha
          | some s =>
            simp only [hsrc] at hab
            exact ⟨Graph.le_trans ha.1 (updateReachability_le f a s false a' hab),
              ih a s false a' hab (Linked_congr ha.1.1 L) ha.2⟩

/-! ### Completeness of the stored sets -/

theorem destinationOf_of {g : Graph} (L : g.Linked) {e B : Nat} {c : Connection}
    (he : g.conns[e]? = some c) (hB : c.destination = some B) : destinationOf g e = some B := by
  obtain ⟨p, hp, -⟩ := L.dest_ok e c B he hB
  unfold destinationOf
  simp only [he, hB, hp]

theorem sourceOf_of {g : Graph} (L : g.Linked) {e A : Nat} {c : Connection}
    (he : g.conns[e]? = some c) (hA : c.source = some A) : sourceOf g e = some A := by
  obtain ⟨p, hp, -⟩ := L.source_ok e c A he hA
  unfold sourceOf
  simp only [he, hA, hp]

theorem sourceOf_some {g : Graph} {e S : Nat} (h : sourceOf g e = some S) :
    ∃ c, g.conns[e]? = some c ∧ c.source = some S := by
  unfold sourceOf at h
  cases hc : g.conns[e]? with
  | none => simp [hc] at h
  | some c =>
    simp only [hc] at h
    cases hs : c.source with
    | none => simp [hs] at h
    | some A =>
      simp only [hs] at h
      cases hp : g.procs[A]? with
      | none => simp [hp] at h
      | some _ =>
        simp only [hp, Option.some.injEq] at h
        exact ⟨c, rfl, by rw [← h]; exact hs⟩

theorem reachOutgoing_eq {g : Graph} {self : Nat} {p : Processor} (force : Bool)
    (hp : g.procs[self]? = some p) :
    reachOutgoing g self force =
      (outgoingAll p.outgoing_connections).foldl (reachConnection self) (g, force) := by
  unfold reachOutgoing outgoingAll
  simp only [hp]

theorem CleanAt_step {g g1 : Graph} {s e : Nat} (hst : g.stepBy s g1)
    (hne : ∀ c, g.conns[e]? = some c → c.destination ≠ some s) (h : g.CleanAt e) :
    g1.CleanAt e := by
  have hc := shape_conns hst.1.1
  intro c A B he hA hB
  rw [← hc] at he
  obtain ⟨h1, h2⟩ := h c A B he hA hB
  have hBs : B ≠ s := fun hcon => hne c he (hcon ▸ hB)
  refine ⟨hst.1.2.1 A e B h1, fun q hq => ?_⟩
  rw [allReached_congr (hst.2 B hBs)] at hq
  exact hst.1.2.1 A e q (h2 q hq)

theorem propagate_fold_clean (f : Nat)
    (IH : ∀ (g : Graph) (self : Nat) (g' : Graph), g.Linked →
      updateReachability f g self false = some g' →
      (∀ e, g.CleanAt e → g'.CleanAt e) ∧
        ∀ e c, g.conns[e]? = some c → c.source = some self → g'.CleanAt e)
    (l : List Nat) :
    ∀ (a g' : Graph), a.Linked → l.foldlM (propagate f) a = some g' →
      (∀ e, a.CleanAt e → g'.CleanAt e) ∧
        ∀ e ∈ l, ∀ S, sourceOf a e = some S → g'.CleanAt e := by
  induction l with
  | nil =>
    intro a g' _ h
    simp only [List.foldlM_nil, Option.pure_def, Option.some.injEq] at h
    subst h
    exact ⟨fun _ h => h, fun e he => by cases he⟩
  | cons c0 l ih =>
    intro a g' L h
    simp only [List.foldlM_cons, Option.bind_eq_bind] at h
    cases hb : propagate f a c0 with
    | none => simp [hb] at h
    | some a1 =>
      simp only [hb, Option.some_bind] at h
      have hstep : a.le a1 ∧ (∀ e, a.CleanAt e → a1.CleanAt e) ∧
          ∀ S, sourceOf a c0 = some S → a1.CleanAt c0 := by
        unfold propagate at hb
        cases hsrc : sourceOf a c0 with
        | none =>
          simp only [hsrc, Option.some.injEq] at hb
          subst hb
          exact ⟨a.le_refl, fun _ h => h, fun S hS => by cases hS⟩
        | some S =>
          simp only [hsrc] at hb
          have := IH a S a1 L hb
          refine ⟨updateReachability_le f a S false a1 hb, this.1, fun S' hS' => ?_⟩
          obtain ⟨c, h1, h2⟩ := sourceOf_some hsrc
          exact this.2 c0 c h1 h2
      obtain ⟨hle, h1, h2⟩ := hstep
      have R := ih a1 g' (Linked_congr hle.1 L) h
      refine ⟨fun e he => R.1 e (h1 e he), fun e he S hS => ?_⟩
      rcases List.mem_cons.1 he with h3 | h3
      · subst h3
        exact R.1 e (h2 S hS)
      · apply R.2 e h3 S
        rw [← shape_sourceOf hle.1]
        exact hS

theorem updateReachability_clean (fuel : Nat) :
    ∀ (g : Graph) (self : Nat) (force : Bool) (g' : Graph), g.Linked →
      updateReachability fuel g self force = some g' →
      (∀ e, g.CleanAt e → g'.CleanAt e) ∧
        (∀ e c, g.conns[e]? = some c → c.source = some self → g'.CleanAt e) ∧
        (force = true → ∀ e c, g.conns[e]? = some c → c.destination = some self →
          g'.CleanAt e) := by
  induction fuel with
  | zero => intro g self force g' _ h; simp [updateReachability] at h
  | succ f ih =>
    intro g self force g' L h
    rw [updateReachability_succ] at h
    cases hp : g.procs[self]? with
    | none =>
      simp only [hp, Option.some.injEq] at h
      subst h
      refine ⟨fun _ h => h, fun e c he hs => ?_, fun _ e c he hd => ?_⟩
      · obtain ⟨p, hp', -⟩ := L.source_ok e c self he hs
        rw [hp] at hp'; cases hp'
      · obtain ⟨p, hp', -⟩ := L.dest_ok e c self he hd
        rw [hp] at hp'; cases hp'
    | some p =>
      simp only [hp] at h
      have hst := reachOutgoing_stepBy g self force
      have hself := lt_of_getElem?_some hp
      have hout : ∀ e c, g.conns[e]? = some c → c.source = some self →
          e ∈ outgoingAll p.outgoing_connections := by
        intro e c he hs
        obtain ⟨p', hp', -, hm⟩ := L.source_ok e c self he hs
        rw [hp] at hp'
        cases hp'
        exact hm
      cases hch : (reachOutgoing g self force).2 with
      | false =>
        simp only [hch, Bool.false_eq_true, if_false, Option.some.injEq] at h
        rw [reachOutgoing_eq force hp] at hch h
        obtain ⟨h1, h2⟩ := reachFold_noop self _ (g, force) hch
        simp only at h1 h2
        rw [h1] at h
        subst h
        refine ⟨fun _ h => h, fun e c he hs => ?_, fun hf => by rw [hf] at h2; cases h2⟩
        intro c' A B he' hA hB
        rw [he] at he'
        cases he'
        rw [hs] at hA
        cases hA
        exact reachFold_done_noop self _ (g, force) hself e B (hout e c he hs)
          (destinationOf_of L he hB) hch
      | true =>
        simp only [hch, if_true] at h
        have hc1 := shape_conns hst.1.1
        have L1 := Linked_congr hst.1.1 L
        have FS := propagate_fold_clean f
          (fun a s a' La ha => ⟨(ih a s false a' La ha).1, (ih a s false a' La ha).2.1⟩)
          p.incoming_connections _ g' L1 h
        have hle' := updateReachability_le (f + 1) g self force g' (by
          rw [updateReachability_succ]; simp only [hp, hch, if_true]; exact h)
        have hc' := shape_conns hle'.1
        have hin : ∀ e c, g.conns[e]? = some c → c.destination = some self →
            g'.CleanAt e := by
          intro e c he hd
          cases hs : c.source with
          | none =>
            intro c' A B he' hA _
            rw [← hc', he] at he'
            cases he'
            rw [hs] at hA
            cases hA
          | some A =>
            obtain ⟨p', hp', -, hm⟩ := L.dest_ok e c self he hd
            rw [hp] at hp'
            cases hp'
            exact FS.2 e hm A (sourceOf_of L1 (hc1 ▸ he) hs)
        refine ⟨fun e he => ?_, fun e c he hs => ?_, fun _ => hin⟩
        · by_cases hdst : ∃ c, g.conns[e]? = some c ∧ c.destination = some self
          · obtain ⟨c, h1, h2⟩ := hdst
            exact hin e c h1 h2
          · apply FS.1 e
            apply CleanAt_step hst _ he
            intro c hc hcon
            exact hdst ⟨c, hc, hcon⟩
        · by_cases hdst : c.destination = some self
          · exact hin e c he hdst
          · apply FS.1 e
            intro c' A B he' hA hB
            rw [← hc1, he] at he'
            cases he'
            rw [hs] at hA
            cases hA
            have hBs : B ≠ self := fun hcon => hdst (hcon ▸ hB)
            have := reachFold_done self _ (g, force) hself e B (hout e c he hs)
              (destinationOf_of L he hB)
            rw [← reachOutgoing_eq force hp] at this
            exact ⟨this.1, this.2 hBs⟩

/-! ### The invariant along `addConnection` -/

theorem AddEffect.reach_eq {s conn : Nat} {g : Graph} {res : Graph × SetAs} {p : Processor}
    {c : Connection} (E : AddEffect s conn g res p c) (hp : g.procs[s]? = some p) (t : Nat) :
    (res.1.procs[t]?).map Processor.reachable_processors =
      (g.procs[t]?).map Processor.reachable_processors := by
  obtain ⟨p', h1, h2, -⟩ := E.proc
  by_cases ht : t = s
  · subst ht
    rw [h1, hp, h2]
    rfl
  · rw [E.procs_other t ht]

theorem entryMem_congr {g g' : Graph} {s : Nat}
    (h : (g'.procs[s]?).map Processor.reachable_processors =
      (g.procs[s]?).map Processor.reachable_processors) (k x : Nat) :
    g'.entryMem s k x ↔ g.entryMem s k x := by
  unfold Graph.entryMem
  cases h1 : g'.procs[s]? <;> cases h2 : g.procs[s]? <;> simp [h1, h2] at h ⊢
  rw [h]

theorem reach_congr {g g' : Graph} {s : Nat}
    (h : (g'.procs[s]?).map Processor.reachable_processors =
      (g.procs[s]?).map Processor.reachable_processors) (k : Nat) :
    g'.reach s k = g.reach s k := by
  unfold Graph.reach
  cases h1 : g'.procs[s]? <;> cases h2 : g.procs[s]? <;> simp [h1, h2] at h ⊢
  rw [h]

theorem allReached_congr_reach {g g' : Graph} {s : Nat}
    (h : (g'.procs[s]?).map Processor.reachable_processors =
      (g.procs[s]?).map Processor.reachable_processors) :
    allReached g' s = allReached g s := by
  unfold allReached
  cases h1 : g'.procs[s]? <;> cases h2 : g.procs[s]? <;> simp [h1, h2] at h ⊢
  rw [h]

/-- Where a processor of the new graph comes from. -/
theorem AddEffect.proc_of {s conn : Nat} {g : Graph} {res : Graph × SetAs} {p : Processor}
    {c : Connection} (E : AddEffect s conn g res p c) (hp : g.procs[s]? = some p)
    {t : Nat} {q' : Processor} (hq : res.1.procs[t]? = some q') :
    ∃ q, g.procs[t]? = some q ∧ q.uuid = q'.uuid ∧
      (∀ x ∈ outgoingAll q.outgoing_connections, x ∈ outgoingAll q'.outgoing_connections) ∧
      (∀ x ∈ q.incoming_connections, x ∈ q'.incoming_connections) := by
  obtain ⟨p', h1, h2, h3, -, -, h5⟩ := E.proc
  by_cases ht : t = s
  · subst ht
    rw [h1] at hq
    cases hq
    refine ⟨p, hp, by rw [h2], h5, fun x hx => (h3 x).2 (Or.inl hx)⟩
  · rw [E.procs_other t ht] at hq
    exact ⟨q', hq, rfl, fun x hx => hx, fun x hx => hx⟩

theorem AddEffect.proc_to {s conn : Nat} {g : Graph} {res : Graph × SetAs} {p : Processor}
    {c : Connection} (E : AddEffect s conn g res p c) (hp : g.procs[s]? = some p)
    {t : Nat} {q : Processor} (hq : g.procs[t]? = some q) :
    ∃ q', res.1.procs[t]? = some q' ∧ q.uuid = q'.uuid ∧
      (∀ x ∈ outgoingAll q.outgoing_connections, x ∈ outgoingAll q'.outgoing_connections) ∧
      (∀ x ∈ q.incoming_connections, x ∈ q'.incoming_connections) := by
  obtain ⟨p', h1, h2, h3, -, -, h5⟩ := E.proc
  by_cases ht : t = s
  · subst ht
    rw [hp] at hq
    cases hq
    refine ⟨p', h1, by rw [h2], h5, fun x hx => (h3 x).2 (Or.inl hx)⟩
  · exact ⟨q, by rw [E.procs_other t ht]; exact hq, rfl, fun x hx => hx, fun x hx => hx⟩

theorem AddEffect.src_stable {s conn : Nat} {g : Graph} {res : Graph × SetAs} {p : Processor}
    {c : Connection} (E : AddEffect s conn g res p c) (L : g.Linked)
    (hp : g.procs[s]? = some p) (hc : g.conns[conn]? = some c)
    {e A : Nat} {cc : Connection} (he : g.conns[e]? = some cc) (hA : cc.source = some A) :
    ∃ cc', res.1.conns[e]? = some cc' ∧ cc'.source = some A := by
  by_cases hec : e = conn
  · subst hec
    have hcc : cc = c := by rw [hc] at he; exact (Option.some.inj he).symm
    subst hcc
    obtain ⟨c', h1, -, h3, h4, -⟩ := E.conn_eq
    refine ⟨c', h1, ?_⟩
    by_cases hn : newOutgoing e p cc
    · rw [h3 hn]
      obtain ⟨pA, hpA, hu, -⟩ := L.source_ok e cc A hc hA
      have := L.uuid_inj s A p pA hp hpA (by rw [hu]; exact hn.1)
      rw [this]
    · rw [h4 hn]; exact hA
  · exact ⟨cc, by rw [E.conns_other e hec]; exact he, hA⟩

theorem AddEffect.dst_stable {s conn : Nat} {g : Graph} {res : Graph × SetAs} {p : Processor}
    {c : Connection} (E : AddEffect s conn g res p c) (L : g.Linked)
    (hp : g.procs[s]? = some p) (hc : g.conns[conn]? = some c)
    {e B : Nat} {cc : Connection} (he : g.conns[e]? = some cc)
    (hB : cc.destination = some B) :
    ∃ cc', res.1.conns[e]? = some cc' ∧ cc'.destination = some B := by
  by_cases hec : e = conn
  · subst hec
    have hcc : cc = c := by rw [hc] at he; exact (Option.some.inj he).symm
    subst hcc
    obtain ⟨c', h1, -, -, -, h5, h6⟩ := E.conn_eq
    refine ⟨c', h1, ?_⟩
    by_cases hn : newIncoming e p cc
    · rw [h5 hn]
      obtain ⟨pB, hpB, hu, -⟩ := L.dest_ok e cc B hc hB
      have := L.uuid_inj s B p pB hp hpB (by rw [hu]; exact hn.1)
      rw [this]
    · rw [h6 hn]; exact hB
  · exact ⟨cc, by rw [E.conns_other e hec]; exact he, hB⟩

theorem AddEffect.path {s conn : Nat} {g : Graph} {res : Graph × SetAs} {p : Processor}
    {c : Connection} (E : AddEffect s conn g res p c) (L : g.Linked)
    (hp : g.procs[s]? = some p) (hc : g.conns[conn]? = some c) {e q : Nat}
    (h : g.Path e q) : res.1.Path e q := by
  induction h with
  | last h1 h2 =>
    obtain ⟨cc', h3, h4⟩ := E.dst_stable L hp hc h1 h2
    exact Graph.Path.last h3 h4
  | step h1 h2 h3 h4 _ ih =>
    obtain ⟨cc', h5, h6⟩ := E.dst_stable L hp hc h1 h2
    obtain ⟨cc2, h7, h8⟩ := E.src_stable L hp hc h3 h4
    exact Graph.Path.step h5 h6 h7 h8 ih

theorem AddEffect.linked {s conn : Nat} {g : Graph} {res : Graph × SetAs} {p : Processor}
    {c : Connection} (E : AddEffect s conn g res p c) (L : g.Linked)
    (hp : g.procs[s]? = some p) (hc : g.conns[conn]? = some c) : res.1.Linked := by
  obtain ⟨p', hp', hpeq, hinc, hfind, hflat, hmono⟩ := E.proc
  obtain ⟨c', hc', hceq, hs1, hs2, hd1, hd2⟩ := E.conn_eq
  have hpu : p'.uuid = p.uuid := by rw [hpeq]
  have hsu : c'.srcUUID = c.srcUUID := by rw [hceq]
  have hdu : c'.destUUID = c.destUUID := by rw [hceq]
  refine ⟨fun t1 t2 q1 q2 h1 h2 hu => ?_, fun e cc A he hA => ?_, fun e cc B he hB => ?_,
    fun t q e hq he => ?_, fun t q e hq he => ?_⟩
  · obtain ⟨r1, hr1, hu1, -⟩ := E.proc_of hp h1
    obtain ⟨r2, hr2, hu2, -⟩ := E.proc_of hp h2
    exact L.uuid_inj t1 t2 r1 r2 hr1 hr2 (by rw [hu1, hu2]; exact hu)
  · by_cases hec : e = conn
    · subst hec
      rw [hc'] at he
      cases he
      by_cases hn : newOutgoing e p c
      · rw [hs1 hn] at hA
        cases hA
        refine ⟨p', hp', by rw [hpu, hsu]; exact hn.1, ?_⟩
        obtain ⟨rel, hrel, -⟩ := hn.2
        exact outgoingOf_subset ((hfind rel e).2 (Or.inr ⟨rfl, hn.1, hrel⟩))
      · rw [hs2 hn] at hA
        obtain ⟨pA, hpA, hu, hm⟩ := L.source_ok e c A hc hA
        obtain ⟨q', hq', hu', hm', -⟩ := E.proc_to hp hpA
        exact ⟨q', hq', by rw [← hu', hsu]; exact hu, hm' e hm⟩
    · rw [E.conns_other e hec] at he
      obtain ⟨pA, hpA, hu, hm⟩ := L.source_ok e cc A he hA
      obtain ⟨q', hq', hu', hm', -⟩ := E.proc_to hp hpA
      exact ⟨q', hq', by rw [← hu']; exact hu, hm' e hm⟩
  · by_cases hec : e = conn
    · subst hec
      rw [hc'] at he
      cases he
      by_cases hn : newIncoming e p c
      · rw [hd1 hn] at hB
        cases hB
        exact ⟨p', hp', by rw [hpu, hdu]; exact hn.1, (hinc e).2 (Or.inr ⟨rfl, hn.1⟩)⟩
      · rw [hd2 hn] at hB
        obtain ⟨pB, hpB, hu, hm⟩ := L.dest_ok e c B hc hB
        obtain ⟨q', hq', hu', -, hm'⟩ := E.proc_to hp hpB
        exact ⟨q', hq', by rw [← hu', hdu]; exact hu, hm' e hm⟩
    · rw [E.conns_other e hec] at he
      obtain ⟨pB, hpB, hu, hm⟩ := L.dest_ok e cc B he hB
      obtain ⟨q', hq', hu', -, hm'⟩ := E.proc_to hp hpB
      exact ⟨q', hq', by rw [← hu']; exact hu, hm' e hm⟩
  · by_cases hts : t = s
    · subst hts
      rw [hp'] at hq
      cases hq
      rcases hflat e he with h1 | ⟨h1, h2⟩
      · obtain ⟨cc, h3, h4⟩ := L.outgoing_ok t p e hp h1
        exact E.src_stable L hp hc h3 h4
      · subst h1
        exact ⟨c', hc', hs1 h2⟩
    · rw [E.procs_other t hts] at hq
      obtain ⟨cc, h3, h4⟩ := L.outgoing_ok t q e hq he
      exact E.src_stable L hp hc h3 h4
  · by_cases hts : t = s
    · subst hts
      rw [hp'] at hq
      cases hq
      have hold : e ∈ p.incoming_connections →
          ∃ cc', res.1.conns[e]? = some cc' ∧ cc'.destination = some t := by
        intro h1
        obtain ⟨cc, h3, h4⟩ := L.incoming_ok t p e hp h1
        exact E.dst_stable L hp hc h3 h4
      rcases (hinc e).1 he with h1 | ⟨h1, h2⟩
      · exact hold h1
      · subst h1
        by_cases hn : newIncoming e p c
        · exact ⟨c', hc', hd1 hn⟩
        · apply hold
          by_contra hcon
          exact hn ⟨h2, hcon⟩
    · rw [E.procs_other t hts] at hq
      obtain ⟨cc, h3, h4⟩ := L.incoming_ok t q e hq he
      exact E.dst_stable L hp hc h3 h4

theorem AddEffect.soundness {s conn : Nat} {g : Graph} {res : Graph × SetAs} {p : Processor}
    {c : Connection} (E : AddEffect s conn g res p c) (L : g.Linked) (hs : g.Sound)
    (hp : g.procs[s]? = some p) (hc : g.conns[conn]? = some c) : res.1.Sound := by
  intro t k x h
  rw [entryMem_congr (E.reach_eq hp t)] at h
  obtain ⟨⟨cc, h1, h2⟩, h3⟩ := hs t k x h
  exact ⟨E.src_stable L hp hc h1 h2, E.path L hp hc h3⟩

theorem AddEffect.clean_other {s conn : Nat} {g : Graph} {res : Graph × SetAs} {p : Processor}
    {c : Connection} (E : AddEffect s conn g res p c) (hp : g.procs[s]? = some p)
    {e : Nat} (hne : e ≠ conn) (h : g.CleanAt e) : res.1.CleanAt e := by
  intro cc A B he hA hB
  rw [E.conns_other e hne] at he
  obtain ⟨h1, h2⟩ := h cc A B he hA hB
  rw [reach_congr (E.reach_eq hp A), allReached_congr_reach (E.reach_eq hp B)]
  exact ⟨h1, h2⟩

theorem AddEffect.flag_cases {s conn : Nat} {g : Graph} {res : Graph × SetAs} {p : Processor}
    {c : Connection} (E : AddEffect s conn g res p c) :
    (res.2 = SetAs.INPUT ∧ newOutgoing conn p c) ∨
      (res.2 = SetAs.OUTPUT ∧ ¬ newOutgoing conn p c ∧ newIncoming conn p c) ∨
      (res.2 = SetAs.NONE ∧ res = (g, SetAs.NONE)) := by
  by_cases h1 : newOutgoing conn p c
  · exact Or.inl ⟨E.flag_input h1, h1⟩
  · by_cases h2 : newIncoming conn p c
    · exact Or.inr (Or.inl ⟨E.flag_output h1 h2, h1, h2⟩)
    · have := E.flag_none h1 h2
      exact Or.inr (Or.inr ⟨by rw [this], this⟩)

theorem Graph.Extends.refl (g : Graph) : g.Extends g :=
  ⟨fun _ k hk => ⟨k, hk, rfl, rfl, rfl, rfl, fun _ h => h, fun _ h => h⟩,
    fun _ p hp => ⟨p, hp, rfl, rfl⟩⟩

theorem Graph.Extends.trans {a b c : Graph} (h1 : a.Extends b) (h2 : b.Extends c) :
    a.Extends c := by
  refine ⟨fun e k hk => ?_, fun s p hp => ?_⟩
  · obtain ⟨k1, e1, a1, a2, a3, a4, a5, a6⟩ := h1.conn e k hk
    obtain ⟨k2, e2, b1, b2, b3, b4, b5, b6⟩ := h2.conn e k1 e1
    exact ⟨k2, e2, b1.trans a1, b2.trans a2, b3.trans a3, b4.trans a4,
      fun x hx => b5 x (a5 x hx), fun x hx => b6 x (a6 x hx)⟩
  · obtain ⟨p1, e1, a1, a2⟩ := h1.proc s p hp
    obtain ⟨p2, e2, b1, b2⟩ := h2.proc s p1 e1
    exact ⟨p2, e2, b1.trans a1, b2.trans a2⟩

theorem le_extends {g g' : Graph} (h : g.le g') : g.Extends g' := by
  have hc := shape_conns h.1
  refine ⟨fun e k hk => ⟨k, hc ▸ hk, rfl, rfl, rfl, rfl, fun _ h => h, fun _ h => h⟩,
    fun s p hp => ?_⟩
  obtain ⟨p', hp', -, -, h3, h4⟩ := shape_get h.1 hp
  exact ⟨p', hp', h3.symm, h4.symm⟩

theorem AddEffect.extends {s conn : Nat} {g : Graph} {res : Graph × SetAs} {p : Processor}
    {c : Connection} (E : AddEffect s conn g res p c) (L : g.Linked)
    (hp : g.procs[s]? = some p) (hc : g.conns[conn]? = some c) : g.Extends res.1 := by
  refine ⟨fun e k hk => ?_, fun t q hq => ?_⟩
  · have hsrc : ∀ a, k.source = some a → ∃ cc', res.1.conns[e]? = some cc' ∧
        cc'.source = some a := fun a ha => E.src_stable L hp hc hk ha
    have hdst : ∀ b, k.destination = some b → ∃ cc', res.1.conns[e]? = some cc' ∧
        cc'.destination = some b := fun b hb => E.dst_stable L hp hc hk hb
    by_cases hec : e = conn
    · subst hec
      have hkc : c = k := Option.some.inj (hc.symm.trans hk)
      subst hkc
      obtain ⟨c', h1, h2, -⟩ := E.conn_eq
      refine ⟨c', h1, by rw [h2], by rw [h2], by rw [h2], by rw [h2], fun a ha => ?_,
        fun b hb => ?_⟩
      · obtain ⟨cc', h3, h4⟩ := hsrc a ha
        rw [h1] at h3
        cases h3
        exact h4
      · obtain ⟨cc', h3, h4⟩ := hdst b hb
        rw [h1] at h3
        cases h3
        exact h4
    · exact ⟨k, by rw [E.conns_other e hec]; exact hk, rfl, rfl, rfl, rfl, fun _ h => h,
        fun _ h => h⟩
  · obtain ⟨p', h1, h2, -⟩ := E.proc
    by_cases hts : t = s
    · subst hts
      have hqp : p = q := Option.some.inj (hp.symm.trans hq)
      subst hqp
      exact ⟨p', h1, by rw [h2], by rw [h2]; rfl⟩
    · exact ⟨q, by rw [E.procs_other t hts]; exact hq, rfl, rfl⟩

/-- After the registration blocks, run by a processor whose UUID is the source
UUID of a connection with a relationship, the source of the connection is set. -/
theorem AddEffect.registered_source {s conn : Nat} {g : Graph} {res : Graph × SetAs}
    {p : Processor} {c : Connection} (E : AddEffect s conn g res p c) (L : g.Linked)
    (hp : g.procs[s]? = some p) (hc : g.conns[conn]? = some c) (hu : p.uuid = c.srcUUID)
    (hr : c.relationships ≠ []) :
    ∃ c', res.1.conns[conn]? = some c' ∧ c'.source = some s := by
  obtain ⟨c', h1, -, h3, h4, -⟩ := E.conn_eq
  refine ⟨c', h1, ?_⟩
  by_cases hn : newOutgoing conn p c
  · exact h3 hn
  · rw [h4 hn]
    obtain ⟨rel, tl, hrel⟩ := List.exists_cons_of_ne_nil hr
    have hmem : conn ∈ outgoingOf rel p.outgoing_connections := by
      by_contra hcon
      exact hn ⟨hu, rel, by rw [hrel]; exact List.mem_cons_self _ _, hcon⟩
    obtain ⟨cc, h5, h6⟩ := L.outgoing_ok s p conn hp (outgoingOf_subset hmem)
    have hcc : c = cc := Option.some.inj (hc.symm.trans h5)
    subst hcc
    exact h6

/-- After the registration blocks, run by a processor whose UUID is the
destination UUID of a connection, the destination of the connection is set. -/
theorem AddEffect.registered_destination {s conn : Nat} {g : Graph} {res : Graph × SetAs}
    {p : Processor} {c : Connection} (E : AddEffect s conn g res p c) (L : g.Linked)
    (hp : g.procs[s]? = some p) (hc : g.conns[conn]? = some c) (hu : p.uuid = c.destUUID) :
    ∃ c', res.1.conns[conn]? = some c' ∧ c'.destination = some s := by
  obtain ⟨c', h1, -, -, -, h5, h6⟩ := E.conn_eq
  refine ⟨c', h1, ?_⟩
  by_cases hn : newIncoming conn p c
  · exact h5 hn
  · rw [h6 hn]
    have hmem : conn ∈ p.incoming_connections := by
      by_contra hcon
      exact hn ⟨hu, hcon⟩
    obtain ⟨cc, h7, h8⟩ := L.incoming_ok s p conn hp hmem
    rw [hc] at h7
    cases h7
    exact h8

/-- A call of `addConnection` with enough fuel returns and keeps the invariant;
it touches no connection but `conn`, and on a processor that is not running it
sets the source (destination) of `conn` when the UUIDs say so. -/
theorem addConnection_inv (fuel : Nat) (g : Graph) (self conn : Nat) (I : g.Inv)
    (hf : g.fuel ≤ fuel) :
    ∃ b g', addConnection fuel g self conn = some (b, g') ∧ g'.Inv ∧ g'.fuel ≤ g.fuel ∧
      g.Extends g' ∧ (∀ e, e ≠ conn → g'.conns[e]? = g.conns[e]?) ∧
      ∀ p c, g.procs[self]? = some p → g.conns[conn]? = some c → p.isRunning = false →
        (p.uuid = c.srcUUID → c.relationships ≠ [] →
          ∃ c', g'.conns[conn]? = some c' ∧ c'.source = some self) ∧
        (p.uuid = c.destUUID → ∃ c', g'.conns[conn]? = some c' ∧ c'.destination = some self) := by
  cases hp : g.procs[self]? with
  | none =>
    exact ⟨false, g, by simp [addConnection, hp], I, le_rfl, Graph.Extends.refl g,
      fun _ _ => rfl, fun p c h => by cases h⟩
  | some p =>
    cases hrun : p.isRunning with
    | true =>
      refine ⟨false, g, by simp [addConnection, hp, hrun], I, le_rfl, Graph.Extends.refl g,
        fun _ _ => rfl, fun p' c h _ hr => ?_⟩
      cases h
      rw [hrun] at hr
      cases hr
    | false =>
      cases hc : g.conns[conn]? with
      | none =>
        exact ⟨false, g, by simp [addConnection, hp, hrun, hc], I, le_rfl,
          Graph.Extends.refl g, fun _ _ => rfl, fun p' c _ h => by cases h⟩
      | some c =>
        obtain ⟨res, g', E, hcall, hnone, hinput, houtput, hle, hfuel⟩ :=
          addConnection_call fuel g self conn p c hp hc hrun hf
        have L1 := E.linked I.linked hp hc
        have S1 := E.soundness I.linked I.sound hp hc
        have hcs := shape_conns hle.1
        have hinv : g'.Inv := by
          obtain ⟨c', hc', -, hs1, -, hd1, -⟩ := E.conn_eq
          rcases E.flag_cases with ⟨hflag, hn⟩ | ⟨hflag, hn, hi⟩ | ⟨hflag, -⟩
          · have hu := hinput hflag
            have C := updateReachability_clean fuel res.1 self false g' L1 hu
            refine ⟨Linked_congr hle.1 L1,
              updateReachability_sound fuel res.1 self false g' hu L1 S1, fun e => ?_⟩
            by_cases hec : e = conn
            · subst hec
              exact C.2.1 e c' hc' (hs1 hn)
            · exact C.1 e (E.clean_other hp hec (I.clean e))
          · have hu := houtput hflag
            have C := updateReachability_clean fuel res.1 self true g' L1 hu
            refine ⟨Linked_congr hle.1 L1,
              updateReachability_sound fuel res.1 self true g' hu L1 S1, fun e => ?_⟩
            by_cases hec : e = conn
            · subst hec
              exact C.2.2 rfl e c' hc' (hd1 hi)
            · exact C.1 e (E.clean_other hp hec (I.clean e))
          · rw [hnone hflag]
            exact I
        refine ⟨_, g', hcall, hinv, hfuel,
          Graph.Extends.trans (E.extends I.linked hp hc) (le_extends hle),
          fun e he => by rw [← hcs]; exact E.conns_other e he, fun p' c' hp' hc' _ => ?_⟩
        cases hp'
        cases hc'
        refine ⟨fun hu hr => ?_, fun hu => ?_⟩
        · rw [← hcs]
          exact E.registered_source I.linked hp hc hu hr
        · rw [← hcs]
          exact E.registered_destination I.linked hp hc hu

theorem Graph.Fresh.inv {g : Graph} (F : g.Fresh) : g.Inv := by
  have hsrc : ∀ (e : Nat) (c : Connection), g.conns[e]? = some c → c.source = none :=
    fun e c he => (F.conns_unset c (List.getElem?_mem he)).1
  have hdst : ∀ (e : Nat) (c : Connection), g.conns[e]? = some c → c.destination = none :=
    fun e c he => (F.conns_unset c (List.getElem?_mem he)).2
  refine ⟨⟨fun s t p q hp hq hu => ?_, fun e c A he hA => ?_, fun e c B he hB => ?_,
    fun s p e hp he => ?_, fun s p e hp he => ?_⟩, fun s k x h => ?_,
    fun e c A B he hA _ => ?_⟩
  · have hnd := List.nodup_iff_getElem?_ne_getElem?.1 F.uuid_nodup
    have hs : (g.procs.map Processor.uuid)[s]? = some p.uuid := by
      simp [List.getElem?_map, hp]
    have ht : (g.procs.map Processor.uuid)[t]? = some p.uuid := by
      simp [List.getElem?_map, hq, hu]
    have hsl : s < (g.procs.map Processor.uuid).length := lt_of_getElem?_some hs
    have htl : t < (g.procs.map Processor.uuid).length := lt_of_getElem?_some ht
    rcases Nat.lt_trichotomy s t with h | h | h
    · exact absurd (hs.trans ht.symm) (hnd s t h htl)
    · exact h
    · exact absurd (ht.trans hs.symm) (hnd t s h hsl)
  · rw [hsrc e c he] at hA; cases hA
  · rw [hdst e c he] at hB; cases hB
  · rw [(F.procs_empty p (List.getElem?_mem hp)).2.1] at he
    simp [outgoingAll] at he
  · rw [(F.procs_empty p (List.getElem?_mem hp)).1] at he
    cases he
  · obtain ⟨p, hp, e, he, -⟩ := h
    rw [(F.procs_empty p (List.getElem?_mem hp)).2.2] at he
    cases he
  · rw [hsrc e c he] at hA; cases hA

/-- A sequence of `addConnection` calls with enough fuel returns and keeps the
invariant; connections that no call names are untouched, and every call on a
processor that is not running sets the pointer that the UUIDs ask for. -/
theorem addConnections_inv (fuel : Nat) (calls : List (Nat × Nat)) :
    ∀ g : Graph, g.Inv → g.fuel ≤ fuel →
      ∃ g', addConnections fuel g calls = some g' ∧ g'.Inv ∧ g.Extends g' ∧
        (∀ e, (∀ call ∈ calls, call.2 ≠ e) → g'.conns[e]? = g.conns[e]?) ∧
        ∀ call ∈ calls, ∀ p c, g.procs[call.1]? = some p → g.conns[call.2]? = some c →
          p.isRunning = false →
          (p.uuid = c.srcUUID → c.relationships ≠ [] →
            ∃ c', g'.conns[call.2]? = some c' ∧ c'.source = some call.1) ∧
          (p.uuid = c.destUUID →
            ∃ c', g'.conns[call.2]? = some c' ∧ c'.destination = some call.1) := by
  induction calls with
  | nil =>
    intro g I _
    exact ⟨g, rfl, I, Graph.Extends.refl g, fun _ _ => rfl, fun call h => by cases h⟩
  | cons call0 calls ih =>
    intro g I hf
    obtain ⟨b, g1, h1, I1, hf1, X1, U1, R1⟩ := addConnection_inv fuel g call0.1 call0.2 I hf
    obtain ⟨g', h2, I2, X2, U2, R2⟩ := ih g1 I1 (le_trans hf1 hf)
    refine ⟨g', ?_, I2, Graph.Extends.trans X1 X2, fun e he => ?_, fun call hcall p c hp hc hr => ?_⟩
    · unfold addConnections at h2 ⊢
      simp only [List.foldlM_cons, h1, Option.map_some', Option.bind_eq_bind, Option.some_bind]
      exact h2
    · rw [U2 e (fun call hc => he call (List.mem_cons_of_mem _ hc)),
        U1 e (fun hcon => he call0 (List.mem_cons_self _ _) hcon.symm)]
    · rcases List.mem_cons.1 hcall with h | h
      · subst h
        obtain ⟨r1, r2⟩ := R1 p c hp hc hr
        refine ⟨fun hu hrel => ?_, fun hu => ?_⟩
        · obtain ⟨c1, e1, s1⟩ := r1 hu hrel
          obtain ⟨c2, e2, -, -, -, -, s2, -⟩ := X2.conn _ c1 e1
          exact ⟨c2, e2, s2 _ s1⟩
        · obtain ⟨c1, e1, s1⟩ := r2 hu
          obtain ⟨c2, e2, -, -, -, -, -, s2⟩ := X2.conn _ c1 e1
          exact ⟨c2, e2, s2 _ s1⟩
      · obtain ⟨p1, hp1, hu1, hr1⟩ := X1.proc _ p hp
        obtain ⟨c1, hc1, a1, a2, a3, -⟩ := X1.conn _ c hc
        obtain ⟨r1, r2⟩ := R2 call h p1 c1 hp1 hc1 (hr1.trans hr)
        refine ⟨fun hu hrel => r1 (by rw [hu1, a1]; exact hu) (by rw [a3]; exact hrel),
          fun hu => r2 (by rw [hu1, a2]; exact hu)⟩

theorem partOfCycle_iff {g : Graph} {e A : Nat} {c : Connection} {pA : Processor}
    (he : g.conns[e]? = some c) (hA : c.source = some A) (hp : g.procs[A]? = some pA) :
    partOfCycle g e = true ↔ A ∈ g.reach A e := by
  unfold partOfCycle Graph.reach
  simp only [he, hA, hp]
  cases reachFind e pA.reachable_processors with
  | none => simp
  | some set => simp

theorem Graph.Inv.reach_iff {g : Graph} (I : g.Inv) {e A : Nat} {c : Connection}
    (he : g.conns[e]? = some c) (hA : c.source = some A) (q : Nat) :
    q ∈ g.reach A e ↔ g.Path e q := by
  constructor
  · intro h
    exact (I.sound A e q (reach_entryMem h)).2
  · intro h
    induction h generalizing A c with
    | @last e' q' conn' h1 h2 =>
      have hcc : c = conn' := Option.some.inj (he.symm.trans h1)
      subst hcc
      exact (I.clean e' c A q' he hA h2).1
    | @step e' e2 q' d conn' conn2 h1 h2 h3 h4 _ ih =>
      have hcc : c = conn' := Option.some.inj (he.symm.trans h1)
      subst hcc
      have := ih h3 h4
      apply (I.clean e' c A d he hA h2).2
      exact allReached_iff.2 ⟨e2, reach_entryMem this⟩

/-- C3: start from a graph in which nothing is registered (processors with
distinct UUIDs) and run any sequence of `addConnection` calls with fuel
`Graph.fuel` or more.  The calls return, and afterwards, for every connection
`e` that has a source `A`, the set stored by `A` for `e` holds exactly the
processors at which a directed path starting with `e` ends; hence
`partOfCycle(e)` is true iff such a path leads back to `A`. -/
theorem reachability_exact (fuel : Nat) (g0 : Graph) (calls : List (Nat × Nat))
    (hfresh : g0.Fresh) (hf : g0.fuel ≤ fuel) :
    ∃ g, addConnections fuel g0 calls = some g ∧
      ∀ (e : Nat) (c : Connection) (A : Nat), g.conns[e]? = some c → c.source = some A →
        (∀ q, q ∈ g.reach A e ↔ g.Path e q) ∧ (partOfCycle g e = true ↔ g.Path e A) := by
  obtain ⟨g, h, I, -⟩ := addConnections_inv fuel calls g0 hfresh.inv hf
  refine ⟨g, h, fun e c A he hA => ⟨fun q => I.reach_iff he hA q, ?_⟩⟩
  obtain ⟨pA, hp, -⟩ := I.linked.source_ok e c A he hA
  rw [partOfCycle_iff he hA hp]
  exact I.reach_iff he hA A

theorem reachability_exact_witness :
    twoProcessors.Fresh ∧ twoProcessors.fuel ≤ 10 ∧
      ∃ g, addConnections 10 twoProcessors [(0, 0), (1, 0), (1, 1), (0, 1)] = some g ∧
        ∀ (e : Nat) (c : Connection) (A : Nat), g.conns[e]? = some c → c.source = some A →
          (∀ q, q ∈ g.reach A e ↔ g.Path e q) ∧ (partOfCycle g e = true ↔ g.Path e A) :=
  ⟨⟨by decide, by decide, by decide⟩, by decide,
    reachability_exact 10 twoProcessors [(0, 0), (1, 0), (1, 1), (0, 1)]
      ⟨by decide, by decide, by decide⟩ (by decide)⟩

theorem throttled_false_of_cycle {g : Graph} {p : Processor} {inConn : Nat} {c : Connection}
    (hin : inConn ∈ p.incoming_connections) (hc : g.conns[inConn]? = some c)
    (hcyc : partOfCycle g inConn = true) (hfull : c.isFull = true) :
    isThrottledByBackpressure g p = false := by
  unfold isThrottledByBackpressure
  have : (p.incoming_connections.any fun inConn =>
      match g.conns[inConn]? with
      | none => false
      | some connection => partOfCycle g inConn && connection.isFull) = true := by
    rw [List.any_eq_true]
    exact ⟨inConn, hin, by simp [hc, hcyc, hfull]⟩
  simp [this]

theorem throttled_true_of_outgoing {g : Graph} {p : Processor} {out : Nat} {c : Connection}
    (hout : out ∈ outgoingAll p.outgoing_connections) (hc : g.conns[out]? = some c)
    (hfull : c.isFull = true) (hin : p.incoming_connections = []) :
    isThrottledByBackpressure g p = true := by
  unfold isThrottledByBackpressure
  unfold outgoingAll at hout
  rw [List.mem_flatMap] at hout
  obtain ⟨e, he, hmem⟩ := hout
  have : (p.outgoing_connections.any fun outIt =>
      outIt.2.any fun out =>
        match g.conns[out]? with
        | none => false
        | some connection => connection.isFull) = true := by
    rw [List.any_eq_true]
    refine ⟨e, he, ?_⟩
    rw [List.any_eq_true]
    exact ⟨out, hmem, by simp [hc, hfull]⟩
  simp [this, hin]

/-- C2: processors `A` and `B` (not running), connection `c1` from `A` to `B`
and connection `c2` from `B` to `A`, each servicing a relationship, in a graph
where nothing is registered yet.  After any sequence of `addConnection` calls
that holds the four registrations (so in every order of the four calls)
`partOfCycle` is true for `c1` and for `c2`, and with `c2` full `A` is not
throttled.  After calls that register `c1` only (`A` and `B` having different
UUIDs) and with `c1` full, `A` is throttled. -/
theorem cycle_exemption (fuel : Nat) (g0 : Graph) (A B c1 c2 : Nat) (pA pB : Processor)
    (k1 k2 : Connection) (calls calls' : List (Nat × Nat))
    (hfresh : g0.Fresh) (hf : g0.fuel ≤ fuel)
    (hA : g0.procs[A]? = some pA) (hB : g0.procs[B]? = some pB)
    (h1 : g0.conns[c1]? = some k1) (h2 : g0.conns[c2]? = some k2)
    (hrA : pA.isRunning = false) (hrB : pB.isRunning = false)
    (h1s : pA.uuid = k1.srcUUID) (h1d : pB.uuid = k1.destUUID)
    (h2s : pB.uuid = k2.srcUUID) (h2d : pA.uuid = k2.destUUID)
    (hr1 : k1.relationships ≠ []) (hr2 : k2.relationships ≠ [])
    (hcalls : (A, c1) ∈ calls ∧ (B, c1) ∈ calls ∧ (B, c2) ∈ calls ∧ (A, c2) ∈ calls)
    (hcalls' : (A, c1) ∈ calls' ∧ ∀ call ∈ calls', call.2 = c1)
    (hAB : pA.uuid ≠ pB.uuid) :
    (∃ g pA', addConnections fuel g0 calls = some g ∧ g.procs[A]? = some pA' ∧
      partOfCycle g c1 = true ∧ partOfCycle g c2 = true ∧
      (k2.isFull = true → isThrottledByBackpressure g pA' = false)) ∧
    (∃ g pA', addConnections fuel g0 calls' = some g ∧ g.procs[A]? = some pA' ∧
      (k1.isFull = true → isThrottledByBackpressure g pA' = true)) := by
  constructor
  · obtain ⟨g, hrun, I, X, -, R⟩ := addConnections_inv fuel calls g0 hfresh.inv hf
    obtain ⟨pA', hpA', -, -⟩ := X.proc A pA hA
    obtain ⟨x1, e1, s1⟩ := (R (A, c1) hcalls.1 pA k1 hA h1 hrA).1 h1s hr1
    obtain ⟨x2, e2, d1⟩ := (R (B, c1) hcalls.2.1 pB k1 hB h1 hrB).2 h1d
    obtain ⟨x3, e3, s2⟩ := (R (B, c2) hcalls.2.2.1 pB k2 hB h2 hrB).1 h2s hr2
    obtain ⟨x4, e4, d2⟩ := (R (A, c2) hcalls.2.2.2 pA k2 hA h2 hrA).2 h2d
    simp only at e1 e2 e3 e4 s1 s2 d1 d2
    have h12 : x2 = x1 := Option.some.inj (e2.symm.trans e1)
    have h34 : x4 = x3 := Option.some.inj (e4.symm.trans e3)
    subst h12 h34
    obtain ⟨pA1, hp1, -⟩ := I.linked.source_ok c1 x2 A e1 s1
    obtain ⟨pB1, hp2, -⟩ := I.linked.source_ok c2 x4 B e3 s2
    obtain ⟨pA2, hp3, -, hm⟩ := I.linked.dest_ok c2 x4 A e3 d2
    have hpp : pA2 = pA' := Option.some.inj (hp3.symm.trans hpA')
    subst hpp
    have hcyc1 : partOfCycle g c1 = true := by
      rw [partOfCycle_iff e1 s1 hp1, I.reach_iff e1 s1 A]
      exact Graph.Path.step e1 d1 e3 s2 (Graph.Path.last e3 d2)
    have hcyc2 : partOfCycle g c2 = true := by
      rw [partOfCycle_iff e3 s2 hp2, I.reach_iff e3 s2 B]
      exact Graph.Path.step e3 d2 e1 s1 (Graph.Path.last e1 d1)
    refine ⟨g, pA2, hrun, hpA', hcyc1, hcyc2, fun hfull => ?_⟩
    obtain ⟨x5, e5, -, -, -, f5, -⟩ := X.conn c2 k2 h2
    have h45 : x5 = x4 := Option.some.inj (e5.symm.trans e3)
    subst h45
    exact throttled_false_of_cycle hm e3 hcyc2 (f5.trans hfull)
  · obtain ⟨g, hrun, I, X, U, R⟩ := addConnections_inv fuel calls' g0 hfresh.inv hf
    obtain ⟨pA', hpA', hu, -⟩ := X.proc A pA hA
    obtain ⟨x1, e1, s1⟩ := (R (A, c1) hcalls'.1 pA k1 hA h1 hrA).1 h1s hr1
    simp only at e1 s1
    refine ⟨g, pA', hrun, hpA', fun hfull => ?_⟩
    obtain ⟨pA1, hp1, -, hm⟩ := I.linked.source_ok c1 x1 A e1 s1
    have hpp : pA1 = pA' := Option.some.inj (hp1.symm.trans hpA')
    subst hpp
    obtain ⟨x5, e5, -, d5, -, f5, -⟩ := X.conn c1 k1 h1
    have h15 : x5 = x1 := Option.some.inj (e5.symm.trans e1)
    subst h15
    apply throttled_true_of_outgoing hm e1 (f5.trans hfull)
    apply List.eq_nil_iff_forall_not_mem.2
    intro e he
    obtain ⟨ce, hce, hde⟩ := I.linked.incoming_ok A pA1 e hpA' he
    by_cases hec : e = c1
    · subst hec
      have hcc : ce = x5 := Option.some.inj (hce.symm.trans e1)
      subst hcc
      obtain ⟨pX, hpX, huX, -⟩ := I.linked.dest_ok e ce A hce hde
      have hpp : pX = pA1 := Option.some.inj (hpX.symm.trans hpA')
      subst hpp
      apply hAB
      rw [← hu, huX, d5, ← h1d]
    · have hsame := U e (fun call hcall => by rw [hcalls'.2 call hcall]; exact fun h => hec h.symm)
      rw [hsame] at hce
      have := (hfresh.conns_unset ce (List.getElem?_mem hce)).2
      rw [this] at hde
      cases hde

theorem cycle_exemption_witness :
    (∃ g pA', addConnections 10 twoProcessors [(0, 0), (1, 0), (1, 1), (0, 1)] = some g ∧
      g.procs[0]? = some pA' ∧ partOfCycle g 0 = true ∧ partOfCycle g 1 = true ∧
      (true = true → isThrottledByBackpressure g pA' = false)) ∧
    (∃ g pA', addConnections 10 twoProcessors [(1, 0), (0, 0)] = some g ∧
      g.procs[0]? = some pA' ∧ (true = true → isThrottledByBackpressure g pA' = true)) :=
  cycle_exemption 10 twoProcessors 0 1 0 1 { uuid := 10 } { uuid := 20 }
    { srcUUID := 10, destUUID := 20, relationships := ["success"], isFull := true }
    { srcUUID := 20, destUUID := 10, relationships := ["success"], isFull := true }
    [(0, 0), (1, 0), (1, 1), (0, 1)] [(1, 0), (0, 0)]
    ⟨by decide, by decide, by decide⟩ (by decide) rfl rfl rfl rfl rfl rfl rfl rfl rfl rfl
    (by decide) (by decide) (by decide) (by decide) (by decide)

/-! ### `Processor::onTrigger` and the cron-driven agent -/

theorem idFind_idAssign {α : Type} (uuid : Identifier) (v : α) (m : List (Identifier × α)) :
    idFind uuid (idAssign uuid v m) = some v := by
  induction m with
  | nil => simp [idAssign, idFind]
  | cons e m ih =>
    obtain ⟨k, w⟩ := e
    simp only [idAssign]
    by_cases h1 : k = uuid
    · simp [h1, idFind]
    · simp only [h1, if_false]
      by_cases h2 : k < uuid
      · simp [h2, idFind, h1, ih]
      · simp [h2, idFind]

/-- C6, the counterexample: the work function returns normally and `commit`
throws; `rollback` is called although the work function returned normally. -/
theorem onTrigger_commit_throws :
    SessionCall.rollback ∈
        (Processor.onTrigger (Except.ok ()) (Except.ok ()) (Except.error "commit failed")
          (Except.ok ())).1 ∧
      (Processor.onTrigger (Except.ok ()) (Except.ok ()) (Except.error "commit failed")
          (Except.ok ())).2 = Except.error "commit failed" :=
  ⟨by simp [Processor.onTrigger], rfl⟩

/-- C6, amended: `onTrigger` calls `createSession` exactly once.  When the
session is created and the work function returns normally, `commit` is called
exactly once; `rollback` is then called, exactly once, iff `commit` throws.
When the work function throws, `commit` is not called and `rollback` is called
exactly once.  The exception of the work function (or of `commit`) propagates
to the caller when `rollback` returns normally; with no exception `onTrigger`
returns normally. -/
theorem onTrigger_session {ε : Type} (create work commit rollback : Except ε Unit) :
    ((Processor.onTrigger create work commit rollback).1.count SessionCall.createSession = 1) ∧
    (create = Except.ok () → work = Except.ok () →
      (Processor.onTrigger create work commit rollback).1.count SessionCall.commit = 1 ∧
      (commit = Except.ok () →
        (Processor.onTrigger create work commit rollback).1.count SessionCall.rollback = 0 ∧
        (Processor.onTrigger create work commit rollback).2 = Except.ok ()) ∧
      (∀ e, commit = Except.error e →
        (Processor.onTrigger create work commit rollback).1.count SessionCall.rollback = 1 ∧
        (rollback = Except.ok () →
          (Processor.onTrigger create work commit rollback).2 = Except.error e))) ∧
    (create = Except.ok () → ∀ e, work = Except.error e →
      (Processor.onTrigger create work commit rollback).1.count SessionCall.commit = 0 ∧
      (Processor.onTrigger create work commit rollback).1.count SessionCall.rollback = 1 ∧
      (rollback = Except.ok () →
        (Processor.onTrigger create work commit rollback).2 = Except.error e)) := by
  refine ⟨?_, ?_, ?_⟩
  · unfold Processor.onTrigger
    cases create <;> cases work <;> cases commit <;> cases rollback <;> simp
  · intro hc hw
    subst hc hw
    refine ⟨?_, ?_, ?_⟩
    · unfold Processor.onTrigger
      cases commit <;> cases rollback <;> simp
    · intro hcm
      subst hcm
      simp [Processor.onTrigger]
    · intro e hcm
      subst hcm
      refine ⟨?_, ?_⟩
      · unfold Processor.onTrigger
        cases rollback <;> simp
      · intro hr
        subst hr
        simp [Processor.onTrigger]
  · intro hc e hw
    subst hc hw
    refine ⟨?_, ?_, ?_⟩
    · unfold Processor.onTrigger
      cases rollback <;> simp
    · unfold Processor.onTrigger
      cases rollback <;> simp
    · intro hr
      subst hr
      simp [Processor.onTrigger]

theorem onTrigger_session_witness :
    (Processor.onTrigger (Except.ok ()) (Except.error "work failed") (Except.ok ())
        (Except.ok ())).1.count SessionCall.commit = 0 ∧
      (Processor.onTrigger (Except.ok ()) (Except.error "work failed") (Except.ok ())
        (Except.ok ())).1.count SessionCall.rollback = 1 ∧
      ((Except.ok () : Except String Unit) = Except.ok () →
        (Processor.onTrigger (Except.ok ()) (Except.error "work failed") (Except.ok ())
          (Except.ok ())).2 = Except.error "work failed") :=
  (onTrigger_session (Except.ok ()) (Except.error "work failed") (Except.ok ())
    (Except.ok ())).2.2 rfl "work failed" rfl

/-- C7: agent and processor running, a schedule and a next-fire time `T` stored
for the processor, and `now < T`: `run` returns `RetryIn(T - now)` in whole
milliseconds, does not call the trigger step and leaves the agent (stored
next-fire times and schedules) and the processor as they were. -/
theorem run_before_fire (cron_to_next : String → Int → Int)
    (onTrigger : Processor → Bool × Processor) (agent : CronDrivenSchedulingAgent)
    (processor : Processor) (from_ t1 t2 : Int) (sched : String) (T : Int)
    (hagent : agent.running = true) (hproc : processor.isRunning = true)
    (hsched : idFind processor.uuid agent.schedules = some sched)
    (hlast : idFind processor.uuid agent.last_exec = some T) (hlt : from_ < T) :
    agent.run cron_to_next onTrigger processor from_ t1 t2 =
      { info := TaskRescheduleInfo.RetryIn (toMilliseconds (T - from_))
        agent := agent, processor := processor, triggered := 0 } := by
  have hnot : ¬ from_ ≥ T := not_le.2 hlt
  cases agent with
  | mk running schedules last_exec bored =>
    simp only at hagent hsched hlast
    subst hagent
    unfold CronDrivenSchedulingAgent.run
    simp only [hproc, hsched, hlast, Bool.and_self, if_true, Option.getD_some, hnot, if_false]

theorem run_before_fire_witness :
    cronAgent.run everySecond idleTrigger cronProcessor 0 0 0 =
      { info := TaskRescheduleInfo.RetryIn (toMilliseconds (200000000 - 0))
        agent := cronAgent, processor := cronProcessor, triggered := 0 } :=
  run_before_fire everySecond idleTrigger cronAgent cronProcessor 0 0 0 "*/1 * * * * ?"
    200000000 rfl rfl rfl rfl (by decide)

/-- C8: agent and processor running, a schedule and a next-fire time `T` stored
for the processor, and `now >= T`: after `run` the stored next-fire time is the
next fire time of the cron expression computed from `now`, the schedules are
unchanged, and when that time is later than `now` the trigger step is called
exactly once. -/
theorem run_at_fire (cron_to_next : String → Int → Int)
    (onTrigger : Processor → Bool × Processor) (agent : CronDrivenSchedulingAgent)
    (processor : Processor) (from_ t1 t2 : Int) (sched : String) (T : Int)
    (hagent : agent.running = true) (hproc : processor.isRunning = true)
    (hsched : idFind processor.uuid agent.schedules = some sched)
    (hlast : idFind processor.uuid agent.last_exec = some T) (hge : from_ ≥ T) :
    idFind processor.uuid
        (agent.run cron_to_next onTrigger processor from_ t1 t2).agent.last_exec =
      some (cron_to_next sched from_) ∧
    (agent.run cron_to_next onTrigger processor from_ t1 t2).agent.schedules =
      agent.schedules ∧
    (cron_to_next sched from_ > from_ →
      (agent.run cron_to_next onTrigger processor from_ t1 t2).triggered = 1) := by
  unfold CronDrivenSchedulingAgent.run
  simp only [hagent, hproc, hsched, hlast, Bool.and_self, if_true, Option.getD_some, hge]
  unfold runTrigger
  by_cases hfire : cron_to_next sched from_ > from_
  · simp only [hfire, if_true]
    split_ifs <;> simp [idFind_idAssign]
  · simp [hfire, idFind_idAssign]

theorem run_at_fire_witness :
    idFind cronProcessor.uuid
        (cronAgent.run everySecond idleTrigger cronProcessor 200000000 200000000
          200000000).agent.last_exec =
      some (everySecond "*/1 * * * * ?" 200000000) ∧
    (cronAgent.run everySecond idleTrigger cronProcessor 200000000 200000000
        200000000).agent.schedules = cronAgent.schedules ∧
    (everySecond "*/1 * * * * ?" 200000000 > 200000000 →
      (cronAgent.run everySecond idleTrigger cronProcessor 200000000 200000000
        200000000).triggered = 1) :=
  run_at_fire everySecond idleTrigger cronAgent cronProcessor 200000000 200000000 200000000
    "*/1 * * * * ?" 200000000 rfl rfl rfl rfl (by decide)

/-- C9, the counterexample: the stored next-fire time lies 200 ms after `now`;
`run` returns `RetryIn(200 ms)`, which is 600 ms away from 800 ms. -/
theorem run_early_not_800 :
    (cronAgent.run everySecond idleTrigger cronProcessor 0 0 0).info =
        TaskRescheduleInfo.RetryIn 200 ∧
      ∀ d, (cronAgent.run everySecond idleTrigger cronProcessor 0 0 0).info =
        TaskRescheduleInfo.RetryIn d → |d - 800| = 600 := by
  have h : (cronAgent.run everySecond idleTrigger cronProcessor 0 0 0).info =
      TaskRescheduleInfo.RetryIn 200 := by decide
  refine ⟨h, fun d hd => ?_⟩
  rw [h] at hd
  cases hd
  decide

/-- C9, amended: agent and processor running, a schedule stored and the stored
next-fire time 200 ms after `now`: `run` calls no trigger step, leaves the
next-fire time (the whole agent) unchanged and returns `RetryIn(200 ms)`, the
time that remains until the next-fire time. -/
theorem run_early_200 (cron_to_next : String → Int → Int)
    (onTrigger : Processor → Bool × Processor) (agent : CronDrivenSchedulingAgent)
    (processor : Processor) (from_ t1 t2 : Int) (sched : String)
    (hagent : agent.running = true) (hproc : processor.isRunning = true)
    (hsched : idFind processor.uuid agent.schedules = some sched)
    (hlast : idFind processor.uuid agent.last_exec = some (from_ + 200 * 1000000)) :
    agent.run cron_to_next onTrigger processor from_ t1 t2 =
      { info := TaskRescheduleInfo.RetryIn 200
        agent := agent, processor := processor, triggered := 0 } := by
  have hnot : ¬ from_ ≥ from_ + 200 * 1000000 := by omega
  have hms : toMilliseconds (from_ + 200 * 1000000 - from_) = 200 := by
    have : from_ + 200 * 1000000 - from_ = 200000000 := by omega
    rw [this]
    decide
  cases agent with
  | mk running schedules last_exec bored =>
    simp only at hagent hsched hlast
    subst hagent
    unfold CronDrivenSchedulingAgent.run
    simp only [hproc, hsched, hlast, Bool.and_self, if_true, Option.getD_some, hnot, if_false,
      hms]

theorem run_early_200_witness :
    cronAgent.run everySecond idleTrigger cronProcessor 0 0 0 =
      { info := TaskRescheduleInfo.RetryIn 200
        agent := cronAgent, processor := cronProcessor, triggered := 0 } :=
  run_early_200 everySecond idleTrigger cronAgent cronProcessor 0 0 0 "*/1 * * * * ?"
    rfl rfl rfl rfl

/-- C10: agent and processor running and the trigger step called by `run`: if
the processor is yielded when the step returns (`isYield()` is true), `run`
returns `RetryIn(getYieldTime())`, whatever the time to the next cron fire and
the idle back-off are.  When the processor called `yield(5000ms)` at time `t0`
during the step and `getYieldTime` reads the clock at `t2`, less than 5000 ms
later, that duration is at most 5000 ms and less than a millisecond below
5000 ms minus the time elapsed since `t0`. -/
theorem run_honors_yield (cron_to_next : String → Int → Int)
    (onTrigger : Processor → Bool × Processor) (agent : CronDrivenSchedulingAgent)
    (processor : Processor) (from_ t1 t2 : Int)
    (htrig : (agent.run cron_to_next onTrigger processor from_ t1 t2).triggered = 1)
    (hyield : (onTrigger processor).2.isYield t1 = true) :
    (agent.run cron_to_next onTrigger processor from_ t1 t2).info =
        TaskRescheduleInfo.RetryIn ((onTrigger processor).2.getYieldTime t2) ∧
      ∀ (p : Processor) (t0 : Int), (onTrigger processor).2 = p.yield t0 5000 → t0 ≤ t2 →
        t2 - t0 < 5000 * 1000000 →
        (onTrigger processor).2.getYieldTime t2 ≤ 5000 ∧
        5000 * 1000000 - (t2 - t0) - 1000000 <
          (onTrigger processor).2.getYieldTime t2 * 1000000 := by
  constructor
  · have key : ∀ (a : CronDrivenSchedulingAgent) (result : Int),
        (runTrigger onTrigger a processor from_ result t1 t2).triggered = 1 →
        (runTrigger onTrigger a processor from_ result t1 t2).info =
          TaskRescheduleInfo.RetryIn ((onTrigger processor).2.getYieldTime t2) := by
      intro a result h
      unfold runTrigger at h ⊢
      by_cases hfire : result > from_
      · simp only [hfire, if_true, hyield]
      · simp [hfire] at h
    unfold CronDrivenSchedulingAgent.run at htrig ⊢
    by_cases hrun : (agent.running && processor.isRunning) = true
    · simp only [hrun, if_true] at htrig ⊢
      cases hs : idFind processor.uuid agent.schedules with
      | none =>
        simp only [hs] at htrig ⊢
        exact key _ _ htrig
      | some sched =>
        simp only [hs] at htrig ⊢
        by_cases hge : from_ ≥ (idFind processor.uuid agent.last_exec).getD 0
        · simp only [hge, if_true] at htrig ⊢
          exact key _ _ htrig
        · simp [hge] at htrig
    · simp [hrun] at htrig
  · intro p t0 hp h0 hlt
    rw [hp]
    unfold Processor.getYieldTime Processor.yield toMilliseconds
    simp only
    have hpos : t0 + 5000 * 1000000 > t2 := by omega
    simp only [hpos, if_true]
    rw [Int.tdiv_eq_ediv (by omega) (by decide)]
    omega

theorem run_honors_yield_witness :
    (cronAgent.run everySecond yieldingTrigger cronProcessor 200000000 300000000
        300000000).info =
        TaskRescheduleInfo.RetryIn ((yieldingTrigger cronProcessor).2.getYieldTime 300000000) ∧
      ∀ (p : Processor) (t0 : Int), (yieldingTrigger cronProcessor).2 = p.yield t0 5000 →
        t0 ≤ 300000000 → 300000000 - t0 < 5000 * 1000000 →
        (yieldingTrigger cronProcessor).2.getYieldTime 300000000 ≤ 5000 ∧
        5000 * 1000000 - (300000000 - t0) - 1000000 <
          (yieldingTrigger cronProcessor).2.getYieldTime 300000000 * 1000000 :=
  run_honors_yield everySecond yieldingTrigger cronAgent cronProcessor 200000000 300000000
    300000000 (by decide) (by decide)

/-! ### The cron-driven agent: yield and `Done` -/

/-- C11, the counterexample: next-fire time stored at 200 ms, `run` called at
200 ms; the next fire time is 1000 ms, 800 ms ahead, and the processor calls
`yield(10ms)` at 300 ms during the trigger step.  `run` calls the trigger step
and returns `RetryIn(10 ms)`, less than the 800 ms that remain. -/
theorem run_yield_shortens :
    (cronAgent.run everySecond (fun p => (false, p.yield 300000000 10)) cronProcessor
        200000000 300000000 300000000).triggered = 1 ∧
      (cronAgent.run everySecond (fun p => (false, p.yield 300000000 10)) cronProcessor
        200000000 300000000 300000000).info = TaskRescheduleInfo.RetryIn 10 ∧
      idFind 10 (cronAgent.run everySecond (fun p => (false, p.yield 300000000 10))
        cronProcessor 200000000 300000000 300000000).agent.last_exec = some 1000000000 ∧
      ¬ ((10 : Int) ≥ toMilliseconds (1000000000 - 200000000)) := by
  decide

theorem runTrigger_agent (onTrigger : Processor → Bool × Processor)
    (agent : CronDrivenSchedulingAgent) (processor : Processor) (from_ result t1 t2 : Int) :
    (runTrigger onTrigger agent processor from_ result t1 t2).agent = agent := by
  simp only [runTrigger]
  split_ifs <;> rfl

theorem runTrigger_triggered (onTrigger : Processor → Bool × Processor)
    (agent : CronDrivenSchedulingAgent) (processor : Processor) (from_ result t1 t2 : Int) :
    (runTrigger onTrigger agent processor from_ result t1 t2).triggered = 1 ↔ result > from_ := by
  simp only [runTrigger]
  split_ifs <;> simp_all

theorem runTrigger_info (onTrigger : Processor → Bool × Processor)
    (agent : CronDrivenSchedulingAgent) (processor : Processor) (from_ result t1 t2 : Int) :
    ∃ d, (runTrigger onTrigger agent processor from_ result t1 t2).info =
      TaskRescheduleInfo.RetryIn d := by
  simp only [runTrigger]
  split_ifs <;> exact ⟨_, rfl⟩

/-- A call of `run` that calls the trigger step: the agent it leaves does not
depend on the step, holds a schedule and holds a next-fire time later than `now`. -/
theorem run_triggered (cron_to_next : String → Int → Int)
    (onTrigger : Processor → Bool × Processor) (agent : CronDrivenSchedulingAgent)
    (processor : Processor) (from_ t1 t2 : Int)
    (htrig : (agent.run cron_to_next onTrigger processor from_ t1 t2).triggered = 1) :
    ∃ (next : Int) (a : CronDrivenSchedulingAgent), from_ < next ∧ a.running = true ∧
      a.bored_yield_duration = agent.bored_yield_duration ∧
      idFind processor.uuid a.last_exec = some next ∧
      (idFind processor.uuid a.schedules).isSome = true ∧
      ∀ onTrigger', agent.run cron_to_next onTrigger' processor from_ t1 t2 =
        runTrigger onTrigger' a processor from_ next t1 t2 := by
  unfold CronDrivenSchedulingAgent.run at htrig
  by_cases hrun : (agent.running && processor.isRunning) = true
  · have hr : agent.running = true := by
      simp only [Bool.and_eq_true] at hrun
      exact hrun.1
    simp only [hrun, if_true] at htrig
    cases hs : idFind processor.uuid agent.schedules with
    | none =>
      simp only [hs] at htrig
      refine ⟨cron_to_next processor.cron_period from_,
        { agent with
          last_exec := idAssign processor.uuid (cron_to_next processor.cron_period from_)
            agent.last_exec
          schedules := idAssign processor.uuid processor.cron_period agent.schedules },
        (runTrigger_triggered _ _ _ _ _ _ _).1 htrig, hr, rfl, idFind_idAssign _ _ _,
        by simp [idFind_idAssign], fun onTrigger' => ?_⟩
      unfold CronDrivenSchedulingAgent.run
      simp only [hrun, if_true, hs]
    | some sched =>
      simp only [hs] at htrig
      by_cases hge : from_ ≥ (idFind processor.uuid agent.last_exec).getD 0
      · simp only [hge, if_true] at htrig
        refine ⟨cron_to_next sched from_,
          { agent with
            last_exec := idAssign processor.uuid (cron_to_next sched from_)
              (match idFind processor.uuid agent.last_exec with
                | some _ => agent.last_exec
                | none => idAssign processor.uuid 0 agent.last_exec) },
          (runTrigger_triggered _ _ _ _ _ _ _).1 htrig, hr, rfl,
          idFind_idAssign _ _ _, by simp [hs], fun onTrigger' => ?_⟩
        unfold CronDrivenSchedulingAgent.run
        simp only [hrun, if_true, hs, hge]
      · simp [hge] at htrig
  · simp [hrun] at htrig

/-- C11, amended: when `run` has called the trigger step, the next-fire time it
stored is later than `now` and, like the whole agent, is the same whatever the
processor did during the step; a later call of `run` before that time calls no
trigger step, so a yield never advances the next invocation.  The returned
duration is `getYieldTime()` when the processor is yielded, which may be less
than the time to the next-fire time, and is that time in whole milliseconds
when the processor is not yielded and no idle back-off applies. -/
theorem run_yield_keeps_fire_time (cron_to_next : String → Int → Int)
    (onTrigger : Processor → Bool × Processor) (agent : CronDrivenSchedulingAgent)
    (processor : Processor) (from_ t1 t2 : Int)
    (htrig : (agent.run cron_to_next onTrigger processor from_ t1 t2).triggered = 1) :
    ∃ next : Int, from_ < next ∧
      idFind processor.uuid
        (agent.run cron_to_next onTrigger processor from_ t1 t2).agent.last_exec = some next ∧
      (∀ onTrigger', (agent.run cron_to_next onTrigger' processor from_ t1 t2).agent =
        (agent.run cron_to_next onTrigger processor from_ t1 t2).agent) ∧
      ((onTrigger processor).2.isYield t1 = true →
        (agent.run cron_to_next onTrigger processor from_ t1 t2).info =
          TaskRescheduleInfo.RetryIn ((onTrigger processor).2.getYieldTime t2)) ∧
      ((onTrigger processor).2.isYield t1 = false →
        ((onTrigger processor).1 = false ∨ agent.bored_yield_duration ≤ 0) →
        (agent.run cron_to_next onTrigger processor from_ t1 t2).info =
          TaskRescheduleInfo.RetryIn (toMilliseconds (next - from_))) ∧
      ∀ (onTrigger' : Processor → Bool × Processor) (processor' : Processor)
        (from2 t1' t2' : Int), processor'.uuid = processor.uuid → from2 < next →
        ((agent.run cron_to_next onTrigger processor from_ t1 t2).agent.run cron_to_next
          onTrigger' processor' from2 t1' t2').triggered = 0 := by
  obtain ⟨next, a, hlt, hr, hb, hl, hs, hall⟩ :=
    run_triggered cron_to_next onTrigger agent processor from_ t1 t2 htrig
  have hfire : next > from_ := hlt
  refine ⟨next, hlt, ?_, fun onTrigger' => ?_, fun hy => ?_, fun hy hb' => ?_,
    fun onTrigger' processor' from2 t1' t2' hu hlt2 => ?_⟩
  · rw [hall onTrigger, runTrigger_agent]
    exact hl
  · rw [hall onTrigger, hall onTrigger', runTrigger_agent, runTrigger_agent]
  · rw [hall onTrigger]
    unfold runTrigger
    simp only [hfire, if_true, hy]
  · rw [hall onTrigger]
    unfold runTrigger
    have hnb : ((onTrigger processor).1 && decide (a.bored_yield_duration > 0)) = false := by
      rcases hb' with h | h
      · simp [h]
      · have : ¬ a.bored_yield_duration > 0 := by rw [hb]; exact not_lt.2 h
        simp [this]
    simp only [hfire, if_true, hy, hnb, Bool.false_eq_true, if_false]
  · rw [hall onTrigger, runTrigger_agent]
    unfold CronDrivenSchedulingAgent.run
    by_cases hrun : (a.running && processor'.isRunning) = true
    · obtain ⟨sched, hsched⟩ := Option.isSome_iff_exists.1 hs
      have hnot : ¬ from2 ≥ next := not_le.2 hlt2
      simp only [hrun, if_true, hu, hsched, hl, Option.getD_some, hnot, if_false]
    · simp [hrun]

theorem run_yield_keeps_fire_time_witness :
    ∃ next : Int, (200000000 : Int) < next ∧
      idFind cronProcessor.uuid
        (cronAgent.run everySecond yieldingTrigger cronProcessor 200000000 300000000
          300000000).agent.last_exec = some next ∧
      (∀ onTrigger', (cronAgent.run everySecond onTrigger' cronProcessor 200000000 300000000
          300000000).agent =
        (cronAgent.run everySecond yieldingTrigger cronProcessor 200000000 300000000
          300000000).agent) ∧
      ((yieldingTrigger cronProcessor).2.isYield 300000000 = true →
        (cronAgent.run everySecond yieldingTrigger cronProcessor 200000000 300000000
          300000000).info =
          TaskRescheduleInfo.RetryIn ((yieldingTrigger cronProcessor).2.getYieldTime 300000000)) ∧
      ((yieldingTrigger cronProcessor).2.isYield 300000000 = false →
        ((yieldingTrigger cronProcessor).1 = false ∨ cronAgent.bored_yield_duration ≤ 0) →
        (cronAgent.run everySecond yieldingTrigger cronProcessor 200000000 300000000
          300000000).info = TaskRescheduleInfo.RetryIn (toMilliseconds (next - 200000000))) ∧
      ∀ (onTrigger' : Processor → Bool × Processor) (processor' : Processor)
        (from2 t1' t2' : Int), processor'.uuid = cronProcessor.uuid → from2 < next →
        ((cronAgent.run everySecond yieldingTrigger cronProcessor 200000000 300000000
          300000000).agent.run everySecond onTrigger' processor' from2 t1' t2').triggered = 0 :=
  run_yield_keeps_fire_time everySecond yieldingTrigger cronAgent cronProcessor 200000000
    300000000 300000000 (by decide)

/-- C12, the counterexample: the agent is running and the scheduling state of
the processor is `RUNNING`, but it has no active task; `run` returns `Done`. -/
theorem run_done_while_running :
    cronAgent.running = true ∧
      Processor.state { uuid := 10, state := ScheduledState.RUNNING, active_tasks := 0 } =
        ScheduledState.RUNNING ∧
      (cronAgent.run everySecond idleTrigger
        { uuid := 10, state := ScheduledState.RUNNING, active_tasks := 0 } 0 0 0).info =
        TaskRescheduleInfo.Done := by
  decide

/-- C12, amended: `run` returns `Done` exactly when the agent is stopped or the
processor is not running in the sense of `isRunning()`, that is its scheduling
state is not `RUNNING` or it has no active task; in that case the trigger step
is not called and the agent, with its schedules and next-fire times, and the
processor are left as they were.  When the agent is running, the scheduling
state is `RUNNING` and `active_tasks > 0`, `run` returns a `RetryIn`. -/
theorem run_done_iff (cron_to_next : String → Int → Int)
    (onTrigger : Processor → Bool × Processor) (agent : CronDrivenSchedulingAgent)
    (processor : Processor) (from_ t1 t2 : Int) :
    ((agent.run cron_to_next onTrigger processor from_ t1 t2).info = TaskRescheduleInfo.Done ↔
      (agent.running = false ∨ processor.state ≠ ScheduledState.RUNNING ∨
        processor.active_tasks = 0)) ∧
    ((agent.run cron_to_next onTrigger processor from_ t1 t2).info = TaskRescheduleInfo.Done →
      agent.run cron_to_next onTrigger processor from_ t1 t2 =
        { info := TaskRescheduleInfo.Done, agent := agent, processor := processor,
          triggered := 0 }) ∧
    (agent.running = true → processor.state = ScheduledState.RUNNING →
      processor.active_tasks > 0 →
      ∃ d, (agent.run cron_to_next onTrigger processor from_ t1 t2).info =
        TaskRescheduleInfo.RetryIn d) := by
  have hretry : (agent.running && processor.isRunning) = true →
      ∃ d, (agent.run cron_to_next onTrigger processor from_ t1 t2).info =
        TaskRescheduleInfo.RetryIn d := by
    intro hrun
    unfold CronDrivenSchedulingAgent.run
    simp only [hrun, if_true]
    cases hs : idFind processor.uuid agent.schedules with
    | none => exact runTrigger_info _ _ _ _ _ _ _
    | some sched =>
      simp only
      by_cases hge : from_ ≥ (idFind processor.uuid agent.last_exec).getD 0
      · simp only [hge, if_true]
        exact runTrigger_info _ _ _ _ _ _ _
      · simp only [hge, if_false]
        exact ⟨_, rfl⟩
  have hstop : ¬ (agent.running && processor.isRunning) = true →
      agent.run cron_to_next onTrigger processor from_ t1 t2 =
        { info := TaskRescheduleInfo.Done, agent := agent, processor := processor,
          triggered := 0 } := by
    intro hrun
    unfold CronDrivenSchedulingAgent.run
    simp only [hrun, if_false, Bool.false_eq_true]
  have hcond : (agent.running && processor.isRunning) = true ↔
      ¬ (agent.running = false ∨ processor.state ≠ ScheduledState.RUNNING ∨
        processor.active_tasks = 0) := by
    unfold Processor.isRunning
    simp only [Bool.and_eq_true, decide_eq_true_eq, not_or, Bool.not_eq_false, ne_eq, not_not]
    constructor
    · rintro ⟨h1, h2, h3⟩
      exact ⟨h1, h2, by omega⟩
    · rintro ⟨h1, h2, h3⟩
      exact ⟨h1, h2, by omega⟩
  refine ⟨⟨fun hdone => ?_, fun h => ?_⟩, fun hdone => ?_, fun h1 h2 h3 => ?_⟩
  · by_contra hcon
    obtain ⟨d, hd⟩ := hretry (hcond.2 hcon)
    rw [hd] at hdone
    cases hdone
  · rw [hstop (fun hrun => hcond.1 hrun h)]
  · apply hstop
    intro hrun
    obtain ⟨d, hd⟩ := hretry hrun
    rw [hd] at hdone
    cases hdone
  · apply hretry
    apply hcond.2
    rintro (h | h | h)
    · rw [h1] at h; cases h
    · exact h h2
    · omega

/-! ### Input requirement, concurrency setting and yield -/

/-- C15: `validateAnnotations` throws iff the input requirement is
`INPUT_REQUIRED` and the processor has no incoming connection, or it is
`INPUT_FORBIDDEN` and the processor has at least one; what it throws is a
`PROCESS_SCHEDULE_EXCEPTION`; with `INPUT_ALLOWED` it never throws. -/
theorem validateAnnotations_throws (p : Processor) (requirement : Input) :
    ((∃ e, p.validateAnnotations requirement = Except.error e) ↔
      (requirement = Input.INPUT_REQUIRED ∧ p.incoming_connections = []) ∨
      (requirement = Input.INPUT_FORBIDDEN ∧ p.incoming_connections ≠ [])) ∧
    (∀ e, p.validateAnnotations requirement = Except.error e →
      e.type = ExceptionType.PROCESS_SCHEDULE_EXCEPTION) ∧
    p.validateAnnotations Input.INPUT_ALLOWED = Except.ok () := by
  refine ⟨?_, ?_, rfl⟩
  · cases requirement <;> cases h : p.incoming_connections <;>
      simp [Processor.validateAnnotations, Processor.hasIncomingConnections, h]
  · intro e he
    cases requirement <;> cases h : p.incoming_connections <;>
      simp [Processor.validateAnnotations, Processor.hasIncomingConnections, h] at he <;>
      rw [← he]

/-- C16: on a single-threaded processor the value stored by
`setMaxConcurrentTasks(n)` never exceeds 1, every `n > 1` being replaced by 1;
on a processor that is not single-threaded the stored value is `n`. -/
theorem setMaxConcurrentTasks_stored (p : Processor) (n : Nat) :
    (p.setMaxConcurrentTasks true n).max_concurrent_tasks ≤ 1 ∧
    (n > 1 → (p.setMaxConcurrentTasks true n).max_concurrent_tasks = 1) ∧
    (p.setMaxConcurrentTasks false n).max_concurrent_tasks = n := by
  unfold Processor.setMaxConcurrentTasks
  by_cases h : n > 1
  · simp [h]
  · simp only [h, decide_False, Bool.and_false, Bool.false_eq_true, if_false, false_implies,
      true_and, and_true]
    omega

/-- C17, the counterexample: `setMaxConcurrentTasks(0)` stores 0, on a
single-threaded processor and on any other. -/
theorem setMaxConcurrentTasks_zero :
    (Processor.setMaxConcurrentTasks { uuid := 10 } true 0).max_concurrent_tasks = 0 ∧
      (Processor.setMaxConcurrentTasks { uuid := 10 } false 0).max_concurrent_tasks = 0 := by
  decide

/-- C17, amended: after `setMaxConcurrentTasks(n)` with `n` at least 1 (so for
every 8-bit `n` but 0) the stored `max_concurrent_tasks` is at least 1, on
single-threaded processors and on others; `setMaxConcurrentTasks(0)` stores 0. -/
theorem setMaxConcurrentTasks_positive (p : Processor) (isSingleThreaded : Bool) (n : Nat)
    (hn : 1 ≤ n) :
    1 ≤ (p.setMaxConcurrentTasks isSingleThreaded n).max_concurrent_tasks ∧
    (p.setMaxConcurrentTasks isSingleThreaded 0).max_concurrent_tasks = 0 := by
  unfold Processor.setMaxConcurrentTasks
  constructor
  · split_ifs
    · exact le_refl 1
    · exact hn
  · cases isSingleThreaded <;> simp

theorem setMaxConcurrentTasks_positive_witness :
    1 ≤ (Processor.setMaxConcurrentTasks { uuid := 10 } true 3).max_concurrent_tasks ∧
      (Processor.setMaxConcurrentTasks { uuid := 10 } true 0).max_concurrent_tasks = 0 :=
  setMaxConcurrentTasks_positive { uuid := 10 } true 3 (by decide)

/-- C18, the counterexample: at the instant of the yield expiration `isYield()`
is true although `now < yield_until` is false, and the remaining time that
`getYieldTime()` reports is 0. -/
theorem isYield_at_expiration :
    Processor.isYield { uuid := 10, yield_expiration := 5000000 } 5000000 = true ∧
      ¬ ((5000000 : Int) < Processor.yield_expiration { uuid := 10, yield_expiration := 5000000 }) ∧
      Processor.getYieldTime { uuid := 10, yield_expiration := 5000000 } 5000000 = 0 := by
  decide

/-- C18, amended: `isYield()` evaluated at time `now` is true exactly when
`now <= yield_until`: the processor counts as yielded up to and including the
instant of the yield expiration and no longer after it.  The remaining time of
`getYieldTime()` is positive only strictly before the expiration. -/
theorem isYield_iff (p : Processor) (now : Int) :
    (p.isYield now = true ↔ now ≤ p.yield_expiration) ∧
    (0 < p.getYieldTime now → now < p.yield_expiration) := by
  unfold Processor.isYield Processor.getYieldTime
  refine ⟨by simp, fun h => ?_⟩
  by_cases hlt : p.yield_expiration > now
  · exact hlt
  · simp [hlt] at h

/-! ### Termination of `updateReachability`, as claimed -/

theorem updateReachability_bounded (B : Nat) (fuel : Nat) :
    ∀ (g : Graph) (self : Nat) (force : Bool) (g' : Graph),
      updateReachability fuel g self force = some g' → g.bounded B → g'.bounded B := by
  induction fuel with
  | zero => intro g self force g' h; simp [updateReachability] at h
  | succ f ih =>
    intro g self force g' h hb
    rw [updateReachability_succ] at h
    cases hp : g.procs[self]? with
    | none => simp only [hp, Option.some.injEq] at h; exact h ▸ hb
    | some p =>
      simp only [hp] at h
      have hb1 := reachOutgoing_bounded (g := g) self force hb
      cases hch : (reachOutgoing g self force).2 with
      | false =>
        simp only [hch, Bool.false_eq_true, if_false, Option.some.injEq] at h
        exact h ▸ hb1
      | true =>
        simp only [hch, if_true] at h
        apply foldlM_inv (Graph.bounded B) (propagate f) _ _ _ _ h hb1
        intro a b a' hab ha
        unfold propagate at hab
        cases hsrc : sourceOf a b with
        | none => simp only [hsrc, Option.some.injEq] at hab; exact hab ▸ ha
        | some s =>
          simp only [hsrc] at hab
          exact ih a s false a' hab ha

theorem reachOutgoing_noop {g : Graph} {self : Nat} {force : Bool}
    (h : (reachOutgoing g self force).2 = false) : (reachOutgoing g self force).1 = g := by
  unfold reachOutgoing at h ⊢
  cases hp : g.procs[self]? with
  | none => rfl
  | some p =>
    simp only [hp] at h ⊢
    exact (reachFold_noop self _ (g, force) h).1

/-- C19: on every graph (finite, with or without cycles and self-loops)
`updateReachability` returns when its recursion may go `Graph.fuel` deep.  The
graph it returns has the same topology and reachability sets that contain the
old ones; stored processors stay below every bound that held before, so sets of
processors of the graph stay sets of processors of the graph.  When the first
loop changes nothing and the call is not forced, the call returns the graph as
it is without any recursive call (fuel 1 is enough); a call that is not forced
goes on to the sources only when a set strictly grew. -/
theorem updateReachability_terminates (g : Graph) (fuel self : Nat) (force : Bool)
    (hf : g.fuel ≤ fuel) :
    ∃ g', updateReachability fuel g self force = some g' ∧ g.le g' ∧
      (∀ B, g.bounded B → g'.bounded B) ∧
      ((reachOutgoing g self force).2 = false →
        g' = g ∧ updateReachability 1 g self force = some g) ∧
      ((reachOutgoing g self false).2 = true →
        ∃ c x, x ∈ (reachOutgoing g self false).1.reach self c ∧ x ∉ g.reach self c) := by
  obtain ⟨g', h1, h2, -⟩ := updateReachability_total_fuel g fuel self force hf
  refine ⟨g', h1, h2, fun B hb => updateReachability_bounded B fuel g self force g' h1 hb,
    fun hno => ?_, fun hch => ?_⟩
  · have hstop : ∀ f, updateReachability (f + 1) g self force = some g := by
      intro f
      rw [updateReachability_succ]
      cases hp : g.procs[self]? with
      | none => rfl
      | some p =>
        simp only [hno, Bool.false_eq_true, if_false]
        rw [reachOutgoing_noop hno]
    have hfuel : fuel = (fuel - 1) + 1 := by
      unfold Graph.fuel at hf
      omega
    rw [hfuel, hstop] at h1
    exact ⟨(Option.some.inj h1).symm, hstop 0⟩
  · obtain ⟨-, c, x, -, hx1, hx2⟩ := reachOutgoing_grow hch
    exact ⟨c, x, hx1, hx2⟩

theorem updateReachability_terminates_witness :
    ∃ g', updateReachability 10 twoProcessors 0 true = some g' ∧ twoProcessors.le g' ∧
      (∀ B, twoProcessors.bounded B → g'.bounded B) ∧
      ((reachOutgoing twoProcessors 0 true).2 = false →
        g' = twoProcessors ∧ updateReachability 1 twoProcessors 0 true = some twoProcessors) ∧
      ((reachOutgoing twoProcessors 0 false).2 = true →
        ∃ c x, x ∈ (reachOutgoing twoProcessors 0 false).1.reach 0 c ∧
          x ∉ twoProcessors.reach 0 c) :=
  updateReachability_terminates twoProcessors 10 0 true (by decide)

/-! ### `pickIncomingConnection` -/

theorem add_mod_ne_self {n i t : Nat} (hi : i < n) (ht0 : 0 < t) (ht : t < n) :
    (i + t) % n ≠ i := by
  by_cases h : i + t < n
  · rw [Nat.mod_eq_of_lt h]; omega
  · have h1 : (i + t) % n = i + t - n := by
      rw [Nat.mod_eq_sub_mod (by omega), Nat.mod_eq_of_lt (by omega)]
    rw [h1]; omega

theorem succ_mod_eq {n j : Nat} (hj : j < n) :
    (if j + 1 ≥ n then 0 else j + 1) = (j + 1) % n := by
  by_cases h : j + 1 ≥ n
  · have : j + 1 = n := by omega
    simp [h, this]
  · simp only [h, if_false]
    rw [Nat.mod_eq_of_lt (by omega)]

/-- The round-robin step on a processor with incoming connections whose cursor
stands at position `j`. -/
theorem getNext_at (p : Processor) (j : Nat) (hj : j < p.incoming_connections.length)
    (hc : p.incoming_connections_Iter = j) :
    getNextIncomingConnectionImpl p =
      (p.incoming_connections[j]?,
        { p with incoming_connections_Iter := (j + 1) % p.incoming_connections.length }) := by
  unfold getNextIncomingConnectionImpl
  have hne : p.incoming_connections.isEmpty = false := by
    cases h : p.incoming_connections with
    | nil => rw [h] at hj; simp at hj
    | cons a l => rfl
  have hnot : ¬ p.incoming_connections_Iter ≥ p.incoming_connections.length := by omega
  simp only [hne, Bool.false_eq_true, if_false, hnot]
  rw [hc, succ_mod_eq hj]

/-- The round-robin step on a processor with incoming connections whose cursor
stands at `end()`. -/
theorem getNext_end (p : Processor) (hn : 0 < p.incoming_connections.length)
    (hc : p.incoming_connections_Iter ≥ p.incoming_connections.length) :
    getNextIncomingConnectionImpl p =
      (p.incoming_connections[0]?,
        { p with incoming_connections_Iter := (0 + 1) % p.incoming_connections.length }) := by
  unfold getNextIncomingConnectionImpl
  have hne : p.incoming_connections.isEmpty = false := by
    cases h : p.incoming_connections with
    | nil => rw [h] at hn; simp at hn
    | cons a l => rfl
  simp only [hne, Bool.false_eq_true, if_false, hc, if_true]
  rw [succ_mod_eq hn]

/-- The loop finds the first preferred connection, `k` places after the cursor. -/
theorem pickLoop_found (g : Graph) (b : Nat) (l : List Nat) (hn : 0 < l.length) (k : Nat) :
    ∀ (fuel j : Nat) (p : Processor), p.incoming_connections = l →
      p.incoming_connections_Iter = j → j < l.length → k < fuel →
      (∀ t, t < k → preferredConnection g l[(j + t) % l.length]? = false) →
      preferredConnection g l[(j + k) % l.length]? = true →
      (∀ t, 0 < t → t ≤ k → (j + t) % l.length ≠ b) →
      pickLoop g b fuel p =
        some (l[(j + k) % l.length]?,
          { p with incoming_connections_Iter := (j + k + 1) % l.length }) := by
  induction k with
  | zero =>
    intro fuel j p hl hc hj hfuel _ hpref _
    subst hl
    obtain ⟨f, rfl⟩ : ∃ f, fuel = f + 1 := ⟨fuel - 1, by omega⟩
    have hstep := getNext_at p j hj hc
    simp only [Nat.add_zero, Nat.mod_eq_of_lt hj] at hpref ⊢
    unfold pickLoop
    rw [hstep]
    simp only [hpref, if_true]
  | succ k ih =>
    intro fuel j p hl hc hj hfuel hnone hpref hcur
    subst hl
    obtain ⟨f, rfl⟩ : ∃ f, fuel = f + 1 := ⟨fuel - 1, by omega⟩
    have hstep := getNext_at p j hj hc
    have h0 := hnone 0 (by omega)
    simp only [Nat.add_zero, Nat.mod_eq_of_lt hj] at h0
    have h1 := hcur 1 (by omega) (by omega)
    unfold pickLoop
    rw [hstep]
    simp only [h0, Bool.false_eq_true, if_false, ne_eq, h1, not_false_eq_true, if_true]
    have hj' : (j + 1) % p.incoming_connections.length < p.incoming_connections.length :=
      Nat.mod_lt _ hn
    have hshift : ∀ t, ((j + 1) % p.incoming_connections.length + t) %
        p.incoming_connections.length = (j + (t + 1)) % p.incoming_connections.length := by
      intro t
      rw [Nat.mod_add_mod]
      congr 1
      omega
    have := ih f ((j + 1) % p.incoming_connections.length)
      { p with incoming_connections_Iter := (j + 1) % p.incoming_connections.length } rfl rfl
      hj' (by omega)
      (fun t ht => by rw [hshift]; exact hnone (t + 1) (by omega))
      (by rw [hshift]; exact hpref)
      (fun t ht0 ht => by rw [hshift]; exact hcur (t + 1) (by omega) (by omega))
    rw [this, hshift]
    have e : ((j + 1) % p.incoming_connections.length + k + 1) %
        p.incoming_connections.length = (j + (k + 1) + 1) % p.incoming_connections.length :=
      hshift (k + 1)
    rw [e]

/-- The loop finds no preferred connection and ends when the cursor, after `k`
steps, is back at `b`; the `return` after the loop makes one more step. -/
theorem pickLoop_none (g : Graph) (b : Nat) (l : List Nat) (hn : 0 < l.length) (k : Nat) :
    ∀ (fuel j : Nat) (p : Processor), p.incoming_connections = l →
      p.incoming_connections_Iter = j → j < l.length → k < fuel →
      (∀ t, t ≤ k → preferredConnection g l[(j + t) % l.length]? = false) →
      (∀ t, 0 < t → t ≤ k → (j + t) % l.length ≠ b) →
      (j + k + 1) % l.length = b →
      pickLoop g b fuel p =
        some (getNextIncomingConnectionImpl { p with incoming_connections_Iter := b }) := by
  induction k with
  | zero =>
    intro fuel j p hl hc hj hfuel hnone _ hback
    subst hl
    obtain ⟨f, rfl⟩ : ∃ f, fuel = f + 1 := ⟨fuel - 1, by omega⟩
    have hstep := getNext_at p j hj hc
    have h0 := hnone 0 (by omega)
    simp only [Nat.add_zero, Nat.mod_eq_of_lt hj] at h0
    rw [Nat.add_zero] at hback
    unfold pickLoop
    rw [hstep]
    simp only [h0, Bool.false_eq_true, if_false, ne_eq, hback, not_true_eq_false]
  | succ k ih =>
    intro fuel j p hl hc hj hfuel hnone hcur hback
    subst hl
    obtain ⟨f, rfl⟩ : ∃ f, fuel = f + 1 := ⟨fuel - 1, by omega⟩
    have hstep := getNext_at p j hj hc
    have h0 := hnone 0 (by omega)
    simp only [Nat.add_zero, Nat.mod_eq_of_lt hj] at h0
    have h1 := hcur 1 (by omega) (by omega)
    unfold pickLoop
    rw [hstep]
    simp only [h0, Bool.false_eq_true, if_false, ne_eq, h1, not_false_eq_true, if_true]
    have hj' : (j + 1) % p.incoming_connections.length < p.incoming_connections.length :=
      Nat.mod_lt _ hn
    have hshift : ∀ t, ((j + 1) % p.incoming_connections.length + t) %
        p.incoming_connections.length = (j + (t + 1)) % p.incoming_connections.length := by
      intro t
      rw [Nat.mod_add_mod]
      congr 1
      omega
    have := ih f ((j + 1) % p.incoming_connections.length)
      { p with incoming_connections_Iter := (j + 1) % p.incoming_connections.length } rfl rfl
      hj' (by omega)
      (fun t ht => by rw [hshift]; exact hnone (t + 1) (by omega))
      (fun t ht0 ht => by rw [hshift]; exact hcur (t + 1) (by omega) (by omega))
      ((hshift (k + 1)).trans hback)
    rw [this]

theorem pickLoop_end (g : Graph) (b fuel : Nat) (p : Processor)
    (hn : 0 < p.incoming_connections.length)
    (hc : p.incoming_connections_Iter ≥ p.incoming_connections.length) :
    pickLoop g b fuel p = pickLoop g b fuel { p with incoming_connections_Iter := 0 } := by
  have h1 := getNext_end p hn hc
  have h2 := getNext_at { p with incoming_connections_Iter := 0 } 0 hn rfl
  cases fuel with
  | zero => rfl
  | succ f =>
    unfold pickLoop
    rw [h1, h2]

theorem preferred_getElem? {g : Graph} {l : List Nat}
    (hnone : ∀ c ∈ l, preferredConnection g (some c) = false) (x : Nat) :
    preferredConnection g l[x]? = false := by
  cases h : l[x]? with
  | none => rfl
  | some c => exact hnone c (List.getElem?_mem h)

/-- Some place within one round after position `i` holds a preferred connection. -/
theorem exists_preferred_offset {g : Graph} {l : List Nat} {i : Nat} (hi : i < l.length)
    (hex : ∃ c ∈ l, preferredConnection g (some c) = true) :
    ∃ k, k < l.length ∧ preferredConnection g l[(i + k) % l.length]? = true := by
  obtain ⟨c, hc, hp⟩ := hex
  obtain ⟨m, hm⟩ := List.mem_iff_getElem?.1 hc
  have hml := lt_of_getElem?_some hm
  refine ⟨(m + l.length - i) % l.length, Nat.mod_lt _ (by omega), ?_⟩
  have e : (i + (m + l.length - i) % l.length) % l.length = m := by
    rw [Nat.add_mod_mod]
    have : i + (m + l.length - i) = m + l.length := by omega
    rw [this, Nat.add_mod_right, Nat.mod_eq_of_lt hml]
  rw [e, hm]
  exact hp

/-- The first preferred connection of the round that starts at position `i`. -/
theorem first_preferred_offset {g : Graph} {l : List Nat} {i : Nat} (hi : i < l.length)
    (hex : ∃ c ∈ l, preferredConnection g (some c) = true) :
    ∃ k c, k < l.length ∧ l[(i + k) % l.length]? = some c ∧
      preferredConnection g (some c) = true ∧
      ∀ t, t < k → preferredConnection g l[(i + t) % l.length]? = false := by
  classical
  have hP : ∃ k, preferredConnection g l[(i + k) % l.length]? = true := by
    obtain ⟨k, -, hk⟩ := exists_preferred_offset hi hex
    exact ⟨k, hk⟩
  obtain ⟨k0, hk0, hk0p⟩ := exists_preferred_offset hi hex
  have hmin : Nat.find hP ≤ k0 := Nat.find_min' hP hk0p
  have hspec := Nat.find_spec hP
  have hlt : (i + Nat.find hP) % l.length < l.length := Nat.mod_lt _ (by omega)
  refine ⟨Nat.find hP, l[(i + Nat.find hP) % l.length], by omega,
    List.getElem?_eq_getElem hlt, ?_, fun t ht => ?_⟩
  · rw [← List.getElem?_eq_getElem hlt]
    exact hspec
  · have := Nat.find_min hP ht
    simpa using this

/-- C13: when some incoming connection is part of a cycle and full,
`pickIncomingConnection()` returns, after at most one round, the first such
connection in round-robin order: with the cursor at position `i` (position 0
when it stands at `end()`) the connection `k` places further on, none of the
connections before it in the round being part of a cycle and full; the cursor
is left one place after it.  This holds wherever the cursor stands. -/
theorem pickIncomingConnection_preferred (fuel : Nat) (g : Graph) (p : Processor)
    (hex : ∃ c ∈ p.incoming_connections, preferredConnection g (some c) = true)
    (hf : p.incoming_connections.length ≤ fuel) :
    ∃ k c, k < p.incoming_connections.length ∧
      p.incoming_connections[((if p.incoming_connections_Iter < p.incoming_connections.length
        then p.incoming_connections_Iter else 0) + k) % p.incoming_connections.length]? =
        some c ∧
      c ∈ p.incoming_connections ∧ preferredConnection g (some c) = true ∧
      (∀ t, t < k → preferredConnection g
        p.incoming_connections[((if p.incoming_connections_Iter < p.incoming_connections.length
          then p.incoming_connections_Iter else 0) + t) % p.incoming_connections.length]? =
          false) ∧
      pickIncomingConnection fuel g p =
        some (some c,
          { p with incoming_connections_Iter :=
              ((if p.incoming_connections_Iter < p.incoming_connections.length
                then p.incoming_connections_Iter else 0) + k + 1) %
                p.incoming_connections.length }) := by
  have hn : 0 < p.incoming_connections.length := by
    obtain ⟨c, hc, -⟩ := hex
    exact List.length_pos_of_mem hc
  unfold pickIncomingConnection
  by_cases hcur : p.incoming_connections_Iter < p.incoming_connections.length
  · simp only [hcur, if_true]
    obtain ⟨k, c, hk, hget, hpref, hfirst⟩ := first_preferred_offset hcur hex
    refine ⟨k, c, hk, hget, List.getElem?_mem hget, hpref, hfirst, ?_⟩
    have := pickLoop_found g p.incoming_connections_Iter p.incoming_connections hn k fuel
      p.incoming_connections_Iter p rfl rfl hcur (by omega) hfirst (by rw [hget]; exact hpref)
      (fun t ht0 ht => add_mod_ne_self hcur ht0 (by omega))
    rw [this, hget]
  · simp only [hcur, if_false]
    obtain ⟨k, c, hk, hget, hpref, hfirst⟩ := first_preferred_offset hn hex
    refine ⟨k, c, hk, hget, List.getElem?_mem hget, hpref, hfirst, ?_⟩
    rw [pickLoop_end g _ fuel p hn (by omega)]
    have := pickLoop_found g p.incoming_connections_Iter p.incoming_connections hn k fuel 0
      { p with incoming_connections_Iter := 0 } rfl rfl hn (by omega) hfirst
      (by rw [hget]; exact hpref)
      (fun t _ _ => by
        have := Nat.mod_lt (0 + t) hn
        omega)
    rw [this, hget]

theorem pickIncomingConnection_preferred_witness :
    ∃ k c, k < [2, 1, 3].length ∧
      [2, 1, 3][((if 2 < [2, 1, 3].length then 2 else 0) + k) % [2, 1, 3].length]? = some c ∧
      c ∈ [2, 1, 3] ∧ preferredConnection cycleGraph (some c) = true ∧
      (∀ t, t < k → preferredConnection cycleGraph
        [2, 1, 3][((if 2 < [2, 1, 3].length then 2 else 0) + t) % [2, 1, 3].length]? = false) ∧
      pickIncomingConnection 3 cycleGraph
          { uuid := 10, incoming_connections := [2, 1, 3], incoming_connections_Iter := 2 } =
        some (some c,
          { uuid := 10, incoming_connections := [2, 1, 3],
            incoming_connections_Iter :=
              ((if 2 < [2, 1, 3].length then 2 else 0) + k + 1) % [2, 1, 3].length }) :=
  pickIncomingConnection_preferred 3 cycleGraph
    { uuid := 10, incoming_connections := [2, 1, 3], incoming_connections_Iter := 2 }
    ⟨1, by decide, by decide⟩ (by decide)

/-- With no preferred connection one call returns the connection at the cursor
and moves the cursor one place on, after a full round of the loop. -/
theorem pickIncomingConnection_at_cursor (fuel : Nat) (g : Graph) (p : Processor)
    (hnone : ∀ c ∈ p.incoming_connections, preferredConnection g (some c) = false)
    (hcur : p.incoming_connections_Iter < p.incoming_connections.length)
    (hf : p.incoming_connections.length ≤ fuel) :
    pickIncomingConnection fuel g p =
      some (p.incoming_connections[p.incoming_connections_Iter]?,
        { p with incoming_connections_Iter :=
            (p.incoming_connections_Iter + 1) % p.incoming_connections.length }) := by
  have hn : 0 < p.incoming_connections.length := by omega
  unfold pickIncomingConnection
  have hback : (p.incoming_connections_Iter + (p.incoming_connections.length - 1) + 1) %
      p.incoming_connections.length = p.incoming_connections_Iter := by
    have : p.incoming_connections_Iter + (p.incoming_connections.length - 1) + 1 =
        p.incoming_connections_Iter + p.incoming_connections.length := by omega
    rw [this, Nat.add_mod_right, Nat.mod_eq_of_lt hcur]
  have := pickLoop_none g p.incoming_connections_Iter p.incoming_connections hn
    (p.incoming_connections.length - 1) fuel p.incoming_connections_Iter p rfl rfl hcur
    (by omega) (fun t _ => preferred_getElem? hnone _)
    (fun t ht0 ht => add_mod_ne_self hcur ht0 (by omega)) hback
  rw [this]
  exact congrArg some (getNext_at { p with incoming_connections_Iter :=
    p.incoming_connections_Iter } p.incoming_connections_Iter hcur rfl)

/-- With no preferred connection `m` calls return the connections at the next
`m` places from the cursor, in order. -/
theorem pickMany_range (fuel : Nat) (g : Graph) (l : List Nat)
    (hnone : ∀ c ∈ l, preferredConnection g (some c) = false) (hf : l.length ≤ fuel) (m : Nat) :
    ∀ (j : Nat) (p : Processor), p.incoming_connections = l →
      p.incoming_connections_Iter = j → j < l.length →
      pickMany fuel g m p =
        some ((List.range m).map (fun t => l[(j + t) % l.length]?),
          { p with incoming_connections_Iter := (j + m) % l.length }) := by
  induction m with
  | zero =>
    intro j p hl hc hj
    subst hl
    subst hc
    simp only [pickMany, List.range_zero, List.map_nil, Nat.add_zero, Nat.mod_eq_of_lt hj]
  | succ m ih =>
    intro j p hl hc hj
    subst hl
    subst hc
    have h1 := pickIncomingConnection_at_cursor fuel g p hnone hj hf
    have h2 := ih ((p.incoming_connections_Iter + 1) % p.incoming_connections.length)
      { p with incoming_connections_Iter :=
          (p.incoming_connections_Iter + 1) % p.incoming_connections.length } rfl rfl
      (Nat.mod_lt _ (by omega))
    simp only [pickMany, h1, h2]
    have hshift : ∀ t, ((p.incoming_connections_Iter + 1) % p.incoming_connections.length + t) %
        p.incoming_connections.length =
        (p.incoming_connections_Iter + (t + 1)) % p.incoming_connections.length := by
      intro t
      rw [Nat.mod_add_mod]
      congr 1
      omega
    rw [List.range_succ_eq_map, List.map_cons, List.map_map]
    simp only [Nat.add_zero, Nat.mod_eq_of_lt hj, hshift]
    rfl

/-- One round from place `j` lists the connections in rotated order. -/
theorem range_map_rotate (l : List Nat) (j : Nat) :
    (List.range l.length).map (fun t => l[(j + t) % l.length]?) = (l.rotate j).map some := by
  apply List.ext_getElem
  · simp
  · intro t h1 h2
    have ht : t < l.length := by simpa using h1
    simp only [List.getElem_map, List.getElem_range, List.getElem_rotate]
    rw [Nat.add_comm j t]
    exact List.getElem?_eq_getElem (Nat.mod_lt _ (by omega))

/-- C14: when no incoming connection is both part of a cycle and full and the
cursor stands at one of the `n ≥ 1` incoming connections, a call of
`pickIncomingConnection()` returns the connection at the cursor and moves the
cursor one place on, wrapping around; `n` consecutive calls return the incoming
connections in rotated order, each one exactly once, and leave the processor as
it was; with no incoming connections the call returns null. -/
theorem pickIncomingConnection_roundRobin (fuel : Nat) (g : Graph) (p : Processor)
    (hnone : ∀ c ∈ p.incoming_connections, preferredConnection g (some c) = false)
    (hcur : p.incoming_connections_Iter < p.incoming_connections.length)
    (hf : p.incoming_connections.length ≤ fuel) :
    (∃ c, p.incoming_connections[p.incoming_connections_Iter]? = some c ∧
      pickIncomingConnection fuel g p =
        some (some c,
          { p with incoming_connections_Iter :=
              (p.incoming_connections_Iter + 1) % p.incoming_connections.length })) ∧
    pickMany fuel g p.incoming_connections.length p =
      some ((p.incoming_connections.rotate p.incoming_connections_Iter).map some, p) ∧
    (p.incoming_connections.rotate p.incoming_connections_Iter).Perm p.incoming_connections ∧
    ∀ q : Processor, q.incoming_connections = [] →
      pickIncomingConnection fuel g q = some (none, q) := by
  refine ⟨⟨p.incoming_connections[p.incoming_connections_Iter],
    List.getElem?_eq_getElem hcur, ?_⟩, ?_, List.rotate_perm _ _, ?_⟩
  · rw [← List.getElem?_eq_getElem hcur]
    exact pickIncomingConnection_at_cursor fuel g p hnone hcur hf
  · rw [pickMany_range fuel g p.incoming_connections hnone hf p.incoming_connections.length
      p.incoming_connections_Iter p rfl rfl hcur, range_map_rotate,
      Nat.add_mod_right, Nat.mod_eq_of_lt hcur]
  · intro q hq
    obtain ⟨f, rfl⟩ : ∃ f, fuel = f + 1 := ⟨fuel - 1, by omega⟩
    have hstep : getNextIncomingConnectionImpl q = (none, q) := by
      unfold getNextIncomingConnectionImpl
      simp [hq]
    unfold pickIncomingConnection pickLoop
    rw [hstep]
    simp only [preferredConnection, Bool.false_eq_true, if_false, ne_eq, not_true_eq_false,
      hstep]

theorem pickIncomingConnection_roundRobin_witness :
    (∃ c, [2, 3][1]? = some c ∧
      pickIncomingConnection 2 cycleGraph
          { uuid := 10, incoming_connections := [2, 3], incoming_connections_Iter := 1 } =
        some (some c,
          { uuid := 10, incoming_connections := [2, 3],
            incoming_connections_Iter := (1 + 1) % [2, 3].length })) ∧
    pickMany 2 cycleGraph [2, 3].length
        { uuid := 10, incoming_connections := [2, 3], incoming_connections_Iter := 1 } =
      some (([2, 3].rotate 1).map some,
        { uuid := 10, incoming_connections := [2, 3], incoming_connections_Iter := 1 }) ∧
    ([2, 3].rotate 1).Perm [2, 3] ∧
    ∀ q : Processor, q.incoming_connections = [] →
      pickIncomingConnection 2 cycleGraph q = some (none, q) :=
  pickIncomingConnection_roundRobin 2 cycleGraph
    { uuid := 10, incoming_connections := [2, 3], incoming_connections_Iter := 1 }
    (by decide) (by decide) (by decide)

/-! ### `VolatileRepository<T>::Put` -/

/-- A slot write that succeeds, at a slot of the vector: the state after it. -/
theorem writeSlot_ok {E : Type} (setRepoValue : E → RepoValue → RepoValue → Nat → SetResult E)
    (hsucc : ∀ e v o r, (setRepoValue e v o r).updated = true) (new_value : RepoValue)
    (i : Nat) (s : PutState E) (hi : i < s.repo.value_vector_.length) :
    ∃ s2, VolatileRepository.writeSlot setRepoValue new_value i s = Except.ok s2 ∧
      s2.updated = true ∧ s2.log = s.log ++ [i] ∧
      s2.repo.current_index_ = s.repo.current_index_ ∧
      s2.repo.max_count_ = s.repo.max_count_ ∧
      s2.repo.value_vector_.length = s.repo.value_vector_.length ∧
      ∃ e, s.repo.value_vector_[i]? = some e ∧
        s2.repo.value_vector_ = s.repo.value_vector_.set i
          (setRepoValue e new_value s.old_value s.reclaimed_size).entry := by
  unfold VolatileRepository.writeSlot
  rw [List.getElem?_eq_getElem hi]
  refine ⟨_, rfl, hsucc _ _ _ _, rfl, ?_, ?_, ?_, _, rfl, ?_⟩
  · simp only [VolatileRepository.emplace]
    split_ifs <;> rfl
  · simp only [VolatileRepository.emplace]
    split_ifs <;> rfl
  · simp only [VolatileRepository.emplace]
    split_ifs <;> simp only [List.length_set]
  · simp only [VolatileRepository.emplace]
    split_ifs <;> rfl

/-- The iteration of the loop of `Put` below `max_count_`: the slot at the
index is written. -/
theorem putStep_slot {E : Type} (setRepoValue : E → RepoValue → RepoValue → Nat → SetResult E)
    (new_value : RepoValue) (s : PutState E)
    (hc : s.repo.current_index_ < s.repo.max_count_) :
    VolatileRepository.putStep setRepoValue new_value s =
      VolatileRepository.writeSlot setRepoValue new_value s.repo.current_index_
        { s with
          repo := { s.repo with current_index_ := (s.repo.current_index_ + 1) % 65536 } } := by
  unfold VolatileRepository.putStep
  exact if_neg (not_le.2 hc)

/-- The iteration of the loop of `Put` at or past `max_count_` when the
incremented index is `0`: slot `0` is written. -/
theorem putStep_wrap {E : Type} (setRepoValue : E → RepoValue → RepoValue → Nat → SetResult E)
    (new_value : RepoValue) (s : PutState E)
    (hc : ¬ s.repo.current_index_ < s.repo.max_count_)
    (h0 : (s.repo.current_index_ + 1) % 65536 = 0) :
    VolatileRepository.putStep setRepoValue new_value s =
      VolatileRepository.writeSlot setRepoValue new_value 0
        { s with
          repo := { s.repo with current_index_ := (s.repo.current_index_ + 1) % 65536 } } := by
  unfold VolatileRepository.putStep
  exact (if_pos (not_lt.1 hc)).trans (if_pos h0)

/-- The iteration of the loop of `Put` at or past `max_count_` when the
incremented index is not `0`: nothing is written. -/
theorem putStep_spin {E : Type} (setRepoValue : E → RepoValue → RepoValue → Nat → SetResult E)
    (new_value : RepoValue) (s : PutState E)
    (hc : ¬ s.repo.current_index_ < s.repo.max_count_)
    (h0 : ¬ (s.repo.current_index_ + 1) % 65536 = 0) :
    VolatileRepository.putStep setRepoValue new_value s =
      Except.ok { s with
        repo := { s.repo with current_index_ := (s.repo.current_index_ + 1) % 65536 } } := by
  unfold VolatileRepository.putStep
  exact (if_pos (not_lt.1 hc)).trans (if_neg h0)

/-- The loop of `Put` returns after an iteration that wrote a slot with success. -/
theorem putLoop_of_step {E : Type} (setRepoValue : E → RepoValue → RepoValue → Nat → SetResult E)
    (new_value : RepoValue) (f : Nat) (s s2 : PutState E)
    (h : VolatileRepository.putStep setRepoValue new_value s = Except.ok s2)
    (hup : s2.updated = true) :
    VolatileRepository.putLoop setRepoValue new_value (f + 1) s = some (Except.ok s2) := by
  unfold VolatileRepository.putLoop
  rw [h]
  simp only [hup, Bool.not_true, Bool.false_eq_true, if_false]

/-- The loop of `Put` goes on after an iteration that left `updated` false. -/
theorem putLoop_of_continue {E : Type}
    (setRepoValue : E → RepoValue → RepoValue → Nat → SetResult E)
    (new_value : RepoValue) (f : Nat) (s s2 : PutState E)
    (h : VolatileRepository.putStep setRepoValue new_value s = Except.ok s2)
    (hup : s2.updated = false) :
    VolatileRepository.putLoop setRepoValue new_value (f + 1) s =
      VolatileRepository.putLoop setRepoValue new_value f s2 := by
  conv_lhs => unfold VolatileRepository.putLoop
  rw [h]
  simp only [hup, Bool.not_false, if_true]

/-- The loop of `Put` ends when every slot write succeeds: from index `c` it
writes slot `c` when `c < max_count_`, and otherwise spins until the 16-bit
index has wrapped to `0`, writes slot `0` and leaves the index at `0`; no
other slot changes. -/
theorem putLoop_ok {E : Type} (setRepoValue : E → RepoValue → RepoValue → Nat → SetResult E)
    (hsucc : ∀ e v o r, (setRepoValue e v o r).updated = true) (new_value : RepoValue)
    (d : Nat) :
    ∀ (fuel : Nat) (s : PutState E), s.repo.current_index_ + d = 65535 →
      1 ≤ s.repo.value_vector_.length →
      s.repo.value_vector_.length = s.repo.max_count_ → s.updated = false →
      (if s.repo.current_index_ < s.repo.max_count_ then 1 else d + 1) ≤ fuel →
      ∃ s2, VolatileRepository.putLoop setRepoValue new_value fuel s = some (Except.ok s2) ∧
        s2.updated = true ∧
        s2.log = s.log ++
          [if s.repo.current_index_ < s.repo.max_count_ then s.repo.current_index_ else 0] ∧
        s2.repo.current_index_ =
          (if s.repo.current_index_ < s.repo.max_count_
            then (s.repo.current_index_ + 1) % 65536 else 0) ∧
        s2.repo.max_count_ = s.repo.max_count_ ∧
        s2.repo.value_vector_.length = s.repo.value_vector_.length ∧
        ∃ e, s.repo.value_vector_[if s.repo.current_index_ < s.repo.max_count_
              then s.repo.current_index_ else 0]? = some e ∧
          s2.repo.value_vector_ = s.repo.value_vector_.set
            (if s.repo.current_index_ < s.repo.max_count_ then s.repo.current_index_ else 0)
            (setRepoValue e new_value s.old_value s.reclaimed_size).entry := by
  have hslot : ∀ (f : Nat) (s : PutState E), 1 ≤ s.repo.value_vector_.length →
      s.repo.value_vector_.length = s.repo.max_count_ →
      s.repo.current_index_ < s.repo.max_count_ →
      ∃ s2, VolatileRepository.putLoop setRepoValue new_value (f + 1) s =
          some (Except.ok s2) ∧
        s2.updated = true ∧ s2.log = s.log ++ [s.repo.current_index_] ∧
        s2.repo.current_index_ = (s.repo.current_index_ + 1) % 65536 ∧
        s2.repo.max_count_ = s.repo.max_count_ ∧
        s2.repo.value_vector_.length = s.repo.value_vector_.length ∧
        ∃ e, s.repo.value_vector_[s.repo.current_index_]? = some e ∧
          s2.repo.value_vector_ = s.repo.value_vector_.set s.repo.current_index_
            (setRepoValue e new_value s.old_value s.reclaimed_size).entry := by
    intro f s hN hlen hc
    obtain ⟨s2, h2, hup, hlog, hidx, hmax, hvlen, e, he, hvec⟩ :=
      writeSlot_ok setRepoValue hsucc new_value s.repo.current_index_
        { s with repo := { s.repo with current_index_ := (s.repo.current_index_ + 1) % 65536 } }
        (by show s.repo.current_index_ < s.repo.value_vector_.length; omega)
    exact ⟨s2, putLoop_of_step setRepoValue new_value f s s2
      ((putStep_slot setRepoValue new_value s hc).trans h2) hup, hup, hlog, hidx, hmax, hvlen,
      e, he, hvec⟩
  induction d with
  | zero =>
    intro fuel s hd hN hlen hu hf
    obtain ⟨f, rfl⟩ : ∃ f, fuel = f + 1 := ⟨fuel - 1, by split_ifs at hf <;> omega⟩
    by_cases hc : s.repo.current_index_ < s.repo.max_count_
    · simp only [hc, if_true]
      exact hslot f s hN hlen hc
    · simp only [hc, if_false]
      have h0 : (s.repo.current_index_ + 1) % 65536 = 0 := by
        have : s.repo.current_index_ = 65535 := by omega
        rw [this]
      obtain ⟨s2, h2, hup, hlog, hidx, hmax, hvlen, e, he, hvec⟩ :=
        writeSlot_ok setRepoValue hsucc new_value 0
          { s with
            repo := { s.repo with current_index_ := (s.repo.current_index_ + 1) % 65536 } }
          (by show 0 < s.repo.value_vector_.length; omega)
      exact ⟨s2, putLoop_of_step setRepoValue new_value f s s2
        ((putStep_wrap setRepoValue new_value s hc h0).trans h2) hup, hup, hlog,
        hidx.trans h0, hmax, hvlen, e, he, hvec⟩
  | succ d ih =>
    intro fuel s hd hN hlen hu hf
    obtain ⟨f, rfl⟩ : ∃ f, fuel = f + 1 := ⟨fuel - 1, by split_ifs at hf <;> omega⟩
    by_cases hc : s.repo.current_index_ < s.repo.max_count_
    · simp only [hc, if_true]
      exact hslot f s hN hlen hc
    · have h1 : (s.repo.current_index_ + 1) % 65536 = s.repo.current_index_ + 1 :=
        Nat.mod_eq_of_lt (by omega)
      have hne : ¬ (s.repo.current_index_ + 1) % 65536 = 0 := by rw [h1]; omega
      have hge : ¬ (s.repo.current_index_ + 1) % 65536 < s.repo.max_count_ := by
        rw [h1]; omega
      rw [if_neg hc] at hf
      have hrec := ih f
        { s with repo := { s.repo with current_index_ := (s.repo.current_index_ + 1) % 65536 } }
        (by show (s.repo.current_index_ + 1) % 65536 + d = 65535; rw [h1]; omega)
        hN hlen hu
        (by
          show (if (s.repo.current_index_ + 1) % 65536 < s.repo.max_count_ then 1 else d + 1) ≤ f
          rw [if_neg hge]
          omega)
      simp only [hge, if_false] at hrec
      simp only [hc, if_false]
      rw [putLoop_of_continue setRepoValue new_value f s _
        (putStep_spin setRepoValue new_value s hc hne) hu]
      exact hrec

/-- One call of `Put` in which every slot write succeeds returns `true` with
fuel `65536`: from index `c` it writes slot `c` when `c < max_count_` and slot
`0` otherwise, leaves the index one further on, or at `0`, and changes no other
slot. -/
theorem Put_ok {E : Type} (setRepoValue : E → RepoValue → RepoValue → Nat → SetResult E)
    (hsucc : ∀ e v o r, (setRepoValue e v o r).updated = true) (fuel : Nat)
    (repo : VolatileRepository E) (key : String) (buf : List Nat)
    (hN : 1 ≤ repo.value_vector_.length) (hlen : repo.value_vector_.length = repo.max_count_)
    (hc : repo.current_index_ < 65536) (hf : 65536 ≤ fuel) :
    ∃ repo2, VolatileRepository.Put setRepoValue fuel repo key buf =
        some (Except.ok
          { returned := true, repo := repo2,
            log := [if repo.current_index_ < repo.max_count_ then repo.current_index_ else 0] }) ∧
      repo2.current_index_ =
        (if repo.current_index_ < repo.max_count_
          then (repo.current_index_ + 1) % 65536 else 0) ∧
      repo2.max_count_ = repo.max_count_ ∧
      repo2.value_vector_.length = repo.value_vector_.length ∧
      ∃ e, repo.value_vector_[if repo.current_index_ < repo.max_count_
            then repo.current_index_ else 0]? = some e ∧
        repo2.value_vector_ = repo.value_vector_.set
          (if repo.current_index_ < repo.max_count_ then repo.current_index_ else 0)
          (setRepoValue e { key := key, buffer := buf } {} 0).entry := by
  obtain ⟨s2, h2, -, hlog, hidx, hmax, hvlen, e, he, hvec⟩ := putLoop_ok setRepoValue hsucc
    { key := key, buffer := buf } (65535 - repo.current_index_) fuel { repo := repo }
    (by show repo.current_index_ + (65535 - repo.current_index_) = 65535; omega) hN hlen rfl
    (by
      show (if repo.current_index_ < repo.max_count_ then 1
        else 65535 - repo.current_index_ + 1) ≤ fuel
      split_ifs <;> omega)
  refine ⟨{ s2.repo with
    current_size_ :=
      (s2.repo.current_size_ + RepoValue.size { key := key, buffer := buf }) % 2 ^ 64 },
    ?_, hidx, hmax, hvlen, e, he, hvec⟩
  unfold VolatileRepository.Put
  simp only [h2]
  rw [hlog]
  rfl

/-- Consecutive calls of `Put` in which every slot write succeeds, on a
repository of `N` slots (`1 ≤ N ≤ 65535`) whose index is `c ≤ N`: call number
`k` writes slot `(c + k) mod (N + 1)`, or slot `0` when that is `N`. -/
theorem putMany_slots {E : Type} (setRepoValue : E → RepoValue → RepoValue → Nat → SetResult E)
    (hsucc : ∀ e v o r, (setRepoValue e v o r).updated = true) (fuel : Nat) (hf : 65536 ≤ fuel)
    (N : Nat) (hN1 : 1 ≤ N) (hN : N ≤ 65535) (kvs : List (String × List Nat)) :
    ∀ (repo : VolatileRepository E), repo.value_vector_.length = N → repo.max_count_ = N →
      repo.current_index_ ≤ N →
      ∃ repo2, VolatileRepository.putMany setRepoValue fuel kvs repo =
          some (Except.ok
            ((List.range kvs.length).map (fun k =>
                [if (repo.current_index_ + k) % (N + 1) < N
                  then (repo.current_index_ + k) % (N + 1) else 0]),
              repo2)) ∧
        repo2.value_vector_.length = N ∧ repo2.max_count_ = N ∧
        repo2.current_index_ = (repo.current_index_ + kvs.length) % (N + 1) := by
  induction kvs with
  | nil =>
    intro repo hvec hmax hc
    exact ⟨repo, rfl, hvec, hmax, by
      show repo.current_index_ = (repo.current_index_ + 0) % (N + 1)
      rw [Nat.add_zero, Nat.mod_eq_of_lt (by omega)]⟩
  | cons kv rest ih =>
    intro repo hvec hmax hc
    obtain ⟨r1, h1, hidx1, hmax1, hvec1, -⟩ := Put_ok setRepoValue hsucc fuel repo kv.1 kv.2
      (by omega) (by omega) (by omega) hf
    have hnext : r1.current_index_ = (repo.current_index_ + 1) % (N + 1) := by
      rw [hidx1, hmax]
      by_cases hlt : repo.current_index_ < N
      · rw [if_pos hlt, Nat.mod_eq_of_lt (by omega), Nat.mod_eq_of_lt (by omega)]
      · rw [if_neg hlt]
        have : repo.current_index_ = N := by omega
        rw [this, Nat.mod_self]
    obtain ⟨r2, h2, hvec2, hmax2, hidx2⟩ := ih r1 (by omega) (by omega)
      (by rw [hnext]; exact Nat.lt_succ_iff.1 (Nat.mod_lt _ (by omega)))
    have hshift : ∀ k, (r1.current_index_ + k) % (N + 1) =
        (repo.current_index_ + (k + 1)) % (N + 1) := by
      intro k
      rw [hnext, Nat.mod_add_mod]
      congr 1
      omega
    refine ⟨r2, ?_, hvec2, hmax2, ?_⟩
    · simp only [VolatileRepository.putMany, h1, h2, List.length_cons]
      rw [List.range_succ_eq_map, List.map_cons, List.map_map]
      simp only [hshift, Nat.add_zero, Nat.mod_eq_of_lt (Nat.lt_succ_of_le hc), hmax]
      rfl
    · rw [hidx2, hshift, List.length_cons]

/-- A call of `Put` that returns, followed by further calls that return. -/
theorem putMany_cons_ok {E : Type}
    (setRepoValue : E → RepoValue → RepoValue → Nat → SetResult E) (fuel : Nat)
    (kv : String × List Nat) (rest : List (String × List Nat)) (repo : VolatileRepository E)
    (r : PutResult E) (logs : List (List Nat)) (repo2 : VolatileRepository E)
    (h1 : VolatileRepository.Put setRepoValue fuel repo kv.1 kv.2 = some (Except.ok r))
    (h2 : VolatileRepository.putMany setRepoValue fuel rest r.repo =
      some (Except.ok (logs, repo2))) :
    VolatileRepository.putMany setRepoValue fuel (kv :: rest) repo =
      some (Except.ok (r.log :: logs, repo2)) := by
  simp only [VolatileRepository.putMany, h1, h2]

/-- One call of `Put` with the slot write `storeValue`, on a repository with
index `c`, `N` slots and slot contents `vs`. -/
theorem Put_storeValue (fuel : Nat) (repo : VolatileRepository (Option RepoValue))
    (key : String) (buf : List Nat) (c N : Nat) (vs : List (Option RepoValue))
    (hc : repo.current_index_ = c) (hm : repo.max_count_ = N) (hv : repo.value_vector_ = vs)
    (hN : 1 ≤ N) (hlen : vs.length = N) (hc16 : c < 65536) (hf : 65536 ≤ fuel) :
    ∃ repo2, VolatileRepository.Put storeValue fuel repo key buf =
        some (Except.ok
          { returned := true, repo := repo2, log := [if c < N then c else 0] }) ∧
      repo2.current_index_ = (if c < N then (c + 1) % 65536 else 0) ∧
      repo2.max_count_ = N ∧
      repo2.value_vector_ =
        vs.set (if c < N then c else 0) (some { key := key, buffer := buf }) := by
  subst hc hm hv
  obtain ⟨r, h, hidx, hmax, -, e, -, hvec⟩ := Put_ok storeValue (fun _ _ _ _ => rfl) fuel repo
    key buf (by omega) hlen hc16 hf
  exact ⟨r, h, hidx, hmax, hvec⟩

/-- C20 (the code at `max_count = 2`): on a freshly initialized repository with
two slots in which every slot write succeeds, the calls of `Put` number 0, 1, 2
and 3 write the slots 0, 1, 0 and 0: after the index has wrapped, `Put`
number 3 writes slot 0 once more, where the entry of `Put` number 2 is,
and not slot `3 mod 2 = 1`, where the oldest entry is. -/
theorem Put_rewrites_slot_zero :
    ∃ repo2, VolatileRepository.putMany storeValue 65536
        [("a", [1]), ("b", [2]), ("c", [3]), ("d", [4])] smallRepository =
        some (Except.ok ([[0], [1], [0], [0]], repo2)) ∧
      repo2.value_vector_ =
        [some { key := "d", buffer := [4] }, some { key := "b", buffer := [2] }] := by
  obtain ⟨r1, h1, i1, m1, v1⟩ := Put_storeValue 65536 smallRepository "a" [1] 0 2
    [none, none] rfl rfl rfl (by decide) rfl (by decide) (le_refl _)
  obtain ⟨r2, h2, i2, m2, v2⟩ := Put_storeValue 65536 r1 "b" [2] 1 2
    [some { key := "a", buffer := [1] }, none] (i1.trans (by decide)) m1
    (v1.trans (by decide)) (by decide) rfl (by decide) (le_refl _)
  obtain ⟨r3, h3, i3, m3, v3⟩ := Put_storeValue 65536 r2 "c" [3] 2 2
    [some { key := "a", buffer := [1] }, some { key := "b", buffer := [2] }]
    (i2.trans (by decide)) m2 (v2.trans (by decide)) (by decide) rfl (by decide) (le_refl _)
  obtain ⟨r4, h4, -, -, v4⟩ := Put_storeValue 65536 r3 "d" [4] 0 2
    [some { key := "c", buffer := [3] }, some { key := "b", buffer := [2] }]
    (i3.trans (by decide)) m3 (v3.trans (by decide)) (by decide) rfl (by decide) (le_refl _)
  have e4 := putMany_cons_ok storeValue 65536 ("d", [4]) [] r3 _ [] r4 h4 rfl
  have e3 := putMany_cons_ok storeValue 65536 ("c", [3]) _ r2 _ _ r4 h3 e4
  have e2 := putMany_cons_ok storeValue 65536 ("b", [2]) _ r1 _ _ r4 h2 e3
  have e1 := putMany_cons_ok storeValue 65536 ("a", [1]) _ smallRepository _ _ r4 h1 e2
  exact ⟨r4, e1, v4.trans (by decide)⟩

/-- C21: in a single-threaded run on a repository with `max_count_ >= 1` slots
in which every slot write succeeds, `Put` returns with fuel `65536` for every
key and buffer and every value of the 16-bit index (also at or past
`max_count_`, where the index must wrap): it returns `true`, makes one slot
write, with the new value, and changes no other slot.  Whenever `Put`
returns, it returns `true`. -/
theorem Put_terminates {E : Type} (setRepoValue : E → RepoValue → RepoValue → Nat → SetResult E)
    (hsucc : ∀ e v o r, (setRepoValue e v o r).updated = true) (fuel : Nat)
    (repo : VolatileRepository E) (key : String) (buf : List Nat)
    (hN : 1 ≤ repo.max_count_) (hlen : repo.value_vector_.length = repo.max_count_)
    (hc : repo.current_index_ < 65536) (hf : 65536 ≤ fuel) :
    (∃ repo2 slot e,
      VolatileRepository.Put setRepoValue fuel repo key buf =
        some (Except.ok { returned := true, repo := repo2, log := [slot] }) ∧
      repo.value_vector_[slot]? = some e ∧
      repo2.value_vector_ = repo.value_vector_.set slot
        (setRepoValue e { key := key, buffer := buf } {} 0).entry ∧
      (∀ i, i ≠ slot → repo2.value_vector_[i]? = repo.value_vector_[i]?)) ∧
    ∀ (setRepoValue2 : E → RepoValue → RepoValue → Nat → SetResult E) (fuel2 : Nat)
      (repo3 : VolatileRepository E) (key2 : String) (buf2 : List Nat) (r : PutResult E),
      VolatileRepository.Put setRepoValue2 fuel2 repo3 key2 buf2 = some (Except.ok r) →
        r.returned = true := by
  constructor
  · obtain ⟨repo2, h, -, -, -, e, he, hvec⟩ := Put_ok setRepoValue hsucc fuel repo key buf
      (by omega) hlen hc hf
    refine ⟨repo2, _, e, h, he, hvec, fun i hi => ?_⟩
    rw [hvec, List.getElem?_set_ne (Ne.symm hi)]
  · intro setRepoValue2 fuel2 repo3 key2 buf2 r h
    unfold VolatileRepository.Put at h
    cases hl : VolatileRepository.putLoop setRepoValue2 { key := key2, buffer := buf2 } fuel2
        { repo := repo3 } with
    | none => simp [hl] at h
    | some x =>
      cases x with
      | error e => simp [hl] at h
      | ok s =>
        simp only [hl, Option.some.injEq, Except.ok.injEq] at h
        rw [← h]

theorem Put_terminates_witness :
    (∃ repo2 slot e,
      VolatileRepository.Put storeValue 65536 { smallRepository with current_index_ := 2 }
          "c" [3] =
        some (Except.ok { returned := true, repo := repo2, log := [slot] }) ∧
      (VolatileRepository.value_vector_
        { smallRepository with current_index_ := 2 })[slot]? = some e ∧
      repo2.value_vector_ =
        (VolatileRepository.value_vector_ { smallRepository with current_index_ := 2 }).set slot
          (storeValue e { key := "c", buffer := [3] } {} 0).entry ∧
      (∀ i, i ≠ slot → repo2.value_vector_[i]? =
        (VolatileRepository.value_vector_
          { smallRepository with current_index_ := 2 })[i]?)) ∧
    ∀ (setRepoValue2 : Option RepoValue → RepoValue → RepoValue → Nat →
        SetResult (Option RepoValue)) (fuel2 : Nat)
      (repo3 : VolatileRepository (Option RepoValue)) (key2 : String) (buf2 : List Nat)
      (r : PutResult (Option RepoValue)),
      VolatileRepository.Put setRepoValue2 fuel2 repo3 key2 buf2 = some (Except.ok r) →
        r.returned = true :=
  Put_terminates storeValue (fun _ _ _ _ => rfl) 65536
    { smallRepository with current_index_ := 2 } "c" [3] (by decide) rfl (by decide)
    (le_refl _)

/-- C24: on the first call of `run` for a processor (agent and processor
running, no schedule stored for its UUID) the agent stores the schedule and, as
next-fire time, the next fire time of the cron expression after `now`; that
time being later than `now`, the same call calls the trigger step, once. -/
theorem run_first_call (cron_to_next : String → Int → Int)
    (onTrigger : Processor → Bool × Processor) (agent : CronDrivenSchedulingAgent)
    (processor : Processor) (from_ t1 t2 : Int)
    (hagent : agent.running = true) (hproc : processor.isRunning = true)
    (hfirst : idFind processor.uuid agent.schedules = none)
    (hnext : from_ < cron_to_next processor.cron_period from_) :
    (agent.run cron_to_next onTrigger processor from_ t1 t2).triggered = 1 ∧
      (agent.run cron_to_next onTrigger processor from_ t1 t2).processor =
        (onTrigger processor).2 ∧
      idFind processor.uuid
        (agent.run cron_to_next onTrigger processor from_ t1 t2).agent.last_exec =
        some (cron_to_next processor.cron_period from_) ∧
      idFind processor.uuid
        (agent.run cron_to_next onTrigger processor from_ t1 t2).agent.schedules =
        some processor.cron_period := by
  unfold CronDrivenSchedulingAgent.run
  simp only [hagent, hproc, Bool.and_self, if_true, hfirst]
  refine ⟨(runTrigger_triggered _ _ _ _ _ _ _).2 hnext, ?_, ?_, ?_⟩
  · simp only [runTrigger, gt_iff_lt, hnext, if_true]
    split_ifs <;> rfl
  · rw [runTrigger_agent]
    exact idFind_idAssign _ _ _
  · rw [runTrigger_agent]
    exact idFind_idAssign _ _ _

theorem run_first_call_witness :
    (CronDrivenSchedulingAgent.run everySecond idleTrigger
        { running := true, bored_yield_duration := 1000 } cronProcessor
        200000000 200000000 200000000).triggered = 1 ∧
      (CronDrivenSchedulingAgent.run everySecond idleTrigger
        { running := true, bored_yield_duration := 1000 } cronProcessor
        200000000 200000000 200000000).processor = (idleTrigger cronProcessor).2 ∧
      idFind cronProcessor.uuid
        (CronDrivenSchedulingAgent.run everySecond idleTrigger
          { running := true, bored_yield_duration := 1000 } cronProcessor
          200000000 200000000 200000000).agent.last_exec =
        some (everySecond cronProcessor.cron_period 200000000) ∧
      idFind cronProcessor.uuid
        (CronDrivenSchedulingAgent.run everySecond idleTrigger
          { running := true, bored_yield_duration := 1000 } cronProcessor
          200000000 200000000 200000000).agent.schedules =
        some cronProcessor.cron_period :=
  run_first_call everySecond idleTrigger { running := true, bored_yield_duration := 1000 }
    cronProcessor 200000000 200000000 200000000 rfl (by decide) rfl (by decide)

/-! ### `VolatileRepository<T>::DeSerialize` -/

/-- The loop of `DeSerialize(store, max_size, lambda)` appends to `store`,
counts what it appends in `max_size`, and stops at the latest when the count
has passed `requested_batch`, that is at `requested_batch + 1`. -/
theorem deSerializeNew_count {E C : Type} (getValue : E → GetResult E) (lambda : Unit → C)
    (deSerialize : C → List Nat → C) (requested_batch : Nat) (ents : List E) :
    ∀ (i : Nat) (s : DeSerializeState E C),
      ∃ appended,
        (VolatileRepository.deSerializeNew getValue lambda deSerialize requested_batch ents i
          s).store = s.store ++ appended ∧
        (VolatileRepository.deSerializeNew getValue lambda deSerialize requested_batch ents i
          s).max_size = s.max_size + appended.length ∧
        (s.max_size ≤ requested_batch →
          s.max_size + appended.length ≤ requested_batch + 1) := by
  induction ents with
  | nil =>
    intro i s
    exact ⟨[], by simp [VolatileRepository.deSerializeNew], rfl, fun h => Nat.le_succ_of_le h⟩
  | cons ent rest ih =>
    intro i s
    unfold VolatileRepository.deSerializeNew
    by_cases hfound : (getValue ent).found = true
    · simp only [hfound, if_true]
      by_cases hbreak : s.max_size ≥ requested_batch
      · simp only [hbreak, if_true]
        exact ⟨[deSerialize (lambda ()) (getValue ent).value.buffer], rfl, rfl, fun h => by
          simp only [List.length_singleton]; omega⟩
      · simp only [hbreak, if_false]
        obtain ⟨app, h1, h2, h3⟩ := ih (i + 1)
          { repo := VolatileRepository.release
              { s.repo with value_vector_ := s.repo.value_vector_.set i (getValue ent).entry }
              (getValue ent).value
            store := s.store ++ [deSerialize (lambda ()) (getValue ent).value.buffer]
            max_size := s.max_size + 1 }
        refine ⟨deSerialize (lambda ()) (getValue ent).value.buffer :: app, ?_, ?_, fun h => ?_⟩
        · rw [h1]; simp
        · rw [h2]; simp only [List.length_cons]; omega
        · have := h3 (by show s.max_size + 1 ≤ requested_batch; omega)
          change s.max_size + 1 + app.length ≤ requested_batch + 1 at this
          simp only [List.length_cons]
          omega
    · simp only [hfound, Bool.false_eq_true, if_false]
      exact ih (i + 1) _

/-- C22 (what the code does): `DeSerialize(store, max_size, lambda)` called with
`max_size = n` appends components to `store`, on return `max_size` is the
number of components appended and the value returned is true iff that number
is positive; the number appended is at most `n + 1`, and it is `n + 1`, not at
most `n`, on a repository that holds more than `n` entries: with `n = 1` and
two entries both are appended and `max_size` is 2. -/
theorem DeSerialize_count :
    (∀ {E C : Type} (getValue : E → GetResult E) (lambda : Unit → C)
      (deSerialize : C → List Nat → C) (repo : VolatileRepository E) (store : List C)
      (n : Nat),
      ∃ appended,
        (VolatileRepository.DeSerialize getValue lambda deSerialize repo store n).2.store =
          store ++ appended ∧
        (VolatileRepository.DeSerialize getValue lambda deSerialize repo store n).2.max_size =
          appended.length ∧
        appended.length ≤ n + 1 ∧
        ((VolatileRepository.DeSerialize getValue lambda deSerialize repo store n).1 = true ↔
          0 < appended.length)) ∧
    (VolatileRepository.DeSerialize takeValue (fun _ => ([] : List Nat)) (fun _ buf => buf)
      twoEntries [] 1).2.store = [[1], [2]] ∧
    (VolatileRepository.DeSerialize takeValue (fun _ => ([] : List Nat)) (fun _ buf => buf)
      twoEntries [] 1).2.max_size = 2 ∧
    ¬ (List.length (VolatileRepository.DeSerialize takeValue (fun _ => ([] : List Nat))
      (fun _ buf => buf) twoEntries [] 1).2.store ≤ 1) := by
  refine ⟨?_, by decide, by decide, by decide⟩
  intro E C getValue lambda deSerialize repo store n
  obtain ⟨app, h1, h2, h3⟩ := deSerializeNew_count getValue lambda deSerialize n
    repo.value_vector_ 0 { repo := repo, store := store, max_size := 0 }
  have h2' : (VolatileRepository.deSerializeNew getValue lambda deSerialize n
      repo.value_vector_ 0 { repo := repo, store := store, max_size := 0 }).max_size =
      app.length := by
    rw [h2]; exact Nat.zero_add _
  refine ⟨app, h1, h2', ?_, ?_⟩
  · have := h3 (Nat.zero_le _)
    have e : (0 : Nat) + app.length = app.length := Nat.zero_add _
    exact e ▸ this
  · unfold VolatileRepository.DeSerialize
    simp only [h2', gt_iff_lt, decide_eq_true_eq]

/-- C29 (the code on a store that is too small): `DeSerialize(store, max_size)`
on a repository that holds two entries throws `std::out_of_range` from
`store.at(max_size)` when the store is empty, at index 0, and when the store
has one component, at index 1 after the first entry was written to index 0;
with a store of two components it returns. -/
theorem DeSerializeStore_out_of_range :
    VolatileRepository.DeSerializeStore takeValue (fun (_ : List Nat) buf => buf) twoEntries
        [] = Except.error "std::out_of_range" ∧
      VolatileRepository.DeSerializeStore takeValue (fun (_ : List Nat) buf => buf) twoEntries
        [[]] = Except.error "std::out_of_range" ∧
      ∃ s, VolatileRepository.DeSerializeStore takeValue (fun (_ : List Nat) buf => buf)
        twoEntries [[], []] = Except.ok (true, s) ∧ s.store = [[1], [2]] :=
  ⟨rfl, rfl, _, rfl, rfl⟩

/-! ### `Property::setValue` -/

/-- C25, the counterexample: a property that is not a collection holds the
value `"on"`; `setValue("maybe")` fails validation and throws, and the stored
values are then `"maybe"`, not `"on"`.  Here a `PropertyValue` is a string
with the list of allowed strings as validator. -/
theorem setValue_not_atomic :
    (Property.setValue (fun (pv : String × List String) allowed => (pv.1, allowed))
        (fun pv (v : String) => (v, pv.2)) (fun pv _ => decide (pv.1 ∈ pv.2))
        { name_ := "Switch", default_value_ := ("off", []), values_ := [("on", ["on", "off"])],
          validator_ := ["on", "off"] } "maybe").2 =
      Except.error { what := "Switch value validation failed" } ∧
    (Property.setValue (fun (pv : String × List String) allowed => (pv.1, allowed))
        (fun pv (v : String) => (v, pv.2)) (fun pv _ => decide (pv.1 ∈ pv.2))
        { name_ := "Switch", default_value_ := ("off", []), values_ := [("on", ["on", "off"])],
          validator_ := ["on", "off"] } "maybe").1.values_ =
      [("maybe", ["on", "off"])] ∧
    ([("maybe", ["on", "off"])] : List (String × List String)) ≠ [("on", ["on", "off"])] := by
  refine ⟨rfl, by decide, by decide⟩

/-- C25, amended: `setValue(value)` throws `InvalidValueException` exactly when
the new value fails validation, and whether it throws or not the stored values
are afterwards, for a property that is not a collection, the new value alone,
and for a collection, the values before the call followed by the new value;
the other members are as before.  The same holds for the overload that takes
a `PropertyValue`. -/
theorem setValue_values {PV V T : Type} (setValidator : PV → V → PV) (assign : PV → T → PV)
    (validate : PV → String → Bool) (p : Property PV V) (value : T) (newValue : PV) :
    ((p.setValue setValidator assign validate value).1.values_ =
        (if p.is_collection_ then p.values_ else []) ++
          [assign (setValidator p.default_value_ p.validator_) value]) ∧
      ((p.setValue setValidator assign validate value).2 =
          Except.error { what := p.name_ ++ " value validation failed" } ↔
        validate (assign (setValidator p.default_value_ p.validator_) value) p.name_ = false) ∧
      ((p.setValue setValidator assign validate value).2 = Except.ok () ↔
        validate (assign (setValidator p.default_value_ p.validator_) value) p.name_ = true) ∧
      (p.setValue setValidator assign validate value).1 =
        { p with values_ := (p.setValue setValidator assign validate value).1.values_ } ∧
      ((p.setValuePV setValidator validate newValue).1.values_ =
        (if p.is_collection_ then p.values_ else []) ++ [setValidator newValue p.validator_]) ∧
      ((p.setValuePV setValidator validate newValue).2 =
          Except.error { what := p.name_ ++ " value validation failed" } ↔
        validate (setValidator newValue p.validator_) p.name_ = false) := by
  unfold Property.setValue Property.setValuePV
  cases hc : p.is_collection_ <;>
    cases hv : validate (assign (setValidator p.default_value_ p.validator_) value) p.name_ <;>
    cases hw : validate (setValidator newValue p.validator_) p.name_ <;>
    simp [hc, hv, hw, List.dropLast_concat]

/-! ### `Property::StringToPermissions` -/

/-- One character of the permission string: the step goes on exactly when the
character is the letter or `-`. -/
theorem permission_step {c : Option Char} {letter : Char} {temp bit v : Nat}
    (h : permissionsStep c letter temp bit = some v) :
    c = some letter ∨ c = some '-' := by
  unfold permissionsStep at h
  by_cases h1 : c = some letter
  · exact Or.inl h1
  · by_cases h2 : c = some '-'
    · exact Or.inr h2
    · simp [h1, h2] at h

/-- One iteration of the loop goes on only for three well-formed characters. -/
theorem permissionsLoop_valid (input : List Char) (n i temp v : Nat)
    (h : permissionsLoop input (n + 1) i temp = some v) :
    (input[i * 3]? = some 'r' ∨ input[i * 3]? = some '-') ∧
      (input[i * 3 + 1]? = some 'w' ∨ input[i * 3 + 1]? = some '-') ∧
      (input[i * 3 + 2]? = some 'x' ∨ input[i * 3 + 2]? = some '-') ∧
      ∃ t, permissionsLoop input n (i + 1) t = some v := by
  simp only [permissionsLoop, Option.bind_eq_some] at h
  obtain ⟨t1, h1, t2, h2, t3, h3, h4⟩ := h
  exact ⟨permission_step h1, permission_step h2, permission_step h3, t3, h4⟩

/-- The bits computed for the 512 well-formed permission strings. -/
theorem permissionsLoop_bits :
    ∀ b0 b1 b2 b3 b4 b5 b6 b7 b8 : Bool,
      ∃ v, permissionsLoop
          [if b0 then 'r' else '-', if b1 then 'w' else '-', if b2 then 'x' else '-',
            if b3 then 'r' else '-', if b4 then 'w' else '-', if b5 then 'x' else '-',
            if b6 then 'r' else '-', if b7 then 'w' else '-', if b8 then 'x' else '-']
          3 0 0 = some v ∧ v < 512 ∧
        v.testBit 8 = b0 ∧ v.testBit 7 = b1 ∧ v.testBit 6 = b2 ∧ v.testBit 5 = b3 ∧
        v.testBit 4 = b4 ∧ v.testBit 3 = b5 ∧ v.testBit 2 = b6 ∧ v.testBit 1 = b7 ∧
        v.testBit 0 = b8 := by
  intro b0 b1 b2 b3 b4 b5 b6 b7 b8
  cases b0 <;> cases b1 <;> cases b2 <;> cases b3 <;> cases b4 <;> cases b5 <;> cases b6 <;>
    cases b7 <;> cases b8 <;> exact ⟨_, rfl, by decide⟩

/-- A well-formed character is the letter or `-`, as a Boolean choice. -/
theorem permission_choice {c : Option Char} {letter : Char}
    (h : c = some letter ∨ c = some '-') :
    ∃ b : Bool, c = some (if b then letter else '-') := by
  rcases h with h | h
  · exact ⟨true, h⟩
  · exact ⟨false, h⟩

/-- A 9-character input on which the loop goes through is well formed. -/
theorem permissionsLoop_wellFormed (input : List Char) (v : Nat)
    (h : permissionsLoop input 3 0 0 = some v) :
    ∀ k, k < 9 → input[k]? = some (permissionLetter k) ∨ input[k]? = some '-' := by
  obtain ⟨a0, a1, a2, t1, h1⟩ := permissionsLoop_valid input 2 0 0 v h
  obtain ⟨a3, a4, a5, t2, h2⟩ := permissionsLoop_valid input 1 1 t1 v h1
  obtain ⟨a6, a7, a8, -, -⟩ := permissionsLoop_valid input 0 2 t2 v h2
  intro k hk
  interval_cases k
  · exact a0
  · exact a1
  · exact a2
  · exact a3
  · exact a4
  · exact a5
  · exact a6
  · exact a7
  · exact a8

/-- C26: for a 9-character input whose characters at positions 0, 3, 6 are `r`
or `-`, at positions 1, 4, 7 are `w` or `-` and at positions 2, 5, 8 are `x` or
`-`, `StringToPermissions` returns true and sets `output` to the 9-bit number
whose bit `8 - k` is set iff character `k` is not `-`; for every other
9-character input it returns false and leaves `output` as it was;
`rwxr-xr-x` gives 0755. -/
theorem StringToPermissions_rwx (input : List Char) (output : Nat)
    (hlen : input.length = 9) :
    ((∀ k, k < 9 → input[k]? = some (permissionLetter k) ∨ input[k]? = some '-') →
      ∃ v, StringToPermissions input output = (true, v) ∧ v < 512 ∧
        ∀ k, k < 9 → v.testBit (8 - k) = decide (input[k]? ≠ some '-')) ∧
    (¬ (∀ k, k < 9 → input[k]? = some (permissionLetter k) ∨ input[k]? = some '-') →
      StringToPermissions input output = (false, output)) ∧
    StringToPermissions ['r', 'w', 'x', 'r', '-', 'x', 'r', '-', 'x'] output =
      (true, 7 * 64 + 5 * 8 + 5) := by
  refine ⟨fun hvalid => ?_, fun hbad => ?_, rfl⟩
  · obtain ⟨b0, e0⟩ := permission_choice (hvalid 0 (by decide))
    obtain ⟨b1, e1⟩ := permission_choice (hvalid 1 (by decide))
    obtain ⟨b2, e2⟩ := permission_choice (hvalid 2 (by decide))
    obtain ⟨b3, e3⟩ := permission_choice (hvalid 3 (by decide))
    obtain ⟨b4, e4⟩ := permission_choice (hvalid 4 (by decide))
    obtain ⟨b5, e5⟩ := permission_choice (hvalid 5 (by decide))
    obtain ⟨b6, e6⟩ := permission_choice (hvalid 6 (by decide))
    obtain ⟨b7, e7⟩ := permission_choice (hvalid 7 (by decide))
    obtain ⟨b8, e8⟩ := permission_choice (hvalid 8 (by decide))
    have hin : input =
        [if b0 then 'r' else '-', if b1 then 'w' else '-', if b2 then 'x' else '-',
          if b3 then 'r' else '-', if b4 then 'w' else '-', if b5 then 'x' else '-',
          if b6 then 'r' else '-', if b7 then 'w' else '-', if b8 then 'x' else '-'] := by
      apply List.ext_getElem?
      intro k
      by_cases hk : k < 9
      · interval_cases k
        · exact e0
        · exact e1
        · exact e2
        · exact e3
        · exact e4
        · exact e5
        · exact e6
        · exact e7
        · exact e8
      · rw [List.getElem?_eq_none (by omega), List.getElem?_eq_none (by simp; omega)]
    obtain ⟨v, hv, hlt, t0, t1, t2, t3, t4, t5, t6, t7, t8⟩ :=
      permissionsLoop_bits b0 b1 b2 b3 b4 b5 b6 b7 b8
    rw [← hin] at hv
    refine ⟨v, ?_, hlt, ?_⟩
    · unfold StringToPermissions
      rw [if_pos hlen, hv]
    · intro k hk
      interval_cases k
      · rw [e0, t0]; cases b0 <;> decide
      · rw [e1, t1]; cases b1 <;> decide
      · rw [e2, t2]; cases b2 <;> decide
      · rw [e3, t3]; cases b3 <;> decide
      · rw [e4, t4]; cases b4 <;> decide
      · rw [e5, t5]; cases b5 <;> decide
      · rw [e6, t6]; cases b6 <;> decide
      · rw [e7, t7]; cases b7 <;> decide
      · rw [e8, t8]; cases b8 <;> decide
  · unfold StringToPermissions
    rw [if_pos hlen]
    cases h : permissionsLoop input 3 0 0 with
    | none => rfl
    | some v => exact absurd (permissionsLoop_wellFormed input v h) hbad

theorem StringToPermissions_rwx_witness :
    ((∀ k, k < 9 → ['r', 'w', '-', 'r', '-', '-', '-', '-', '-'][k]? =
        some (permissionLetter k) ∨
        ['r', 'w', '-', 'r', '-', '-', '-', '-', '-'][k]? = some '-') →
      ∃ v, StringToPermissions ['r', 'w', '-', 'r', '-', '-', '-', '-', '-'] 0 = (true, v) ∧
        v < 512 ∧
        ∀ k, k < 9 → v.testBit (8 - k) =
          decide (['r', 'w', '-', 'r', '-', '-', '-', '-', '-'][k]? ≠ some '-')) ∧
    (¬ (∀ k, k < 9 → ['r', 'w', '-', 'r', '-', '-', '-', '-', '-'][k]? =
        some (permissionLetter k) ∨
        ['r', 'w', '-', 'r', '-', '-', '-', '-', '-'][k]? = some '-') →
      StringToPermissions ['r', 'w', '-', 'r', '-', '-', '-', '-', '-'] 0 = (false, 0)) ∧
    StringToPermissions ['r', 'w', 'x', 'r', '-', 'x', 'r', '-', 'x'] 0 =
      (true, 7 * 64 + 5 * 8 + 5) :=
  StringToPermissions_rwx ['r', 'w', '-', 'r', '-', '-', '-', '-', '-'] 0 rfl

/-- C27 (the code on an octal number of `2^32` or more): the input
`40000000000`, 11 characters, is the octal number `2^32`; `std::stoul` reads
all of it, the value stored in the 32-bit `temp` is 0, the test against
`0777` passes and `StringToPermissions` returns true with `output = 0`.  In
the same way `40000000755`, the octal number `2^32 + 0755`, gives true with
`output = 0755`, while `1000`, the octal number `0777 + 1`, is rejected. -/
theorem StringToPermissions_wraps :
    stoul ['4', '0', '0', '0', '0', '0', '0', '0', '0', '0', '0'] 8 =
        Except.ok (2 ^ 32, 11) ∧
      StringToPermissions ['4', '0', '0', '0', '0', '0', '0', '0', '0', '0', '0'] 7 =
        (true, 0) ∧
      StringToPermissions ['4', '0', '0', '0', '0', '0', '0', '0', '7', '5', '5'] 7 =
        (true, 7 * 64 + 5 * 8 + 5) ∧
      StringToPermissions ['1', '0', '0', '0'] 7 = (false, 7) := by
  refine ⟨rfl, by decide, by decide, by decide⟩

/-! ### `Bin::offer` -/

/-- C28, the counterexample: a bin with entry limits 1 and 10 is offered a flow
file of 200 bytes, more than the 100 bytes the bin takes, that carries the
file-count attribute with value 5; `offer` returns false and both entry limits
of the bin are then 5. -/
theorem offer_changes_limits :
    (defragBin.offer bigFragment).1 = false ∧
      (defragBin.offer bigFragment).2.maxEntries_ = 5 ∧
      (defragBin.offer bigFragment).2.minEntries_ = 5 ∧
      defragBin.maxEntries_ = 10 ∧ defragBin.minEntries_ = 1 := by
  decide

/-- C28, amended: whenever `offer(flow)` returns false, the queue of the bin,
its queued byte size and its size limits are the same as before the call; its
minimum and maximum entry limits are the same as before unless the flow file
carries the configured file-count attribute with a value that `std::stoul`
reads as a number, and then both limits are that number. -/
theorem offer_rejected (b : Bin) (flow : FlowFile) (hrej : (b.offer flow).1 = false) :
    (b.offer flow).2.queue_ = b.queue_ ∧
      (b.offer flow).2.queued_data_size_ = b.queued_data_size_ ∧
      (b.offer flow).2.minSize_ = b.minSize_ ∧ (b.offer flow).2.maxSize_ = b.maxSize_ ∧
      (b.fileCountOf flow = none → (b.offer flow).2 = b) ∧
      (∀ count, b.fileCountOf flow = some count →
        (b.offer flow).2.maxEntries_ = count ∧ (b.offer flow).2.minEntries_ = count) := by
  unfold Bin.offer at hrej ⊢
  cases hcount : b.fileCountOf flow with
  | none =>
    simp only [hcount] at hrej ⊢
    split_ifs at hrej ⊢ with h
    simp
  | some count =>
    simp only [hcount] at hrej ⊢
    split_ifs at hrej ⊢ with h
    simp

theorem offer_rejected_witness :
    (defragBin.offer bigFragment).2.queue_ = defragBin.queue_ ∧
      (defragBin.offer bigFragment).2.queued_data_size_ = defragBin.queued_data_size_ ∧
      (defragBin.offer bigFragment).2.minSize_ = defragBin.minSize_ ∧
      (defragBin.offer bigFragment).2.maxSize_ = defragBin.maxSize_ ∧
      (defragBin.fileCountOf bigFragment = none →
        (defragBin.offer bigFragment).2 = defragBin) ∧
      (∀ count, defragBin.fileCountOf bigFragment = some count →
        (defragBin.offer bigFragment).2.maxEntries_ = count ∧
          (defragBin.offer bigFragment).2.minEntries_ = count) :=
  offer_rejected defragBin bigFragment (by decide)

/-! ### HTTP header field names -/

/-- C23: for every string `s` the result of
`replaceInvalidCharactersInHttpHeaderFieldName(s)` is accepted by
`isValidHttpHeaderField`; it is `s` when `s` is a valid header field name, it
is `X-MiNiFi-Empty-Attribute-Name` when `s` is empty, and otherwise it has the
length of `s` and at every position the character of `s`, or `-` where that
character is invalid.  The values of the unit tests are reproduced. -/
theorem replaceInvalidCharacters_valid (s : List Char) :
    isValidHttpHeaderField (replaceInvalidCharactersInHttpHeaderFieldName s) = true ∧
      (isValidHttpHeaderField s = true → replaceInvalidCharactersInHttpHeaderFieldName s = s) ∧
      (s = [] → replaceInvalidCharactersInHttpHeaderFieldName s =
        "X-MiNiFi-Empty-Attribute-Name".toList) ∧
      (s ≠ [] →
        (replaceInvalidCharactersInHttpHeaderFieldName s).length = s.length ∧
        ∀ (i : Nat) (c : Char), s[i]? = some c →
          (replaceInvalidCharactersInHttpHeaderFieldName s)[i]? =
            some (if invalidHeaderChar c then '-' else c)) ∧
      replaceInvalidCharactersInHttpHeaderFieldName
          ("invalid".toList ++ [Char.ofNat 11] ++ "character".toList) =
        "invalid-character".toList ∧
      replaceInvalidCharactersInHttpHeaderFieldName
          ("invalid".toList ++ [Char.ofNat 128] ++ "character".toList) =
        "invalid-character".toList ∧
      replaceInvalidCharactersInHttpHeaderFieldName "contains:invalid".toList =
        "contains-invalid".toList ∧
      replaceInvalidCharactersInHttpHeaderFieldName [' '] = ['-'] ∧
      isValidHttpHeaderField "valid".toList = true ∧
      isValidHttpHeaderField [] = false ∧
      isValidHttpHeaderField "contains:invalid".toList = false := by
  refine ⟨?_, ?_, ?_, ?_, by decide, by decide, by decide, by decide, by decide, by decide,
    by decide⟩
  · unfold replaceInvalidCharactersInHttpHeaderFieldName
    cases s with
    | nil => decide
    | cons a l =>
      simp only [List.isEmpty_cons, Bool.false_eq_true, if_false]
      unfold isValidHttpHeaderField
      simp only [List.map_cons, List.isEmpty_cons, Bool.not_false, Bool.true_and,
        List.all_eq_true, List.mem_cons, List.mem_map]
      intro c hc
      have hdash : (!invalidHeaderChar '-') = true := by decide
      have key : ∀ x : Char, (!invalidHeaderChar (if invalidHeaderChar x then '-' else x)) =
          true := by
        intro x
        by_cases hx : invalidHeaderChar x = true
        · rw [if_pos hx]; exact hdash
        · rw [if_neg hx]; simpa using hx
      rcases hc with rfl | ⟨x, -, rfl⟩
      · exact key a
      · exact key x
  · intro hvalid
    unfold isValidHttpHeaderField at hvalid
    unfold replaceInvalidCharactersInHttpHeaderFieldName
    simp only [Bool.and_eq_true, Bool.not_eq_true', List.all_eq_true] at hvalid
    rw [if_neg (by simp [hvalid.1])]
    conv_rhs => rw [← List.map_id s]
    apply List.map_congr_left
    intro c hc
    have := hvalid.2 c hc
    simp only [Bool.not_eq_true'] at this
    simp [this]
  · intro hs
    subst hs
    rfl
  · intro hs
    unfold replaceInvalidCharactersInHttpHeaderFieldName
    have hne : s.isEmpty = false := by
      cases s with
      | nil => exact absurd rfl hs
      | cons a l => rfl
    simp only [hne, Bool.false_eq_true, if_false, List.length_map, true_and]
    intro i c hc
    rw [List.getElem?_map, hc]
    rfl

/-! ### The priority field of `rfc5424_pattern_` -/

set_option maxRecDepth 100000 in
/-- The numbers below 1000 whose decimal form the priority group matches. -/
theorem priorityGroup_decimal :
    ∀ p, p < 1000 →
      priorityGroup (Nat.toDigits 10 p) = (decide (p < 100) || decide (110 ≤ p ∧ p ≤ 191)) := by
  decide

/-- C30 (the code on the priorities 100 to 109): the priority group of
`rfc5424_pattern_` matches the decimal numbers from 0 to 99 and from 110 to
191 and none of the numbers from 100 to 109 or above 191, so a message that
begins with `<100>` does not match the pattern whatever follows, while
`<165>` gives severity `165 mod 8 = 5` and facility `165 div 8 = 20`. -/
theorem priorityGroup_rejects_100 :
    (∀ p, p < 1000 →
      priorityGroup (Nat.toDigits 10 p) = (decide (p < 100) || decide (110 ≤ p ∧ p ≤ 191))) ∧
    priorityGroup ['1', '0', '0'] = false ∧
    (∀ (rest : List Char → Bool) (fields : List Char),
      priorityAttributes rest ('<' :: '1' :: '0' :: '0' :: '>' :: fields) = none) ∧
    priorityAttributes (fun _ => true) ['<', '1', '6', '5', '>', '1', ' ', '-'] =
      some [("syslog.priority", toString 165), ("syslog.severity", toString 5),
        ("syslog.facility", toString 20)] := by
  refine ⟨priorityGroup_decimal, by decide, fun rest fields => ?_, by rfl⟩
  simp [priorityAttributes, rfc5424Priority, priorityGroup, List.takeWhile]

end MiNiFi
